import Mathlib

/-!
A shallow embedding of the partition-refinement engine in `partition.go`
(package `partition`).  The Go program is sequentialized in the canonical
schedule: ring blocks are processed in ring order, the per-block cleanup
goroutines of `Refine` run in ascending order of block handle, and channel
operations are FIFO.  Fatal conditions (panics, out-of-range slice accesses,
blocking channel receives) are modelled by `Option.none`; potential
divergence is modelled with explicit fuel.  Machine integers are modelled by
`Nat`; no quantity in reach of the claims overflows or goes negative.
-/

/-- One record of the block arena (Go type `Block`).  The Go field `end` is
called `bend` here because `end` is a Lean keyword; `witness` is `nil` in Go
exactly when it is `[]` here (the program only ever stores `nil` or non-empty
witnesses). -/
structure Block where
  bend : Nat
  next : Nat
  parent : Nat
  depth : Nat
  witness : List Nat
  deriving DecidableEq, Repr

/-- A splitter group (Go type `splitgroup`); a splitter is the frozen slot
range `(begin, end)` of one child of the inner node `parent`. -/
structure Splitgroup where
  splitters : List (Nat × Nat)
  parent : Nat
  deriving DecidableEq, Repr

/-- The engine state (Go type `Partition`).  The buffered channels
`available`, `splitgroups` and `count` are modelled by FIFO lists and a
number; receiving from a closed channel yields zero values, hence the two
closed flags. -/
structure Partition where
  indices : List Nat
  partition : List (Nat × Nat)
  blocks : List Block
  available : List Nat
  availableClosed : Bool
  splitgroups : List Splitgroup
  splitgroupsClosed : Bool
  degree : Nat
  count : Nat
  deriving DecidableEq, Repr

/-- Bounds-checked list update: Go slice writes panic when out of range. -/
def setAt (l : List α) (i : Nat) (x : α) : Option (List α) :=
  if i < l.length then some (l.set i x) else none

/-- Receive on the `available` channel: FIFO pop; a closed empty channel
yields the zero value 0; an open empty channel blocks forever (no result). -/
def Partition.recvAvail (p : Partition) : Option (Nat × Partition) :=
  match p.available with
  | h :: t => some (h, { p with available := t })
  | [] => if p.availableClosed then some (0, p) else none

/-- Go `Partition.Range`: the begin/end slot boundaries of block `b`. -/
def Partition.Range (p : Partition) (b : Nat) : Option (Nat × Nat) := do
  let block ← p.blocks.get? b
  if block.next ≠ 0 then
    let nb ← p.blocks.get? block.next
    pure (nb.bend, block.bend)
  else
    pure (0, block.bend)

/-- Go `Partition.Len`: number of elements in block `b`. -/
def Partition.Len (p : Partition) (b : Nat) : Option Nat := do
  let (b0, e0) ← p.Range b
  pure (e0 - b0)

/-- Go `Partition.insertAfter`: create a fresh leaf record at handle `i`,
splice it between `b` and `b`'s ring successor, increment the block count. -/
def Partition.insertAfter (p : Partition) (b i : Nat) : Option Partition := do
  let (e0, _) ← p.Range b
  let bb ← p.blocks.get? b
  let blocks1 ← setAt p.blocks i ⟨e0, bb.next, 0, bb.depth, []⟩
  let bb1 ← blocks1.get? b
  let blocks2 ← setAt blocks1 b { bb1 with next := i }
  pure { p with blocks := blocks2, count := p.count + 1 }

/-- Go `Partition.move`: repeatedly push the element at slot `i` into the
next block along the ring until it sits in block `target`.  A hop swaps the
element with the boundary element and grows the next block by one slot.  The
recursion is metered by `fuel`; the Go original recurses unboundedly and
panics when the sentinel 0 is reached before `target`. -/
def Partition.move : Nat → Partition → Nat → Nat → Option Partition
  | 0, _, _, _ => none
  | fuel + 1, p, i, target => do
    let pr ← p.partition.get? i
    let element := pr.1
    let b := pr.2
    if b = target then
      pure p
    else do
      let bb ← p.blocks.get? b
      let n := bb.next
      if n = 0 then
        none
      else do
        let nb ← p.blocks.get? n
        let pivot := nb.bend
        let pv ← p.partition.get? pivot
        let other := pv.1
        let part1 ← setAt p.partition i pv
        let part2 ← setAt part1 pivot (element, n)
        let idx1 ← setAt p.indices element pivot
        let idx2 ← setAt idx1 other i
        let blocks1 ← setAt p.blocks n { nb with bend := nb.bend + 1 }
        Partition.move fuel
          { p with partition := part2, indices := idx2, blocks := blocks1 }
          pivot target

/-- Go `Partition.blockIndices`: the ring handles from `current` up to (not
including) `to`, stopping at the 0 sentinel.  Fuel bounds the walk; the Go
walker loops forever on a (corrupt) cyclic ring. -/
def Partition.blockIndices : Nat → Partition → Nat → Nat → Option (List Nat)
  | 0, _, _, _ => none
  | fuel + 1, p, current, toIdx => do
    let b ← p.blocks.get? current
    if b.next = toIdx ∨ b.next = 0 then
      pure [current]
    else do
      let rest ← Partition.blockIndices fuel p b.next toIdx
      pure (current :: rest)

/-- One step of `makeParent`'s child loop: set `parent`/`depth` on the child
and record its slot range as a splitter, tracking the first child of maximal
length seen so far. -/
def makeParentChild (index : Nat) (st : Partition × List (Nat × Nat) × Nat × Nat)
    (child : Nat) : Option (Partition × List (Nat × Nat) × Nat × Nat) := do
  let (p, splitters, largest, length) := st
  let cb ← p.blocks.get? child
  let blocks1 ← setAt p.blocks child { cb with parent := index, depth := cb.depth + 1 }
  let p1 := { p with blocks := blocks1 }
  let (cbegin, cend) ← p1.Range child
  let splitters1 := splitters ++ [(cbegin, cend)]
  let len ← p1.Len child
  if length < len then
    pure (p1, splitters1, splitters1.length - 1, len)
  else
    pure (p1, splitters1, largest, length)

/-- Fold `makeParentChild` over the children list. -/
def makeParentChildren (index : Nat) :
    Partition × List (Nat × Nat) × Nat × Nat → List Nat →
    Option (Partition × List (Nat × Nat) × Nat × Nat)
  | st, [] => some st
  | st, c :: cs => do
    let st1 ← makeParentChild index st c
    makeParentChildren index st1 cs

/-- Go `Partition.makeParent`: allocate an inner-node handle, reparent every
ring block from `first` up to (not including) `nextIdx`, store the inner
record with the given witness, and enqueue the splitter group (with its
largest splitter removed).  The walk is fuelled by the arena size, which
bounds any acyclic ring. -/
def Partition.makeParent (p : Partition) (first nextIdx : Nat) (witness : List Nat) :
    Option Partition := do
  let fb ← p.blocks.get? first
  let e0 := fb.bend
  let grandparent := fb.parent
  let depth := fb.depth
  let (index, p1) ← p.recvAvail
  let children ← Partition.blockIndices (p1.blocks.length + 1) p1 first nextIdx
  let (p2, splitters, largest, _) ← makeParentChildren index (p1, [], 0, 0) children
  let blocks1 ← setAt p2.blocks index ⟨e0, nextIdx, grandparent, depth, witness⟩
  let sg : Splitgroup := ⟨splitters.eraseIdx largest, index⟩
  pure { p2 with blocks := blocks1, splitgroups := p2.splitgroups ++ [sg] }

/-- The bucketing loop of Go `split`: scan slots `[i, i+k)` of the partition
array and append each element to the bucket of its class; a class at or above
`degree` (the bucket count) is a fatal index-out-of-range. -/
def bucketsAux (part : List (Nat × Nat)) (f : Nat → Nat) :
    Nat → Nat → List (List Nat) → Option (List (List Nat))
  | _, 0, acc => some acc
  | i, k + 1, acc => do
    let pr ← part.get? i
    let cls := f pr.1
    let bucket ← acc.get? cls
    bucketsAux part f (i + 1) k (acc.set cls (bucket ++ [pr.1]))

/-- The inner write loop of Go `split`: place the states of one class at
descending positions ending at `pos`, tagging them with block `sb` and
updating the inverse index. -/
def writeStates (sb : Nat) : List Nat → List (Nat × Nat) → List Nat → Nat →
    Option (List (Nat × Nat) × List Nat × Nat)
  | [], part, idx, pos => some (part, idx, pos)
  | st :: rest, part, idx, pos => do
    let pos1 := pos - 1
    let part1 ← setAt part pos1 (st, sb)
    let idx1 ← setAt idx st pos1
    writeStates sb rest part1 idx1 pos1

/-- The per-class loop of Go `split`: the first non-empty class reuses block
`b`; every later non-empty class acquires a fresh handle, splices it after
`last` and sets its `end` boundary to the current position. -/
def splitClasses (b : Nat) (buckets : List (List Nat)) :
    List Nat → Partition → Nat → Bool → Nat → Option (Partition × Nat × Bool × Nat)
  | [], p, last, first, pos => some (p, last, first, pos)
  | cls :: rest, p, last, first, pos => do
    let states ← buckets.get? cls
    if states.length > 0 then
      if first then do
        let (part1, idx1, pos1) ← writeStates b states p.partition p.indices pos
        splitClasses b buckets rest { p with partition := part1, indices := idx1 }
          last false pos1
      else do
        let (sb, p1) ← p.recvAvail
        let p2 ← p1.insertAfter last sb
        let sbb ← p2.blocks.get? sb
        let blocks1 ← setAt p2.blocks sb { sbb with bend := pos }
        let p3 := { p2 with blocks := blocks1 }
        let (part1, idx1, pos1) ← writeStates sb states p3.partition p3.indices pos
        splitClasses b buckets rest { p3 with partition := part1, indices := idx1 }
          sb false pos1
    else
      splitClasses b buckets rest p last first pos

/-- Go `Partition.split`: group the elements of block `b` by class; when more
than one class occurs, rewrite the block's slot range class by class (each
class contiguous, classes from the right end leftwards) and return `true`. -/
def Partition.split (p : Partition) (b degree : Nat) (f : Nat → Nat) :
    Option (Partition × Bool) := do
  let (s, e) ← p.Range b
  let buckets ← bucketsAux p.partition f s (e - s) (List.replicate degree [])
  let firstPr ← p.partition.get? s
  let bucket0 ← buckets.get? (f firstPr.1)
  if bucket0.length = e - s then
    pure (p, false)
  else do
    let (p1, last, first, _) ← splitClasses b buckets (List.range degree) p b true e
    if first = true ∨ last = b then none
    else pure (p1, true)

/-- One block of one initial-partitioning pass of Go `New`: capture the ring
successor, split by the class function, and on success build the inner-node
parent whose witness is the class-function index (or nil). -/
def newProcessBlock (degree : Nat) (isWitness : Bool) (cls : Nat) (f : Nat → Nat)
    (p : Partition) (b : Nat) : Option Partition := do
  let bb ← p.blocks.get? b
  let nxt := bb.next
  let (p1, isSplit) ← p.split b degree f
  if isSplit then
    p1.makeParent b nxt (if isWitness then [cls] else [])
  else
    pure p1

/-- Fold of `newProcessBlock` over the ring snapshot of one pass. -/
def newPassBlocks (degree : Nat) (isWitness : Bool) (cls : Nat) (f : Nat → Nat) :
    Partition → List Nat → Option Partition
  | p, [] => some p
  | p, b :: bs => do
    let p1 ← newProcessBlock degree isWitness cls f p b
    newPassBlocks degree isWitness cls f p1 bs

/-- The passes of Go `New`, one per class function, each over a snapshot of
the current leaf ring. -/
def newPasses (degree : Nat) (isWitness : Bool) :
    Nat → List (Nat → Nat) → Partition → Option Partition
  | _, [], p => some p
  | cls, f :: fs, p => do
    let snapshot ← Partition.blockIndices (p.blocks.length + 1) p 0 0
    let p1 ← newPassBlocks degree isWitness cls f p snapshot
    newPasses degree isWitness (cls + 1) fs p1

/-- Go `New`: for `n = 0` the arena allocation `make([]Block, 2*n-1)` has a
negative length and panics; otherwise the initial state is built and the
class-function passes are applied in order. -/
def New (n degree : Nat) (isWitness : Bool) (functions : List (Nat → Nat)) :
    Option Partition :=
  if 2 * n < 1 then none
  else
    newPasses degree isWitness 0 functions
      { indices := List.range n
        partition := (List.range n).map (fun i => (i, 0))
        blocks := ⟨n, 0, 0, 0, []⟩ :: List.replicate (2 * n - 2) ⟨0, 0, 0, 0, []⟩
        available := List.range' 1 (2 * n - 2)
        availableClosed := false
        splitgroups := []
        splitgroupsClosed := false
        degree := degree
        count := 1 }

/-- The preimage-array construction of Go `Refine` for one function:
`pre[j]` lists, in ascending order, the `i < n` with `f i = j`; `f i` out of
`[0, n)` is a fatal index-out-of-range. -/
def preimageAux (f : Nat → Nat) : Nat → Nat → List (List Nat) → Option (List (List Nat))
  | _, 0, acc => some acc
  | i, k + 1, acc => do
    let bucket ← acc.get? (f i)
    preimageAux f (i + 1) k (acc.set (f i) (bucket ++ [i]))

/-- Preimage arrays for all transition functions. -/
def buildPreimages (n : Nat) : List (Nat → Nat) → Option (List (List (List Nat)))
  | [] => some []
  | f :: fs => do
    let pre ← preimageAux f 0 n (List.replicate n [])
    let rest ← buildPreimages n fs
    pure (pre :: rest)

/-- The captured mutable state of one Go `subblockFunction` closure. -/
structure SubState where
  seenS : List Nat
  mS : List (Nat × Nat)
  lastS : Nat
  deriving DecidableEq, Repr

/-- Update (or insert) a key in an association list. -/
def assocSet : List (Nat × α) → Nat → α → List (Nat × α)
  | [], k, v => [(k, v)]
  | (k', v') :: rest, k, v =>
    if k' = k then (k, v) :: rest else (k', v') :: assocSet rest k v

/-- A call of a Go `subblockFunction` closure: on a successor block not seen
before, acquire a fresh handle and splice it after the closure's `last`. -/
def subblockCall (p : Partition) (st : SubState) (sbkey : Nat) :
    Option (Partition × SubState × Nat) :=
  if st.seenS.contains sbkey then
    match st.mS.lookup sbkey with
    | some r => some (p, st, r)
    | none => none
  else do
    let (i, p1) ← p.recvAvail
    let p2 ← p1.insertAfter st.lastS i
    pure (p2, ⟨sbkey :: st.seenS, (sbkey, i) :: st.mS, i⟩, i)

/-- The state threaded through the marking/moving scan of one splitter:
the engine state, the per-block closures (`subblock`), and the `siblings`
and `seen` maps. -/
structure ScanState where
  p : Partition
  sub : List (Nat × SubState)
  siblings : List (Nat × List Nat)
  seen : List (Nat × List Nat)

/-- Handling of one predecessor `e` whose successor was captured with block
handle `succB`: skip singleton blocks, otherwise move `e` into the subblock
of its block selected by `succB`, recording fresh siblings. -/
def processPredecessor (succB : Nat) (st : ScanState) (e : Nat) : Option ScanState := do
  let idxE ← st.p.indices.get? e
  let pr ← st.p.partition.get? idxE
  let pb := pr.2
  let len ← st.p.Len pb
  if len = 1 then pure st
  else do
    let (sub1, siblings1, seen1, cst) :=
      match st.sub.lookup pb with
      | some c => (st.sub, st.siblings, st.seen, c)
      | none =>
        (assocSet st.sub pb ⟨[], [], pb⟩,
         assocSet st.siblings pb (List.replicate st.p.degree 0),
         assocSet st.seen pb [],
         (⟨[], [], pb⟩ : SubState))
    let (p1, cst1, sb) ← subblockCall st.p cst succB
    let sub2 := assocSet sub1 pb cst1
    let idxE1 ← p1.indices.get? e
    let p2 ← Partition.move (p1.blocks.length + 1) p1 idxE1 sb
    let seenB ← seen1.lookup pb
    let sibsB ← siblings1.lookup pb
    if seenB.contains sb then
      pure ⟨p2, sub2, siblings1, seen1⟩
    else
      pure ⟨p2, sub2, assocSet siblings1 pb (sibsB ++ [sb]), assocSet seen1 pb (sb :: seenB)⟩

/-- Fold of `processPredecessor` over the preimage list of one successor. -/
def processPredecessors (succB : Nat) : ScanState → List Nat → Option ScanState
  | st, [] => some st
  | st, e :: es => do
    let st1 ← processPredecessor succB st e
    processPredecessors succB st1 es

/-- The scan over the slots `[pos, pos+k)` of one splitter; each slot is read
afresh (the Go code iterates over a slice alias of the partition array, whose
contents the moves keep changing). -/
def scanPositions (preimageF : List (List Nat)) : ScanState → Nat → Nat → Option ScanState
  | st, _, 0 => some st
  | st, pos, k + 1 => do
    let succPr ← st.p.partition.get? pos
    let preds ← preimageF.get? succPr.1
    let st1 ← processPredecessors succPr.2 st preds
    scanPositions preimageF st1 (pos + 1) k

/-- The retag loop of the Refine cleanup: stamp block handle `b` onto the
slots `[i, i+k)`. -/
def retagLoop (b : Nat) : List (Nat × Nat) → Nat → Nat → Option (List (Nat × Nat))
  | part, _, 0 => some part
  | part, i, k + 1 => do
    let pr ← part.get? i
    let part1 ← setAt part i (pr.1, b)
    retagLoop b part1 (i + 1) k

/-- The per-block cleanup of Go `Refine` (the body of the goroutine spawned
for each key of `siblings`): `first` is `siblings[b][0]`, which is always 0
because `make([]int, degree)` zero-fills; when `b`'s `end` equals `first`'s
`end` the residual slots are retagged, the ring is rewired and `first` is
sent to the free pool; finally the inner-node parent is built with witness
`f :: suffix`. -/
def cleanupBlock (f : Nat) (suffix : List Nat) (p : Partition) (b : Nat)
    (siblingsB : List Nat) : Option Partition := do
  let first ← siblingsB.get? 0
  let bb ← p.blocks.get? b
  let fb ← p.blocks.get? first
  if bb.bend = fb.bend then do
    let (rs, re) ← p.Range first
    let part1 ← retagLoop b p.partition rs (re - rs)
    let p1 := { p with partition := part1 }
    let bb1 ← p1.blocks.get? b
    let fb1 ← p1.blocks.get? first
    let blocks1 ← setAt p1.blocks b { bb1 with next := fb1.next }
    let p2 := { p1 with blocks := blocks1 }
    if p2.availableClosed then none
    else
      let p3 := { p2 with available := p2.available ++ [first] }
      let rest := siblingsB.drop 1
      if rest.length = 0 then pure p3
      else do
        let last ← rest.get? (rest.length - 1)
        let lb ← p3.blocks.get? last
        p3.makeParent b lb.next (f :: suffix)
  else do
    let last ← siblingsB.get? (siblingsB.length - 1)
    let lb ← p.blocks.get? last
    p.makeParent b lb.next (f :: suffix)

/-- The cleanup pass over all touched predecessor blocks, in the canonical
schedule: ascending block handle. -/
def cleanupAll (f : Nat) (suffix : List Nat) (siblings : List (Nat × List Nat)) :
    Partition → List Nat → Option Partition
  | p, [] => some p
  | p, b :: bs => do
    let sibsB ← siblings.lookup b
    let p1 ← cleanupBlock f suffix p b sibsB
    cleanupAll f suffix siblings p1 bs

/-- Insertion into a sorted list of naturals. -/
def insSorted (x : Nat) : List Nat → List Nat
  | [] => [x]
  | y :: ys => if x ≤ y then x :: y :: ys else y :: insSorted x ys

/-- Ascending sort, fixing the canonical iteration order of Go's map range. -/
def sortNat (l : List Nat) : List Nat := l.foldr insSorted []

/-- Processing of one splitter range for one function: the marking/moving
scan followed by the per-block cleanups. -/
def processSplitter (preimageF : List (List Nat)) (f : Nat) (suffix : List Nat)
    (p : Partition) (sp : Nat × Nat) : Option Partition := do
  let st ← scanPositions preimageF ⟨p, [], [], []⟩ sp.1 (sp.2 - sp.1)
  cleanupAll f suffix st.siblings st.p (sortNat (st.siblings.map Prod.fst))

/-- The splitter loop for one function, with the early-termination check
`count == n` after every splitter. -/
def processSplitters (preimageF : List (List Nat)) (f : Nat) (suffix : List Nat)
    (n : Nat) : Partition → List (Nat × Nat) → Option (Partition × Bool)
  | p, [] => some (p, false)
  | p, sp :: sps => do
    let p1 ← processSplitter preimageF f suffix p sp
    if p1.count = n then pure (p1, true)
    else processSplitters preimageF f suffix n p1 sps

/-- The function loop of one splitter-group iteration. -/
def processFunctions (suffix : List Nat) (n : Nat) (splitters : List (Nat × Nat)) :
    Partition → Nat → List (List (List Nat)) → Option (Partition × Bool)
  | p, _, [] => some (p, false)
  | p, f, pre :: pres => do
    let (p1, stop) ← processSplitters pre f suffix n p splitters
    if stop then pure (p1, true)
    else processFunctions suffix n splitters p1 (f + 1) pres

/-- Processing of one splitter group: read the stored witness of the group's
parent node, then run every function over every splitter of the group. -/
def processSG (preimages : List (List (List Nat))) (n : Nat) (p : Partition)
    (sg : Splitgroup) : Option (Partition × Bool) := do
  let pb ← p.blocks.get? sg.parent
  processFunctions pb.witness n sg.splitters p 0 preimages

/-- The driver loop of Go `Refine`: receive a splitter group and process it;
an empty open channel falls to the `default` case and stops; an empty closed
channel yields zero-value groups forever (the Go `select` never reaches
`default` on a closed channel). -/
def refineLoop (preimages : List (List (List Nat))) (n : Nat) :
    Nat → Partition → Option Partition
  | 0, _ => none
  | fuel + 1, p =>
    match p.splitgroups with
    | sg :: rest => do
      let (p1, stop) ← processSG preimages n { p with splitgroups := rest } sg
      if stop then pure p1 else refineLoop preimages n fuel p1
    | [] =>
      if p.splitgroupsClosed then do
        let (p1, stop) ← processSG preimages n p ⟨[], 0⟩
        if stop then pure p1 else refineLoop preimages n fuel p1
      else
        pure p

/-- Go `Partition.Refine`: build the preimages, drain the splitter worklist,
then close the two channels (closing an already-closed channel panics). -/
def Partition.Refine (fuel : Nat) (p : Partition) (functions : List (Nat → Nat)) :
    Option Partition := do
  let n := p.partition.length
  let preimages ← buildPreimages n functions
  let p1 ← refineLoop preimages n fuel p
  if p1.availableClosed then none
  else if p1.splitgroupsClosed then none
  else pure { p1 with availableClosed := true, splitgroupsClosed := true }

/-- The leaf handle of a value: `p.partition[p.indices[v]].b` (the observable
used by the repository's own tests). -/
def Partition.blockOf (p : Partition) (v : Nat) : Option Nat := do
  let i ← p.indices.get? v
  let pr ← p.partition.get? i
  pure pr.2

/-- Application of a word of transition indices, leftmost first:
`applyWord gs v (j1 :: ... :: jt) = g_jt (... (g_j1 v))`. -/
def applyWord (gs : List (Nat → Nat)) (v : Nat) : List Nat → Nat
  | [] => v
  | j :: w => applyWord gs ((gs.getD j id) v) w

/-- C10 helper: the observable of the claim — the block handle stored at a
slot. -/
def Partition.blockAt (p : Partition) (i : Nat) : Option Nat :=
  (p.partition.get? i).map Prod.snd

/-- The class function of the concrete refutation input: classes 0, 0, 1. -/
def exF : Nat → Nat := fun v => if v = 2 then 1 else 0

/-- The transition function of the concrete refutation input: 0 ↦ 2, 1 ↦ 2,
2 ↦ 0. -/
def exG : Nat → Nat := fun v => if v = 2 then 0 else 2

/-- The engine run on the concrete refutation input: `New(3, 2, true, exF)`
followed by `Refine(exG)` (ample fuel; the run finishes well within it). -/
def exRun : Option Partition := do
  let p ← New 3 2 true [exF]
  Partition.Refine 100 p [exG]

/-- A run function never returns a state, for any fuel: the fuel-indexed
rendering of nontermination or unconditional failure. -/
def NeverReturns (run : Nat → Option Partition) : Prop :=
  ∀ fuel, run fuel = none

/-- A tiny two-block state used to instantiate the `move` theorems: slot 0
holds element 0 in block 1. -/
def exMoveState : Partition :=
  { indices := [0]
    partition := [(0, 1)]
    blocks := [⟨1, 0, 0, 0, []⟩, ⟨1, 0, 0, 0, []⟩]
    available := []
    availableClosed := false
    splitgroups := []
    splitgroupsClosed := false
    degree := 1
    count := 1 }

/-- The two channel-closed flags of a state, preserved by every operation
except the closing step of `Refine` itself. -/
def flagsOf (p : Partition) : Bool × Bool := (p.availableClosed, p.splitgroupsClosed)

/-- A vacuous state, used only as the default of `Option.getD`. -/
def emptyP : Partition := ⟨[], [], [], [], false, [], false, 0, 0⟩

/-- The concrete engine right after `New(3, 2, true, exF)`. -/
def exP1 : Partition := (New 3 2 true [exF]).getD emptyP

/-- The concrete engine after the first completed `Refine(exG)` call. -/
def exP2 : Partition := (Partition.Refine 100 exP1 [exG]).getD emptyP

/-- Executable check of inverse-index consistency: for every populated slot,
the inverse index names that slot for the element stored there (and the
element is in range of the index array). -/
def invOKb (p : Partition) : Bool :=
  (List.range p.partition.length).all fun s =>
    match p.partition.get? s with
    | some pr => decide (p.indices.get? pr.1 = some s) && decide (pr.1 < p.indices.length)
    | none => true

/-- chainOk p b ch target: starting at block `b`, following `next` runs
exactly through `ch` and reaches `target` without meeting the 0 sentinel
(the last entry of a non-empty `ch` is `target` itself). -/
def chainOk (p : Partition) : Nat → List Nat → Nat → Prop
  | b, [], t => b = t
  | b, c :: cs, t =>
    b ≠ t ∧ ∃ blk, p.blocks.get? b = some blk ∧ blk.next = c ∧ c ≠ 0 ∧ chainOk p c cs t

/-- chainDead p b ch target: starting at block `b`, following `next` runs
through `ch` and then meets the 0 sentinel (or a missing block record)
without ever reaching `target`. -/
def chainDead (p : Partition) : Nat → List Nat → Nat → Prop
  | b, [], t => b ≠ t ∧ ∀ blk, p.blocks.get? b = some blk → blk.next = 0
  | b, c :: cs, t =>
    b ≠ t ∧ ∃ blk, p.blocks.get? b = some blk ∧ blk.next = c ∧ c ≠ 0 ∧ chainDead p c cs t

/-- A concrete state for the C8 witness: element 1 at slot 1 sits in block 1,
whose ring successor is block 2 with boundary 1. -/
def exMove2 : Partition :=
  { indices := [0, 1]
    partition := [(0, 2), (1, 1)]
    blocks := [⟨2, 0, 0, 0, []⟩, ⟨2, 2, 0, 0, []⟩, ⟨1, 0, 0, 0, []⟩]
    available := []
    availableClosed := false
    splitgroups := []
    splitgroupsClosed := false
    degree := 1
    count := 2 }

/-- The slot runs of a ring description `L` (ring order, head = rightmost
block): the partition array is the concatenation, in ascending slot order, of
the runs `es.map (·, h)` of the blocks listed right to left. -/
def runsOf (L : List (Nat × List Nat)) : List (Nat × Nat) :=
  (L.reverse.map (fun he => he.2.map (fun x => (x, he.1)))).flatten

/-- The ring handle a block's `next` field must name: the head of the rest of
the description, or the 0 sentinel at the end. -/
def ringNexts : List (Nat × List Nat) → Nat
  | [] => 0
  | (h, _) :: _ => h

/-- The total number of elements of a ring description. -/
def sumLen (L : List (Nat × List Nat)) : Nat :=
  (L.map (fun he => he.2.length)).sum

/-- RingOk bs L bound: the records of `L` chain through `next` down to the 0
sentinel, with `end` boundaries descending from `bound` by the run lengths
and reaching exactly 0. -/
def RingOk (bs : List Block) : List (Nat × List Nat) → Nat → Prop
  | [], bound => bound = 0
  | (h, es) :: rest, bound =>
    ∃ blk, bs.get? h = some blk ∧ blk.bend = bound ∧ blk.next = ringNexts rest ∧
      es.length ≤ bound ∧ RingOk bs rest (bound - es.length)

/-- The handle a segment entry's `next` field must name, with an explicit
continuation handle at the end of the segment. -/
def ringNextsFrom (cont : Nat) : List (Nat × List Nat) → Nat
  | [] => cont
  | (h, _) :: _ => h

/-- RingSeg bs cont L hi lo: the records of the segment `L` chain through
`next` into the continuation handle `cont`, with `end` boundaries descending
from `hi` by the run lengths down to exactly `lo`. -/
def RingSeg (bs : List Block) (cont : Nat) : List (Nat × List Nat) → Nat → Nat → Prop
  | [], hi, lo => hi = lo
  | (h, es) :: rest, hi, lo =>
    ∃ blk, bs.get? h = some blk ∧ blk.bend = hi ∧ blk.next = ringNextsFrom cont rest ∧
      es.length ≤ hi ∧ RingSeg bs cont rest (hi - es.length) lo

/-- The classes of `cls` whose bucket over `es` is non-empty. -/
def neClasses (f : Nat → Nat) (es : List Nat) (cls : List Nat) : List Nat :=
  cls.filter (fun c => decide (es.filter (fun x => f x = c) ≠ []))

/-- The entries a split produces: one per non-empty class (ascending class
order paired with the handles in allocation order), each holding the class's
elements in reverse scan order. -/
def splitEntries (f : Nat → Nat) (es : List Nat) : List Nat → List Nat → List (Nat × List Nat)
  | h :: hs, c :: cs => (h, (es.filter (fun x => f x = c)).reverse) :: splitEntries f es hs cs
  | _, _ => []

/-- The entries a full split of block `b` produces: the first non-empty class
keeps handle `b`, the later ones consume the handles `hs` in order. -/
def splitEntriesF (f : Nat → Nat) (es : List Nat) (b : Nat) (hs : List Nat) :
    List Nat → List (Nat × List Nat)
  | [] => []
  | c :: cs => (b, (es.filter (fun x => f x = c)).reverse) :: splitEntries f es hs cs

/-- The class grouping of a run: bucket `c` holds, in scan order, the
elements of class `c`. -/
def classGroups (f : Nat → Nat) (degree : Nat) (es : List Nat) : List (List Nat) :=
  (List.range degree).map (fun c => es.filter (fun x => f x = c))

/-- Two values share a leaf of the ring description. -/
def sameRun (L : List (Nat × List Nat)) (v u : Nat) : Prop :=
  ∃ he ∈ L, v ∈ he.2 ∧ u ∈ he.2

/-- The full representation invariant tying an engine state to its ring
description during `New`: the partition array is the concatenation of the
runs, the inverse index is consistent, the block records realize the ring,
and the free pool is disjoint from the ring with the exact handle count. -/
structure EngineRep (p : Partition) (n : Nat) (L : List (Nat × List Nat))
    (inners : Nat) : Prop where
  part_eq : p.partition = runsOf L
  part_len : p.partition.length = n
  idx_len : p.indices.length = n
  inv : ∀ s pr, p.partition.get? s = some pr →
    p.indices.get? pr.1 = some s ∧ pr.1 < p.indices.length
  head0 : ∃ es, L.head? = some (0, es)
  blocks_len : p.blocks.length = 2 * n - 1
  nonempty : ∀ he ∈ L, he.2 ≠ []
  nodup : (L.map Prod.fst).Nodup
  ring : RingOk p.blocks L n
  avail_nodup : p.available.Nodup
  avail_lt : ∀ h ∈ p.available, h < 2 * n - 1
  avail_disj : ∀ h ∈ p.available, h ∉ L.map Prod.fst
  avail_open : p.availableClosed = false
  pool : p.available.length + L.length + inners = 2 * n - 1
  inners_lt : inners + 1 ≤ L.length
  count_eq : p.count = L.length

/-- One block's entries after a pass with class function `f`: non-empty runs,
each exactly a class of the original run, jointly covering it. -/
def EntryGroups (f : Nat → Nat) (es : List Nat) (ents : List (Nat × List Nat)) : Prop :=
  (∀ ent ∈ ents, ent.2 ≠ [] ∧ ∃ c, ∀ x, x ∈ ent.2 ↔ x ∈ es ∧ f x = c) ∧
  (∀ x ∈ es, ∃ ent ∈ ents, x ∈ ent.2)

/-- A full pass refines every block of the description into its class
groups. -/
inductive PassRefines (f : Nat → Nat) : List (Nat × List Nat) → List (Nat × List Nat) → Prop
  | nil : PassRefines f [] []
  | cons (h : Nat) (es : List Nat) (ents rest rest' : List (Nat × List Nat)) :
      EntryGroups f es ents → PassRefines f rest rest' →
      PassRefines f ((h, es) :: rest) (ents ++ rest')

/-- The successive refinement of a ring description by a list of class
functions, one full pass per function. -/
inductive PassChain : List (Nat → Nat) → List (Nat × List Nat) → List (Nat × List Nat) → Prop
  | nil (L : List (Nat × List Nat)) : PassChain [] L L
  | cons (f : Nat → Nat) (fs : List (Nat → Nat)) (L L1 L2 : List (Nat × List Nat)) :
      PassRefines f L L1 → PassChain fs L1 L2 → PassChain (f :: fs) L L2

/-- The invariant protecting the root record through `New`: the pool channel
is open, handle 0 is not in the pool, the arena is non-empty and the root's
witness is nil.  Every step of `New` preserves it. -/
def RootNilInv (p : Partition) : Prop :=
  p.availableClosed = false ∧ 0 ∉ p.available ∧ 0 < p.blocks.length ∧
    ∀ blk, p.blocks.get? 0 = some blk → blk.witness = []

theorem setAt_eq_some {l l' : List α} {i : Nat} {x : α} (h : setAt l i x = some l') :
    i < l.length ∧ l' = l.set i x := by
  by_cases hb : i < l.length
  · refine ⟨hb, ?_⟩
    simpa [setAt, hb] using h.symm
  · simp [setAt, hb] at h

theorem setAt_length {l l' : List α} {i : Nat} {x : α} (h : setAt l i x = some l') :
    l'.length = l.length := by
  obtain ⟨_, rfl⟩ := setAt_eq_some h
  simp

theorem setAt_get_self {l l' : List α} {i : Nat} {x : α} (h : setAt l i x = some l') :
    l'.get? i = some x := by
  obtain ⟨hb, rfl⟩ := setAt_eq_some h
  simp [List.get?_eq_getElem?, List.getElem?_set, hb]

theorem setAt_get_ne {l l' : List α} {i j : Nat} {x : α} (h : setAt l i x = some l')
    (hij : i ≠ j) : l'.get? j = l.get? j := by
  obtain ⟨hb, rfl⟩ := setAt_eq_some h
  simp [List.get?_eq_getElem?, List.getElem?_set, hij]

theorem setAt_isSome_of_lt {l : List α} {i : Nat} (x : α) (h : i < l.length) :
    setAt l i x = some (l.set i x) := by
  simp [setAt, h]

/-- C10: along the hop of `move`, the element is only ever relocated into a
block with a nonzero handle, so a call targeting block 0 from outside block 0
can never return. -/
theorem move_to_zero_none (fuel : Nat) (p : Partition) (i : Nat)
    (h : ∀ pr, p.partition.get? i = some pr → pr.2 ≠ 0) :
    Partition.move fuel p i 0 = none := by
  induction fuel generalizing p i with
  | zero => rfl
  | succ fuel ih =>
    unfold Partition.move
    simp only [Option.bind_eq_bind]
    cases hget : p.partition.get? i with
    | none => rfl
    | some pr =>
      obtain ⟨element, b⟩ := pr
      have hb : b ≠ 0 := h _ hget
      simp only [Option.some_bind]
      rw [if_neg hb]
      cases hbl : p.blocks.get? b with
      | none => rfl
      | some bb =>
        simp only [Option.some_bind]
        by_cases hn : bb.next = 0
        · rw [if_pos hn]
        · rw [if_neg hn]
          cases hnb : p.blocks.get? bb.next with
          | none => rfl
          | some nb =>
            simp only [Option.some_bind]
            cases hpv : p.partition.get? nb.bend with
            | none => rfl
            | some pv =>
              simp only [Option.some_bind]
              cases h1 : setAt p.partition i pv with
              | none => rfl
              | some part1 =>
                simp only [Option.some_bind]
                cases h2 : setAt part1 nb.bend (element, bb.next) with
                | none => rfl
                | some part2 =>
                  simp only [Option.some_bind]
                  cases h3 : setAt p.indices element nb.bend with
                  | none => rfl
                  | some idx1 =>
                    simp only [Option.some_bind]
                    cases h4 : setAt idx1 pv.1 i with
                    | none => rfl
                    | some idx2 =>
                      simp only [Option.some_bind]
                      cases h5 : setAt p.blocks bb.next { nb with bend := nb.bend + 1 } with
                      | none => rfl
                      | some blocks1 =>
                        simp only [Option.some_bind]
                        apply ih
                        intro pr hpr
                        rw [setAt_get_self h2] at hpr
                        cases hpr
                        exact hn

/-- Witness for C10: in the concrete two-block state, moving the element at
slot 0 (which sits in block 1) into block 0 fails. -/
theorem move_to_zero_none_witness : Partition.move 5 exMoveState 0 0 = none :=
  move_to_zero_none 5 exMoveState 0 (by
    intro pr hpr
    have hpr' : pr = (0, 1) := by simpa [exMoveState] using hpr.symm
    subst hpr'
    decide)

/-- C1: refuted.  On the input `New(3, 2, true, f)` with `f = [0,0,1]`
followed by `Refine(g)` with `g = [2,2,0]`, the engine places the values 0
and 1 in different leaves, yet every word over the transition indices
followed by a class function yields the same class for 0 and 1 (both map to
2 under `g`), so the claimed equivalence — and the coarsest-refinement
promise of the package documentation — fails. -/
theorem refine_not_coarsest :
    (exRun.map fun p => decide (p.blockOf 0 = p.blockOf 1)) = some false ∧
    ∀ (j0 : Fin 1) (w : List (Fin 1)),
      ([exF].getD j0.1 id) (applyWord [exG] 0 (w.map Fin.val)) =
      ([exF].getD j0.1 id) (applyWord [exG] 1 (w.map Fin.val)) := by
  refine ⟨rfl, ?_⟩
  intro j0 w
  have hj : j0.1 = 0 := by omega
  rw [hj]
  cases w with
  | nil => rfl
  | cons j rest =>
    have hjj : j.1 = 0 := by omega
    simp only [List.map_cons, applyWord, hjj]
    rfl

/-- C6: refuted.  On the same concrete run the handle 0 ends up in the free
pool `available`: the cleanup step of `Refine` reads `siblings[b][0]`, which
is always 0 because `make([]int, degree)` zero-fills, and sends it to the
pool whenever block 0 is split — contradicting the code comment that block 0
never gets released. -/
theorem refine_releases_handle_zero :
    (exRun.map fun p => p.available.contains 0) = some true := rfl

/-- Counterexample for C9: `New` with `n = 0` fails — the Go allocation
`make([]Block, 2*n-1)` is asked for a negative length and panics. -/
theorem new_zero_fails : New 0 1 false [] = none := rfl

/-- Counterexample for C4: after the completed run `exRun`, a second call of
`Refine` with the same function never returns a state, whatever the fuel: it
reprocesses the splitter group left in the queue by the early exit, reaches
the early-exit check again and then panics closing the already-closed
channels. -/
theorem refine_second_call_counterexample :
    NeverReturns (fun fuel => exRun.bind fun p => Partition.Refine fuel p [exG]) := by
  intro fuel
  match fuel with
  | 0 => rfl
  | _ + 1 => rfl

theorem recvAvail_flags {p q : Partition} {h : Nat} (hr : p.recvAvail = some (h, q)) :
    q.availableClosed = p.availableClosed ∧ q.splitgroupsClosed = p.splitgroupsClosed := by
  unfold Partition.recvAvail at hr
  match hav : p.available with
  | x :: t =>
    rw [hav] at hr
    cases hr
    exact ⟨rfl, rfl⟩
  | [] =>
    rw [hav] at hr
    by_cases hc : p.availableClosed
    · simp only [hc, if_true] at hr
      cases hr
      exact ⟨rfl, rfl⟩
    · simp only [hc, if_false] at hr
      cases hr

theorem insertAfter_flags {p q : Partition} {b i : Nat} (hr : p.insertAfter b i = some q) :
    q.availableClosed = p.availableClosed ∧ q.splitgroupsClosed = p.splitgroupsClosed := by
  unfold Partition.insertAfter at hr
  simp only [Option.bind_eq_bind, Option.bind_eq_some] at hr
  obtain ⟨_, _, _, _, _, _, _, _, _, _, hq⟩ := hr
  cases hq
  exact ⟨rfl, rfl⟩

theorem move_flags {fuel : Nat} {p q : Partition} {i target : Nat}
    (hr : Partition.move fuel p i target = some q) :
    q.availableClosed = p.availableClosed ∧ q.splitgroupsClosed = p.splitgroupsClosed := by
  revert hr
  induction fuel generalizing p i q with
  | zero => intro hr; cases hr
  | succ fuel ih =>
    intro hr
    unfold Partition.move at hr
    simp only [Option.bind_eq_bind, Option.bind_eq_some] at hr
    obtain ⟨⟨el, b⟩, hget, hr⟩ := hr
    by_cases hb : b = target
    · rw [if_pos hb] at hr
      cases hr
      exact ⟨rfl, rfl⟩
    · rw [if_neg hb] at hr
      simp only [Option.bind_eq_some] at hr
      obtain ⟨bb, _, hr⟩ := hr
      by_cases hn : bb.next = 0
      · rw [if_pos hn] at hr
        cases hr
      · rw [if_neg hn] at hr
        simp only [Option.bind_eq_some] at hr
        obtain ⟨nb, _, pv, _, part1, _, part2, _, idx1, _, idx2, _, blocks1, _, hr⟩ := hr
        have h2 := ih hr
        exact h2

theorem flagsOf_eq {p q : Partition}
    (h : q.availableClosed = p.availableClosed ∧ q.splitgroupsClosed = p.splitgroupsClosed) :
    flagsOf q = flagsOf p := by
  simp [flagsOf, h.1, h.2]

theorem recvAvail_flagsOf {p q : Partition} {h : Nat} (hr : p.recvAvail = some (h, q)) :
    flagsOf q = flagsOf p := flagsOf_eq (recvAvail_flags hr)

theorem insertAfter_flagsOf {p q : Partition} {b i : Nat} (hr : p.insertAfter b i = some q) :
    flagsOf q = flagsOf p := flagsOf_eq (insertAfter_flags hr)

theorem move_flagsOf {fuel : Nat} {p q : Partition} {i target : Nat}
    (hr : Partition.move fuel p i target = some q) :
    flagsOf q = flagsOf p := flagsOf_eq (move_flags hr)

theorem makeParentChild_flagsOf {index : Nat} {p q : Partition}
    {sp sp' : List (Nat × Nat)} {a b a' b' : Nat} {child : Nat}
    (hr : makeParentChild index (p, sp, a, b) child = some (q, sp', a', b')) :
    flagsOf q = flagsOf p := by
  unfold makeParentChild at hr
  simp only [Option.bind_eq_bind, Option.bind_eq_some] at hr
  obtain ⟨cb, _, blocks1, _, hr⟩ := hr
  simp only [Partition.Range, Partition.Len, Option.bind_eq_bind, Option.bind_eq_some] at hr
  obtain ⟨⟨cbegin, cend⟩, _, len, _, hr⟩ := hr
  split at hr <;> (cases hr; rfl)

theorem makeParentChildren_flagsOf {index : Nat} {cs : List Nat} {p q : Partition}
    {sp sp' : List (Nat × Nat)} {a b a' b' : Nat}
    (hr : makeParentChildren index (p, sp, a, b) cs = some (q, sp', a', b')) :
    flagsOf q = flagsOf p := by
  induction cs generalizing p sp a b with
  | nil =>
    unfold makeParentChildren at hr
    cases hr
    rfl
  | cons c cs ih =>
    unfold makeParentChildren at hr
    simp only [Option.bind_eq_bind, Option.bind_eq_some] at hr
    obtain ⟨⟨p1, sp1, a1, b1⟩, h1, hr⟩ := hr
    exact (ih hr).trans (makeParentChild_flagsOf h1)

theorem makeParent_flagsOf {p q : Partition} {first nextIdx : Nat} {w : List Nat}
    (hr : p.makeParent first nextIdx w = some q) :
    flagsOf q = flagsOf p := by
  unfold Partition.makeParent at hr
  simp only [Option.bind_eq_bind, Option.bind_eq_some] at hr
  obtain ⟨fb, _, ⟨index, p1⟩, h1, children, _, ⟨p2, sp, a, b⟩, h2, blocks1, _, hq⟩ := hr
  cases hq
  exact (makeParentChildren_flagsOf h2).trans (recvAvail_flagsOf h1)

theorem subblockCall_flagsOf {p q : Partition} {st st' : SubState} {sbkey sb : Nat}
    (hr : subblockCall p st sbkey = some (q, st', sb)) :
    flagsOf q = flagsOf p := by
  unfold subblockCall at hr
  split at hr
  · split at hr
    · cases hr; rfl
    · cases hr
  · simp only [Option.bind_eq_bind, Option.bind_eq_some] at hr
    obtain ⟨⟨i, p1⟩, h1, p2, h2, hq⟩ := hr
    cases hq
    exact (insertAfter_flagsOf h2).trans (recvAvail_flagsOf h1)

theorem processPredecessor_flagsOf {succB : Nat} {st st' : ScanState} {e : Nat}
    (hr : processPredecessor succB st e = some st') :
    flagsOf st'.p = flagsOf st.p := by
  unfold processPredecessor at hr
  simp only [Option.bind_eq_bind, Option.bind_eq_some] at hr
  obtain ⟨idxE, _, pr, _, len, _, hr⟩ := hr
  split at hr
  · cases hr; rfl
  · simp only [Option.bind_eq_some] at hr
    obtain ⟨⟨p1, cst1, sb⟩, h1, idxE1, _, p2, h2, hr⟩ := hr
    have hf : flagsOf p2 = flagsOf st.p :=
      (move_flagsOf h2).trans (subblockCall_flagsOf h1)
    simp only [Option.bind_eq_some] at hr
    obtain ⟨seenB, _, sibsB, _, hr⟩ := hr
    split at hr <;> (cases hr; exact hf)

theorem processPredecessors_flagsOf {succB : Nat} {es : List Nat} {st st' : ScanState}
    (hr : processPredecessors succB st es = some st') :
    flagsOf st'.p = flagsOf st.p := by
  induction es generalizing st with
  | nil => cases hr; rfl
  | cons e es ih =>
    unfold processPredecessors at hr
    simp only [Option.bind_eq_bind, Option.bind_eq_some] at hr
    obtain ⟨st1, h1, hr⟩ := hr
    exact (ih hr).trans (processPredecessor_flagsOf h1)

theorem scanPositions_flagsOf {preimageF : List (List Nat)} {k : Nat} {pos : Nat}
    {st st' : ScanState} (hr : scanPositions preimageF st pos k = some st') :
    flagsOf st'.p = flagsOf st.p := by
  induction k generalizing st pos with
  | zero => cases hr; rfl
  | succ k ih =>
    unfold scanPositions at hr
    simp only [Option.bind_eq_bind, Option.bind_eq_some] at hr
    obtain ⟨succPr, _, preds, _, st1, h1, hr⟩ := hr
    exact (ih hr).trans (processPredecessors_flagsOf h1)

theorem cleanupBlock_flagsOf {f : Nat} {sfx : List Nat} {p q : Partition} {b : Nat}
    {sibsB : List Nat} (hr : cleanupBlock f sfx p b sibsB = some q) :
    flagsOf q = flagsOf p := by
  unfold cleanupBlock at hr
  simp only [Option.bind_eq_bind, Option.bind_eq_some] at hr
  obtain ⟨first, _, bb, _, fb, _, hr⟩ := hr
  split at hr
  · simp only [Option.bind_eq_some] at hr
    obtain ⟨⟨rs, re⟩, _, part1, _, bb1, _, fb1, _, blocks1, _, hr⟩ := hr
    split at hr
    · cases hr
    · split at hr
      · cases hr; rfl
      · simp only [Option.bind_eq_some] at hr
        obtain ⟨last, _, lb, _, hr⟩ := hr
        have h2 := makeParent_flagsOf hr
        exact h2
  · simp only [Option.bind_eq_some] at hr
    obtain ⟨last, _, lb, _, hr⟩ := hr
    exact makeParent_flagsOf hr

theorem cleanupAll_flagsOf {f : Nat} {sfx : List Nat} {siblings : List (Nat × List Nat)}
    {bs : List Nat} {p q : Partition}
    (hr : cleanupAll f sfx siblings p bs = some q) :
    flagsOf q = flagsOf p := by
  induction bs generalizing p with
  | nil => cases hr; rfl
  | cons b bs ih =>
    unfold cleanupAll at hr
    simp only [Option.bind_eq_bind, Option.bind_eq_some] at hr
    obtain ⟨sibsB, _, p1, h1, hr⟩ := hr
    exact (ih hr).trans (cleanupBlock_flagsOf h1)

theorem processSplitter_flagsOf {preimageF : List (List Nat)} {f : Nat} {sfx : List Nat}
    {p q : Partition} {sp : Nat × Nat}
    (hr : processSplitter preimageF f sfx p sp = some q) :
    flagsOf q = flagsOf p := by
  unfold processSplitter at hr
  simp only [Option.bind_eq_bind, Option.bind_eq_some] at hr
  obtain ⟨st, h1, hr⟩ := hr
  exact (cleanupAll_flagsOf hr).trans (scanPositions_flagsOf h1)

theorem processSplitters_flagsOf {preimageF : List (List Nat)} {f : Nat} {sfx : List Nat}
    {n : Nat} {sps : List (Nat × Nat)} {p q : Partition} {stop : Bool}
    (hr : processSplitters preimageF f sfx n p sps = some (q, stop)) :
    flagsOf q = flagsOf p := by
  induction sps generalizing p with
  | nil => cases hr; rfl
  | cons sp sps ih =>
    unfold processSplitters at hr
    simp only [Option.bind_eq_bind, Option.bind_eq_some] at hr
    obtain ⟨p1, h1, hr⟩ := hr
    split at hr
    · cases hr; exact processSplitter_flagsOf h1
    · exact (ih hr).trans (processSplitter_flagsOf h1)

theorem processFunctions_flagsOf {sfx : List Nat} {n : Nat} {splitters : List (Nat × Nat)}
    {pres : List (List (List Nat))} {f : Nat} {p q : Partition} {stop : Bool}
    (hr : processFunctions sfx n splitters p f pres = some (q, stop)) :
    flagsOf q = flagsOf p := by
  induction pres generalizing p f with
  | nil => cases hr; rfl
  | cons pre pres ih =>
    unfold processFunctions at hr
    simp only [Option.bind_eq_bind, Option.bind_eq_some] at hr
    obtain ⟨⟨p1, stop1⟩, h1, hr⟩ := hr
    split at hr
    · cases hr; exact processSplitters_flagsOf h1
    · exact (ih hr).trans (processSplitters_flagsOf h1)

theorem processSG_flagsOf {preimages : List (List (List Nat))} {n : Nat}
    {p q : Partition} {sg : Splitgroup} {stop : Bool}
    (hr : processSG preimages n p sg = some (q, stop)) :
    flagsOf q = flagsOf p := by
  unfold processSG at hr
  simp only [Option.bind_eq_bind, Option.bind_eq_some] at hr
  obtain ⟨pb, _, hr⟩ := hr
  exact processFunctions_flagsOf hr

theorem refineLoop_flagsOf {preimages : List (List (List Nat))} {n fuel : Nat}
    {p q : Partition} (hr : refineLoop preimages n fuel p = some q) :
    flagsOf q = flagsOf p := by
  induction fuel generalizing p with
  | zero => cases hr
  | succ fuel ih =>
    unfold refineLoop at hr
    match hsg : p.splitgroups with
    | sg :: rest =>
      rw [hsg] at hr
      simp only [Option.bind_eq_bind, Option.bind_eq_some] at hr
      obtain ⟨⟨p1, stop⟩, h1, hr⟩ := hr
      have hf0 := processSG_flagsOf h1
      have hf : flagsOf p1 = flagsOf p := hf0
      split at hr
      · cases hr; exact hf
      · exact (ih hr).trans hf
    | [] =>
      rw [hsg] at hr
      by_cases hc : p.splitgroupsClosed = true
      · rw [if_pos hc] at hr
        simp only [Option.bind_eq_bind, Option.bind_eq_some] at hr
        obtain ⟨⟨p1, stop⟩, h1, hr⟩ := hr
        have hf0 := processSG_flagsOf h1
        have hf : flagsOf p1 = flagsOf p := hf0
        split at hr
        · cases hr; exact hf
        · exact (ih hr).trans hf
      · rw [if_neg hc] at hr
        cases hr; rfl

theorem refine_some_closed {fuel : Nat} {p q : Partition} {gs : List (Nat → Nat)}
    (h : Partition.Refine fuel p gs = some q) :
    q.availableClosed = true ∧ q.splitgroupsClosed = true := by
  unfold Partition.Refine at h
  simp only [Option.bind_eq_bind, Option.bind_eq_some] at h
  obtain ⟨pres, _, p1, _, h⟩ := h
  split at h
  · cases h
  · split at h
    · cases h
    · cases h
      exact ⟨rfl, rfl⟩

/-- C4, amended: a second call of `Refine` after a completed call never
returns a state, for any fuel — the closed worklist channel makes the
driver's `select` keep taking zero-value splitter groups (never the `default`
exit), and the only other way out of the loop leads to closing the two
already-closed channels, which panics. -/
theorem refine_second_call_never_returns (fuel1 fuel : Nat) (p q : Partition)
    (gs1 gs : List (Nat → Nat)) (h : Partition.Refine fuel1 p gs1 = some q) :
    Partition.Refine fuel q gs = none := by
  obtain ⟨hA, hS⟩ := refine_some_closed h
  unfold Partition.Refine
  simp only [Option.bind_eq_bind]
  cases hpre : buildPreimages q.partition.length gs with
  | none => rfl
  | some pres =>
    simp only [Option.some_bind]
    cases hloop : refineLoop pres q.partition.length fuel q with
    | none => rfl
    | some x =>
      simp only [Option.some_bind]
      have hf : flagsOf x = flagsOf q := refineLoop_flagsOf hloop
      have hx : x.availableClosed = true := by
        have := congrArg Prod.fst hf
        simpa [flagsOf, hA] using this
      rw [if_pos hx]

/-- Witness for the amended C4: instantiated on the concrete completed run
(`New(3,2,true,exF)` then `Refine(exG)`), a second `Refine` with fuel 7
returns nothing. -/
theorem refine_second_call_never_returns_witness :
    Partition.Refine 7 exP2 [exG] = none :=
  refine_second_call_never_returns 100 7 exP1 exP2 [exG] [exG] (by rfl)

theorem recvAvail_spec {p q : Partition} {h : Nat} (hr : p.recvAvail = some (h, q)) :
    q.splitgroups = p.splitgroups ∧ q.blocks = p.blocks ∧
    q.availableClosed = p.availableClosed ∧ ∀ x ∈ q.available, x ∈ p.available := by
  unfold Partition.recvAvail at hr
  match hav : p.available with
  | x :: t =>
    rw [hav] at hr
    cases hr
    exact ⟨rfl, rfl, rfl, fun y hy => by simp [hav, List.mem_cons, hy]⟩
  | [] =>
    rw [hav] at hr
    by_cases hc : p.availableClosed
    · simp only [hc, if_true] at hr
      cases hr
      refine ⟨rfl, rfl, rfl, ?_⟩
      intro y hy
      simp_all
    · simp only [hc, if_false] at hr
      cases hr

theorem recvAvail_mem {p q : Partition} {h : Nat} (hr : p.recvAvail = some (h, q))
    (hc : p.availableClosed = false) : h ∈ p.available := by
  unfold Partition.recvAvail at hr
  match hav : p.available with
  | x :: t =>
    rw [hav] at hr
    cases hr
    simp [hav]
  | [] =>
    rw [hav] at hr
    rw [hc] at hr
    simp at hr

theorem insertAfter_spec {p q : Partition} {b i : Nat} (hr : p.insertAfter b i = some q) :
    q.splitgroups = p.splitgroups ∧ q.available = p.available ∧
    q.availableClosed = p.availableClosed ∧ q.blocks.length = p.blocks.length ∧
    ((∀ blk, p.blocks.get? 0 = some blk → blk.witness = []) →
      ∀ blk, q.blocks.get? 0 = some blk → blk.witness = []) := by
  unfold Partition.insertAfter at hr
  simp only [Option.bind_eq_bind, Option.bind_eq_some] at hr
  obtain ⟨⟨e0, x⟩, _, bb, _, blocks1, h1, bb1, hbb1, blocks2, h2, hq⟩ := hr
  cases hq
  refine ⟨rfl, rfl, rfl, ?_, ?_⟩
  · simp only []
    rw [setAt_length h2, setAt_length h1]
  · intro hw blk hblk
    simp only [] at hblk
    by_cases hb : b = 0
    · subst hb
      rw [setAt_get_self h2] at hblk
      cases hblk
      by_cases hi : i = 0
      · subst hi
        rw [setAt_get_self h1] at hbb1
        cases hbb1
        rfl
      · rw [setAt_get_ne h1 hi] at hbb1
        exact hw bb1 hbb1
    · rw [setAt_get_ne h2 hb] at hblk
      by_cases hi : i = 0
      · subst hi
        rw [setAt_get_self h1] at hblk
        cases hblk
        rfl
      · rw [setAt_get_ne h1 hi] at hblk
        exact hw _ hblk

theorem insertAfter_rootNil {p q : Partition} {b i : Nat} (hr : p.insertAfter b i = some q)
    (hp : RootNilInv p) : RootNilInv q := by
  obtain ⟨hsg, hav, hcl, hlen, hwit⟩ := insertAfter_spec hr
  exact ⟨hcl.trans hp.1, hav ▸ hp.2.1, hlen ▸ hp.2.2.1, hwit hp.2.2.2⟩

theorem splitClasses_spec {b : Nat} {buckets : List (List Nat)} {cls : List Nat}
    {p q : Partition} {last last' pos pos' : Nat} {first first' : Bool}
    (hr : splitClasses b buckets cls p last first pos = some (q, last', first', pos')) :
    q.splitgroups = p.splitgroups ∧ q.availableClosed = p.availableClosed ∧
    q.blocks.length = p.blocks.length ∧ (∀ x ∈ q.available, x ∈ p.available) ∧
    ((∀ blk, p.blocks.get? 0 = some blk → blk.witness = []) →
      ∀ blk, q.blocks.get? 0 = some blk → blk.witness = []) := by
  induction cls generalizing p last first pos with
  | nil =>
    cases hr
    exact ⟨rfl, rfl, rfl, fun x hx => hx, fun h => h⟩
  | cons c cs ih =>
    unfold splitClasses at hr
    simp only [Option.bind_eq_bind, Option.bind_eq_some] at hr
    obtain ⟨states, _, hr⟩ := hr
    split at hr
    · split at hr
      · simp only [Option.bind_eq_some] at hr
        obtain ⟨⟨part1, idx1, pos1⟩, _, hr⟩ := hr
        have h2 := ih hr
        exact h2
      · simp only [Option.bind_eq_some] at hr
        obtain ⟨⟨sb, p1⟩, hrecv, p2, hins, sbb, _, blocks1, hset, ⟨part1, idx1, pos1⟩, _, hr⟩ := hr
        have h2 := ih hr
        obtain ⟨hsg2, hcl2, hlen2, hav2, hwit2⟩ := h2
        obtain ⟨hsgR, hblR, hclR, havR⟩ := recvAvail_spec hrecv
        obtain ⟨hsgI, havI, hclI, hlenI, hwitI⟩ := insertAfter_spec hins
        refine ⟨?_, ?_, ?_, ?_, ?_⟩
        · rw [hsg2]
          simp only []
          rw [hsgI, hsgR]
        · rw [hcl2]
          simp only []
          rw [hclI, hclR]
        · rw [hlen2]
          simp only []
          rw [setAt_length hset, hlenI, hblR]
        · intro x hx
          have hx2 := hav2 x hx
          simp only [] at hx2
          rw [havI] at hx2
          exact havR x hx2
        · intro hw
          have hp1 : ∀ blk, p1.blocks.get? 0 = some blk → blk.witness = [] := by
            rw [hblR]; exact hw
          have hp2 := hwitI hp1
          have hp3 : ∀ blk, blocks1.get? 0 = some blk → blk.witness = [] := by
            intro blk hblk
            by_cases hsb : sb = 0
            · subst hsb
              rw [setAt_get_self hset] at hblk
              cases hblk
              have := hp2 sbb (by assumption)
              simpa using this
            · rw [setAt_get_ne hset hsb] at hblk
              exact hp2 blk hblk
          exact hwit2 hp3
    · exact ih hr

theorem split_spec {p q : Partition} {b degree : Nat} {f : Nat → Nat} {flag : Bool}
    (hr : p.split b degree f = some (q, flag)) :
    q.splitgroups = p.splitgroups ∧ q.availableClosed = p.availableClosed ∧
    q.blocks.length = p.blocks.length ∧ (∀ x ∈ q.available, x ∈ p.available) ∧
    ((∀ blk, p.blocks.get? 0 = some blk → blk.witness = []) →
      ∀ blk, q.blocks.get? 0 = some blk → blk.witness = []) := by
  unfold Partition.split at hr
  simp only [Option.bind_eq_bind, Option.bind_eq_some] at hr
  obtain ⟨⟨s, e⟩, _, buckets, _, firstPr, _, bucket0, _, hr⟩ := hr
  split at hr
  · cases hr
    exact ⟨rfl, rfl, rfl, fun x hx => hx, fun h => h⟩
  · simp only [Option.bind_eq_some] at hr
    obtain ⟨⟨p1, last, first, pos⟩, h1, hr⟩ := hr
    split at hr
    · cases hr
    · cases hr
      exact splitClasses_spec h1

theorem makeParentChild_spec {index : Nat} {p q : Partition}
    {sp sp' : List (Nat × Nat)} {a b a' b' : Nat} {child : Nat}
    (hr : makeParentChild index (p, sp, a, b) child = some (q, sp', a', b')) :
    q.splitgroups = p.splitgroups ∧ q.available = p.available ∧
    q.availableClosed = p.availableClosed ∧ q.blocks.length = p.blocks.length ∧
    ((∀ blk, p.blocks.get? 0 = some blk → blk.witness = []) →
      ∀ blk, q.blocks.get? 0 = some blk → blk.witness = []) := by
  unfold makeParentChild at hr
  simp only [Option.bind_eq_bind, Option.bind_eq_some] at hr
  obtain ⟨cb, hcb, blocks1, h1, hr⟩ := hr
  simp only [Partition.Range, Partition.Len, Option.bind_eq_bind, Option.bind_eq_some] at hr
  obtain ⟨⟨cbegin, cend⟩, _, len, _, hr⟩ := hr
  have hcommon : ∀ r : Partition, r = { p with blocks := blocks1 } →
      r.splitgroups = p.splitgroups ∧ r.available = p.available ∧
      r.availableClosed = p.availableClosed ∧ r.blocks.length = p.blocks.length ∧
      ((∀ blk, p.blocks.get? 0 = some blk → blk.witness = []) →
        ∀ blk, r.blocks.get? 0 = some blk → blk.witness = []) := by
    intro r hrr
    subst hrr
    refine ⟨rfl, rfl, rfl, setAt_length h1, ?_⟩
    intro hw blk hblk
    simp only [] at hblk
    by_cases hc : child = 0
    · subst hc
      rw [setAt_get_self h1] at hblk
      cases hblk
      exact hw cb hcb
    · rw [setAt_get_ne h1 hc] at hblk
      exact hw blk hblk
  split at hr <;> (cases hr; exact hcommon _ rfl)

theorem makeParentChildren_spec {index : Nat} {cs : List Nat} {p q : Partition}
    {sp sp' : List (Nat × Nat)} {a b a' b' : Nat}
    (hr : makeParentChildren index (p, sp, a, b) cs = some (q, sp', a', b')) :
    q.splitgroups = p.splitgroups ∧ q.available = p.available ∧
    q.availableClosed = p.availableClosed ∧ q.blocks.length = p.blocks.length ∧
    ((∀ blk, p.blocks.get? 0 = some blk → blk.witness = []) →
      ∀ blk, q.blocks.get? 0 = some blk → blk.witness = []) := by
  induction cs generalizing p sp a b with
  | nil =>
    cases hr
    exact ⟨rfl, rfl, rfl, rfl, fun h => h⟩
  | cons c cs ih =>
    unfold makeParentChildren at hr
    simp only [Option.bind_eq_bind, Option.bind_eq_some] at hr
    obtain ⟨⟨p1, sp1, a1, b1⟩, h1, hr⟩ := hr
    obtain ⟨hsg1, hav1, hcl1, hlen1, hwit1⟩ := makeParentChild_spec h1
    obtain ⟨hsg2, hav2, hcl2, hlen2, hwit2⟩ := ih hr
    exact ⟨hsg2.trans hsg1, hav2.trans hav1, hcl2.trans hcl1, hlen2.trans hlen1,
      fun hw => hwit2 (hwit1 hw)⟩

theorem makeParent_append {p q : Partition} {first nextIdx : Nat} {w : List Nat}
    (hr : p.makeParent first nextIdx w = some q) :
    ∃ sg : Splitgroup, q.splitgroups = p.splitgroups ++ [sg] ∧
      ∃ blk, q.blocks.get? sg.parent = some blk ∧ blk.witness = w := by
  unfold Partition.makeParent at hr
  simp only [Option.bind_eq_bind, Option.bind_eq_some] at hr
  obtain ⟨fb, _, ⟨index, p1⟩, h1, children, _, ⟨p2, splitters, largest, rest⟩, h2, blocks1,
    h3, hq⟩ := hr
  cases hq
  obtain ⟨hsgR, _, _, _⟩ := recvAvail_spec h1
  obtain ⟨hsg2, _, _, _, _⟩ := makeParentChildren_spec h2
  refine ⟨⟨splitters.eraseIdx largest, index⟩, ?_, ?_⟩
  · simp only []
    rw [hsg2, hsgR]
  · exact ⟨_, setAt_get_self h3, rfl⟩

theorem makeParent_rootNil {p q : Partition} {first nextIdx : Nat} {w : List Nat}
    (hr : p.makeParent first nextIdx w = some q) (hp : RootNilInv p) : RootNilInv q := by
  unfold Partition.makeParent at hr
  simp only [Option.bind_eq_bind, Option.bind_eq_some] at hr
  obtain ⟨fb, _, ⟨index, p1⟩, h1, children, _, ⟨p2, splitters, largest, rest⟩, h2, blocks1,
    h3, hq⟩ := hr
  cases hq
  obtain ⟨hA, hM, hL, hW⟩ := hp
  have hidx : index ∈ p.available := recvAvail_mem h1 hA
  have hidx0 : index ≠ 0 := fun h => hM (h ▸ hidx)
  obtain ⟨hsgR, hblR, hclR, havR⟩ := recvAvail_spec h1
  obtain ⟨hsg2, hav2, hcl2, hlen2, hwit2⟩ := makeParentChildren_spec h2
  refine ⟨?_, ?_, ?_, ?_⟩
  · simp only []
    rw [hcl2, hclR]
    exact hA
  · simp only []
    intro hmem
    rw [hav2] at hmem
    exact hM (havR 0 hmem)
  · simp only []
    rw [setAt_length h3, hlen2, hblR]
    exact hL
  · intro blk hblk
    simp only [] at hblk
    rw [setAt_get_ne h3 hidx0] at hblk
    have hp1w : ∀ blk, p1.blocks.get? 0 = some blk → blk.witness = [] := by
      rw [hblR]; exact hW
    exact hwit2 hp1w blk hblk

theorem split_rootNil {p q : Partition} {b degree : Nat} {f : Nat → Nat} {flag : Bool}
    (hr : p.split b degree f = some (q, flag)) (hp : RootNilInv p) : RootNilInv q := by
  obtain ⟨hsg, hcl, hlen, hav, hwit⟩ := split_spec hr
  exact ⟨hcl.trans hp.1, fun hm => hp.2.1 (hav 0 hm), hlen ▸ hp.2.2.1, hwit hp.2.2.2⟩

theorem newProcessBlock_rootNil {degree : Nat} {isWitness : Bool} {cls : Nat}
    {f : Nat → Nat} {p q : Partition} {b : Nat}
    (hr : newProcessBlock degree isWitness cls f p b = some q) (hp : RootNilInv p) :
    RootNilInv q := by
  unfold newProcessBlock at hr
  simp only [Option.bind_eq_bind, Option.bind_eq_some] at hr
  obtain ⟨bb, _, ⟨p1, isSplit⟩, h1, hr⟩ := hr
  have hp1 : RootNilInv p1 := split_rootNil h1 hp
  split at hr
  · exact makeParent_rootNil hr hp1
  · cases hr
    exact hp1

theorem newPassBlocks_rootNil {degree : Nat} {isWitness : Bool} {cls : Nat}
    {f : Nat → Nat} {bs : List Nat} {p q : Partition}
    (hr : newPassBlocks degree isWitness cls f p bs = some q) (hp : RootNilInv p) :
    RootNilInv q := by
  induction bs generalizing p with
  | nil => cases hr; exact hp
  | cons b bs ih =>
    unfold newPassBlocks at hr
    simp only [Option.bind_eq_bind, Option.bind_eq_some] at hr
    obtain ⟨p1, h1, hr⟩ := hr
    exact ih hr (newProcessBlock_rootNil h1 hp)

theorem newPasses_rootNil {degree : Nat} {isWitness : Bool} {cls : Nat}
    {fs : List (Nat → Nat)} {p q : Partition}
    (hr : newPasses degree isWitness cls fs p = some q) (hp : RootNilInv p) :
    RootNilInv q := by
  induction fs generalizing p cls with
  | nil => cases hr; exact hp
  | cons f fs ih =>
    unfold newPasses at hr
    simp only [Option.bind_eq_bind, Option.bind_eq_some] at hr
    obtain ⟨snapshot, _, p1, h1, hr⟩ := hr
    exact ih hr (newPassBlocks_rootNil h1 hp)

theorem New_rootNil {n degree : Nat} {isWitness : Bool} {fs : List (Nat → Nat)}
    {p : Partition} (hr : New n degree isWitness fs = some p) : RootNilInv p := by
  unfold New at hr
  split at hr
  · cases hr
  · rename_i hn
    have hn1 : 1 ≤ n := by omega
    refine newPasses_rootNil hr ⟨rfl, ?_, ?_, ?_⟩
    · intro hmem
      simp only [] at hmem
      rw [List.mem_range'] at hmem
      omega
    · simp
    · intro blk hblk
      simp only [] at hblk
      rw [List.get?_cons_zero] at hblk
      cases hblk
      rfl

theorem cleanupBlock_wit {f : Nat} {sfx : List Nat} {p q : Partition} {b : Nat}
    {sibsB : List Nat} (hr : cleanupBlock f sfx p b sibsB = some q) :
    q.splitgroups = p.splitgroups ∨
    ∃ sg, q.splitgroups = p.splitgroups ++ [sg] ∧
      ∃ blk, q.blocks.get? sg.parent = some blk ∧ blk.witness = f :: sfx := by
  unfold cleanupBlock at hr
  simp only [Option.bind_eq_bind, Option.bind_eq_some] at hr
  obtain ⟨first, _, bb, _, fb, _, hr⟩ := hr
  split at hr
  · simp only [Option.bind_eq_some] at hr
    obtain ⟨⟨rs, re⟩, _, part1, _, bb1, _, fb1, _, blocks1, _, hr⟩ := hr
    split at hr
    · cases hr
    · split at hr
      · cases hr
        left
        rfl
      · simp only [Option.bind_eq_some] at hr
        obtain ⟨last, _, lb, _, hr⟩ := hr
        right
        obtain ⟨sg, hsg, blk, hblk, hwit⟩ := makeParent_append hr
        exact ⟨sg, hsg, blk, hblk, hwit⟩
  · simp only [Option.bind_eq_some] at hr
    obtain ⟨last, _, lb, _, hr⟩ := hr
    right
    exact makeParent_append hr

theorem newProcessBlock_wit {degree : Nat} {isWitness : Bool} {cls : Nat}
    {f : Nat → Nat} {p q : Partition} {b : Nat}
    (hr : newProcessBlock degree isWitness cls f p b = some q) :
    q.splitgroups = p.splitgroups ∨
    ∃ sg, q.splitgroups = p.splitgroups ++ [sg] ∧
      ∃ blk, q.blocks.get? sg.parent = some blk ∧
        blk.witness = (if isWitness then [cls] else []) := by
  unfold newProcessBlock at hr
  simp only [Option.bind_eq_bind, Option.bind_eq_some] at hr
  obtain ⟨bb, _, ⟨p1, isSplit⟩, h1, hr⟩ := hr
  obtain ⟨hsg1, _, _, _, _⟩ := split_spec h1
  split at hr
  · right
    obtain ⟨sg, hsg, blk, hblk, hwit⟩ := makeParent_append hr
    exact ⟨sg, hsg.trans (by rw [hsg1]), blk, hblk, hwit⟩
  · cases hr
    left
    exact hsg1

/-- C3: the witness bookkeeping.  (i) Whenever the cleanup of a predecessor
block during `Refine` finalizes a split (it enqueues a splitter group), the
inner node created for it carries witness `f :: suffix`, where `suffix` is
the witness stored at the splitter being processed (read at dequeue time) and
`f` the triggering function index.  (ii) Whenever a pass of `New` for the
class function with index `cls` splits a block, the inner node created
carries `[cls]` when `record_witness` is true and nil otherwise.  (iii) The
root block (handle 0) carries nil after `New`. -/
theorem witness_bookkeeping :
    (∀ (f : Nat) (sfx : List Nat) (p : Partition) (b : Nat) (sibsB : List Nat)
        (q : Partition), cleanupBlock f sfx p b sibsB = some q →
        q.splitgroups = p.splitgroups ∨
        ∃ sg, q.splitgroups = p.splitgroups ++ [sg] ∧
          ∃ blk, q.blocks.get? sg.parent = some blk ∧ blk.witness = f :: sfx) ∧
    (∀ (degree : Nat) (isWitness : Bool) (cls : Nat) (f : Nat → Nat) (p : Partition)
        (b : Nat) (q : Partition), newProcessBlock degree isWitness cls f p b = some q →
        q.splitgroups = p.splitgroups ∨
        ∃ sg, q.splitgroups = p.splitgroups ++ [sg] ∧
          ∃ blk, q.blocks.get? sg.parent = some blk ∧
            blk.witness = (if isWitness then [cls] else [])) ∧
    (∀ (n degree : Nat) (isWitness : Bool) (fs : List (Nat → Nat)) (p : Partition),
        New n degree isWitness fs = some p →
        ∃ blk, p.blocks.get? 0 = some blk ∧ blk.witness = []) := by
  refine ⟨?_, ?_, ?_⟩
  · intro f sfx p b sibsB q hr
    exact cleanupBlock_wit hr
  · intro degree isWitness cls f p b q hr
    exact newProcessBlock_wit hr
  · intro n degree isWitness fs p hr
    obtain ⟨_, _, hlen, hwit⟩ := New_rootNil hr
    have hsome : (p.blocks.get? 0).isSome = true := by
      rw [List.get?_eq_getElem?, List.getElem?_eq_getElem hlen]
      rfl
    obtain ⟨blk, hblk⟩ := Option.isSome_iff_exists.mp hsome
    exact ⟨blk, hblk, hwit blk hblk⟩

/-- Witness for C3: instantiated on the concrete engine built by
`New(3, 2, true, exF)`, the root record exists and carries nil witness. -/
theorem witness_bookkeeping_witness :
    ∃ blk, exP1.blocks.get? 0 = some blk ∧ blk.witness = [] :=
  witness_bookkeeping.2.2 3 2 true [exF] exP1 (by rfl)

theorem invOKb_iff {p : Partition} :
    invOKb p = true ↔
    ∀ s pr, p.partition.get? s = some pr →
      p.indices.get? pr.1 = some s ∧ pr.1 < p.indices.length := by
  unfold invOKb
  rw [List.all_eq_true]
  constructor
  · intro h s pr hget
    have hs : s < p.partition.length := by
      by_contra hcon
      rw [List.get?_eq_getElem?, List.getElem?_eq_none (by omega)] at hget
      cases hget
    have h2 := h s (List.mem_range.mpr hs)
    rw [hget] at h2
    rw [Bool.and_eq_true, decide_eq_true_eq, decide_eq_true_eq] at h2
    exact ⟨h2.1, h2.2⟩
  · intro h s _
    cases hget : p.partition.get? s with
    | none => simp
    | some pr =>
      have h2 := h s pr hget
      show (decide (p.indices.get? pr.1 = some s) && decide (pr.1 < p.indices.length)) = true
      rw [Bool.and_eq_true, decide_eq_true_eq, decide_eq_true_eq]
      exact ⟨h2.1, h2.2⟩

theorem chainOk_nextStable {p p' : Partition}
    (h : ∀ y, (p'.blocks.get? y).map Block.next = (p.blocks.get? y).map Block.next) :
    ∀ b ch t, chainOk p b ch t → chainOk p' b ch t := by
  intro b ch t
  induction ch generalizing b with
  | nil => exact fun hc => hc
  | cons c cs ih =>
    rintro ⟨hbt, blk, hget, hnext, hc0, hrest⟩
    have hy := h b
    rw [hget] at hy
    cases hget' : p'.blocks.get? b with
    | none => rw [hget'] at hy; cases hy
    | some blk' =>
      rw [hget'] at hy
      simp only [Option.map_some'] at hy
      have hy2 : blk'.next = blk.next := Option.some.inj hy
      exact ⟨hbt, blk', hget', by rw [hy2, hnext], hc0, ih c hrest⟩

theorem chainDead_nextStable {p p' : Partition}
    (h : ∀ y, (p'.blocks.get? y).map Block.next = (p.blocks.get? y).map Block.next) :
    ∀ b ch t, chainDead p b ch t → chainDead p' b ch t := by
  intro b ch t
  induction ch generalizing b with
  | nil =>
    rintro ⟨hbt, hnext⟩
    refine ⟨hbt, ?_⟩
    intro blk' hget'
    have hy := h b
    rw [hget'] at hy
    cases hget : p.blocks.get? b with
    | none => rw [hget] at hy; cases hy
    | some blk =>
      rw [hget] at hy
      simp only [Option.map_some'] at hy
      have hy2 : blk'.next = blk.next := Option.some.inj hy
      rw [hy2]
      exact hnext blk hget
  | cons c cs ih =>
    rintro ⟨hbt, blk, hget, hnext, hc0, hrest⟩
    have hy := h b
    rw [hget] at hy
    cases hget' : p'.blocks.get? b with
    | none => rw [hget'] at hy; cases hy
    | some blk' =>
      rw [hget'] at hy
      simp only [Option.map_some'] at hy
      have hy2 : blk'.next = blk.next := Option.some.inj hy
      exact ⟨hbt, blk', hget', by rw [hy2, hnext], hc0, ih c hrest⟩

theorem setAt_bend_nextAgree {bs bs' : List Block} {c : Nat} {nb : Block} {x : Nat}
    (hget : bs.get? c = some nb) (hset : setAt bs c { nb with bend := x } = some bs') :
    ∀ y, (bs'.get? y).map Block.next = (bs.get? y).map Block.next := by
  intro y
  by_cases hy : c = y
  · subst hy
    rw [setAt_get_self hset, hget]
    rfl
  · rw [setAt_get_ne hset hy]

theorem get?_eq_some_lt {l : List α} {i : Nat} {x : α} (h : l.get? i = some x) :
    i < l.length := by
  by_contra hcon
  rw [List.get?_eq_getElem?, List.getElem?_eq_none (by omega)] at h
  cases h

theorem swap_invOK {p : Partition} {i pivot c e b : Nat} {pv : Nat × Nat}
    {part1 part2 : List (Nat × Nat)} {idx1 idx2 : List Nat}
    (hInv : ∀ s pr, p.partition.get? s = some pr →
      p.indices.get? pr.1 = some s ∧ pr.1 < p.indices.length)
    (hget : p.partition.get? i = some (e, b))
    (hpv : p.partition.get? pivot = some pv)
    (h1 : setAt p.partition i pv = some part1)
    (h2 : setAt part1 pivot (e, c) = some part2)
    (h3 : setAt p.indices e pivot = some idx1)
    (h4 : setAt idx1 pv.1 i = some idx2) :
    ∀ s pr, part2.get? s = some pr → idx2.get? pr.1 = some s ∧ pr.1 < idx2.length := by
  have hie : p.indices.get? e = some i := (hInv i (e, b) hget).1
  have hel : e < p.indices.length := (hInv i (e, b) hget).2
  have hio : p.indices.get? pv.1 = some pivot := (hInv pivot pv hpv).1
  have hol : pv.1 < p.indices.length := (hInv pivot pv hpv).2
  have hlen2 : idx2.length = p.indices.length := by
    rw [setAt_length h4, setAt_length h3]
  by_cases hip : i = pivot
  · -- the element is already at the boundary slot: the swap is a self-swap
    subst hip
    have hpve : pv = (e, b) := by
      rw [hget] at hpv
      exact (Option.some.inj hpv).symm
    subst hpve
    intro s pr hs
    by_cases hsi : s = i
    · subst hsi
      rw [setAt_get_self h2] at hs
      cases Option.some.inj hs
      refine ⟨?_, by omega⟩
      rw [setAt_get_self h4]
    · rw [setAt_get_ne h2 (fun h => hsi h.symm), setAt_get_ne h1 (fun h => hsi h.symm)] at hs
      have hrec := hInv s pr hs
      have hpre : pr.1 ≠ e := by
        intro hcon
        rw [hcon, hie] at hrec
        exact hsi (Option.some.inj hrec.1).symm
      refine ⟨?_, by omega⟩
      rw [setAt_get_ne h4 (fun h => hpre h.symm), setAt_get_ne h3 (fun h => hpre h.symm)]
      exact hrec.1
  · -- genuine swap between two distinct slots
    have hoe : pv.1 ≠ e := by
      intro hcon
      rw [hcon, hie] at hio
      exact hip (Option.some.inj hio)
    intro s pr hs
    by_cases hsp : s = pivot
    · subst hsp
      rw [setAt_get_self h2] at hs
      cases Option.some.inj hs
      refine ⟨?_, by omega⟩
      rw [setAt_get_ne h4 hoe, setAt_get_self h3]
    · by_cases hsi : s = i
      · subst hsi
        rw [setAt_get_ne h2 (fun h => hsp h.symm), setAt_get_self h1] at hs
        cases Option.some.inj hs
        refine ⟨?_, by omega⟩
        rw [setAt_get_self h4]
      · rw [setAt_get_ne h2 (fun h => hsp h.symm), setAt_get_ne h1 (fun h => hsi h.symm)] at hs
        have hrec := hInv s pr hs
        have hpre : pr.1 ≠ e := by
          intro hcon
          rw [hcon, hie] at hrec
          exact hsi (Option.some.inj hrec.1).symm
        have hpro : pr.1 ≠ pv.1 := by
          intro hcon
          rw [hcon, hio] at hrec
          exact hsp (Option.some.inj hrec.1).symm
        refine ⟨?_, by omega⟩
        rw [setAt_get_ne h4 (fun h => hpro h.symm), setAt_get_ne h3 (fun h => hpre h.symm)]
        exact hrec.1

theorem move_reaches : ∀ (ch : List Nat) (p : Partition) (i e b target : Nat),
    p.partition.get? i = some (e, b) →
    (∀ s pr, p.partition.get? s = some pr →
      p.indices.get? pr.1 = some s ∧ pr.1 < p.indices.length) →
    chainOk p b ch target → ch.Nodup →
    (∀ x ∈ ch, ∃ blk, p.blocks.get? x = some blk ∧ blk.bend < p.partition.length) →
    ∃ q, Partition.move (ch.length + 1) p i target = some q ∧
      (∀ s pr, q.partition.get? s = some pr →
        q.indices.get? pr.1 = some s ∧ pr.1 < q.indices.length) ∧
      ∃ s, q.partition.get? s = some (e, target) ∧ q.indices.get? e = some s := by
  intro ch
  induction ch with
  | nil =>
    intro p i e b target hget hInv hchain _ _
    have hb : b = target := hchain
    subst hb
    refine ⟨p, ?_, hInv, i, hget, (hInv i (e, b) hget).1⟩
    show Partition.move (0 + 1) p i b = some p
    rw [Partition.move]
    simp only [Option.bind_eq_bind]
    rw [hget]
    simp only [Option.some_bind]
    simp
  | cons c cs ih =>
    intro p i e b target hget hInv hchain hnodup hpiv
    obtain ⟨hbt, bb, hbb, hnext, hc0, hrest⟩ := hchain
    obtain ⟨nb, hnb0, hbend⟩ := hpiv c (by simp)
    have hnb : p.blocks.get? bb.next = some nb := by rw [hnext]; exact hnb0
    have hne : bb.next ≠ 0 := by rw [hnext]; exact hc0
    have hel : e < p.indices.length := (hInv i (e, b) hget).2
    obtain ⟨pv, hpv⟩ : ∃ pv, p.partition.get? nb.bend = some pv := by
      cases hpv : p.partition.get? nb.bend with
      | none =>
        rw [List.get?_eq_none] at hpv
        omega
      | some pv => exact ⟨pv, rfl⟩
    have hol : pv.1 < p.indices.length := (hInv nb.bend pv hpv).2
    have h1 : setAt p.partition i pv = some (p.partition.set i pv) :=
      setAt_isSome_of_lt pv (get?_eq_some_lt hget)
    have h2 : setAt (p.partition.set i pv) nb.bend (e, bb.next) =
        some ((p.partition.set i pv).set nb.bend (e, bb.next)) :=
      setAt_isSome_of_lt _ (by rw [List.length_set]; exact hbend)
    have h3 : setAt p.indices e nb.bend = some (p.indices.set e nb.bend) :=
      setAt_isSome_of_lt _ hel
    have h4 : setAt (p.indices.set e nb.bend) pv.1 i =
        some ((p.indices.set e nb.bend).set pv.1 i) :=
      setAt_isSome_of_lt _ (by rw [List.length_set]; exact hol)
    have h5 : setAt p.blocks bb.next { nb with bend := nb.bend + 1 } =
        some (p.blocks.set bb.next { nb with bend := nb.bend + 1 }) :=
      setAt_isSome_of_lt _ (get?_eq_some_lt hnb)
    have hp'Inv := swap_invOK hInv hget hpv h1 h2 h3 h4
    have hnextAgree := setAt_bend_nextAgree hnb h5
    have hget' : ((p.partition.set i pv).set nb.bend (e, bb.next)).get? nb.bend =
        some (e, bb.next) := setAt_get_self h2
    have hgetc : ((p.partition.set i pv).set nb.bend (e, bb.next)).get? nb.bend =
        some (e, c) := by rw [hget']; rw [hnext]
    have hlen' : ((p.partition.set i pv).set nb.bend (e, bb.next)).length =
        p.partition.length := by
      rw [List.length_set, List.length_set]
    obtain ⟨q, hq, hInvq, s, hs1, hs2⟩ :=
      ih { p with
            partition := (p.partition.set i pv).set nb.bend (e, bb.next)
            indices := (p.indices.set e nb.bend).set pv.1 i
            blocks := p.blocks.set bb.next { nb with bend := nb.bend + 1 } }
        nb.bend e c target hgetc hp'Inv
        (@chainOk_nextStable p _ hnextAgree c cs target hrest)
        (List.Nodup.of_cons hnodup)
        (by
          intro x hx
          have hxc : x ≠ c := by
            intro hcon
            subst hcon
            exact (List.nodup_cons.mp hnodup).1 hx
          obtain ⟨blk, hblk, hblkbend⟩ := hpiv x (by simp [hx])
          refine ⟨blk, ?_, ?_⟩
          · show (p.blocks.set bb.next { nb with bend := nb.bend + 1 }).get? x = some blk
            have hxbn : bb.next ≠ x := by rw [hnext]; exact fun h => hxc h.symm
            rw [setAt_get_ne h5 hxbn]
            exact hblk
          · show blk.bend < ((p.partition.set i pv).set nb.bend (e, bb.next)).length
            rw [hlen']
            exact hblkbend)
    refine ⟨q, ?_, hInvq, s, hs1, hs2⟩
    show Partition.move (cs.length + 1 + 1) p i target = some q
    rw [Partition.move]
    simp only [Option.bind_eq_bind]
    rw [hget]
    simp only [Option.some_bind]
    rw [if_neg hbt]
    rw [hbb]
    simp only [Option.some_bind]
    rw [if_neg hne]
    rw [hnb]
    simp only [Option.some_bind]
    rw [hpv]
    simp only [Option.some_bind]
    rw [h1]
    simp only [Option.some_bind]
    rw [h2]
    simp only [Option.some_bind]
    rw [h3]
    simp only [Option.some_bind]
    rw [h4]
    simp only [Option.some_bind]
    rw [h5]
    simp only [Option.some_bind]
    exact hq

theorem move_dead : ∀ (ch : List Nat) (p : Partition) (i e b target : Nat),
    p.partition.get? i = some (e, b) → chainDead p b ch target →
    ∀ fuel, Partition.move fuel p i target = none := by
  intro ch
  induction ch with
  | nil =>
    intro p i e b target hget hdead fuel
    obtain ⟨hbt, hnext⟩ := hdead
    cases fuel with
    | zero => rfl
    | succ fuel =>
      rw [Partition.move]
      simp only [Option.bind_eq_bind]
      rw [hget]
      simp only [Option.some_bind]
      rw [if_neg hbt]
      cases hbb : p.blocks.get? b with
      | none => rfl
      | some bb =>
        simp only [Option.some_bind]
        rw [if_pos (hnext bb hbb)]
  | cons c cs ih =>
    intro p i e b target hget hdead fuel
    obtain ⟨hbt, bb, hbb, hnext, hc0, hrest⟩ := hdead
    cases fuel with
    | zero => rfl
    | succ fuel =>
      rw [Partition.move]
      simp only [Option.bind_eq_bind]
      rw [hget]
      simp only [Option.some_bind]
      rw [if_neg hbt, hbb]
      simp only [Option.some_bind]
      rw [if_neg (by rw [hnext]; exact hc0)]
      cases hnb : p.blocks.get? bb.next with
      | none => rfl
      | some nb =>
        simp only [Option.some_bind]
        cases hpv : p.partition.get? nb.bend with
        | none => rfl
        | some pv =>
          simp only [Option.some_bind]
          cases h1 : setAt p.partition i pv with
          | none => rfl
          | some part1 =>
            simp only [Option.some_bind]
            cases h2 : setAt part1 nb.bend (e, bb.next) with
            | none => rfl
            | some part2 =>
              simp only [Option.some_bind]
              cases h3 : setAt p.indices e nb.bend with
              | none => rfl
              | some idx1 =>
                simp only [Option.some_bind]
                cases h4 : setAt idx1 pv.1 i with
                | none => rfl
                | some idx2 =>
                  simp only [Option.some_bind]
                  cases h5 : setAt p.blocks bb.next { nb with bend := nb.bend + 1 } with
                  | none => rfl
                  | some blocks1 =>
                    simp only [Option.some_bind]
                    apply ih _ nb.bend e c target
                    · show part2.get? nb.bend = some (e, c)
                      rw [setAt_get_self h2, hnext]
                    · show chainDead
                        { p with partition := part2, indices := idx2, blocks := blocks1 }
                        c cs target
                      have hnb' : p.blocks.get? bb.next = some nb := hnb
                      exact @chainDead_nextStable p _
                        (setAt_bend_nextAgree hnb' h5) c cs target hrest

/-- C8: correctness of `move`.  If the walk along `next` from the current
block of the element at slot `i` reaches `target` through the chain `ch`
(distinct handles with in-range boundary slots) and the inverse index is
consistent, then `move` terminates (fuel one more than the chain length
suffices) with the element stored in block `target` and the inverse index
again consistent.  If instead the walk meets the 0 sentinel (or a missing
record) before `target`, `move` fails for every fuel, as the Go original
panics. -/
theorem move_correct :
    (∀ (ch : List Nat) (p : Partition) (i e b target : Nat),
        p.partition.get? i = some (e, b) → invOKb p = true →
        chainOk p b ch target → ch.Nodup →
        (∀ x ∈ ch, ∃ blk, p.blocks.get? x = some blk ∧ blk.bend < p.partition.length) →
        ∃ q, Partition.move (ch.length + 1) p i target = some q ∧ invOKb q = true ∧
          ∃ s, q.partition.get? s = some (e, target) ∧ q.indices.get? e = some s) ∧
    (∀ (ch : List Nat) (p : Partition) (i e b target : Nat),
        p.partition.get? i = some (e, b) → chainDead p b ch target →
        ∀ fuel, Partition.move fuel p i target = none) := by
  constructor
  · intro ch p i e b target hget hinv hchain hnodup hpiv
    obtain ⟨q, h1, h2, h3⟩ :=
      move_reaches ch p i e b target hget (invOKb_iff.mp hinv) hchain hnodup hpiv
    exact ⟨q, h1, invOKb_iff.mpr h2, h3⟩
  · exact move_dead

/-- Witness for C8: in the concrete two-block state, the element at slot 1
(block 1) is moved into the reachable block 2 and lands there with the
inverse index still consistent. -/
theorem move_correct_witness :
    ∃ q, Partition.move 2 exMove2 1 2 = some q ∧ invOKb q = true ∧
      ∃ s, q.partition.get? s = some (1, 2) ∧ q.indices.get? 1 = some s :=
  move_correct.1 [2] exMove2 1 1 1 2 rfl (by decide)
    ⟨by decide, ⟨2, 2, 0, 0, []⟩, rfl, rfl, by decide, rfl⟩
    (by decide)
    (by
      intro x hx
      have hx2 : x = 2 := by simpa using hx
      subst hx2
      exact ⟨⟨1, 0, 0, 0, []⟩, rfl, by decide⟩)

theorem writeStates_spec : ∀ (states : List Nat) (part : List (Nat × Nat))
    (idx : List Nat) (sb pos : Nat),
    states.length ≤ pos → pos ≤ part.length →
    (∀ x ∈ states, x < idx.length) → states.Nodup →
    ∃ part2 idx2, writeStates sb states part idx pos =
        some (part2, idx2, pos - states.length) ∧
      part2 = part.take (pos - states.length) ++
        states.reverse.map (fun x => (x, sb)) ++ part.drop pos ∧
      idx2.length = idx.length ∧
      (∀ v, v ∉ states → idx2.get? v = idx.get? v) ∧
      (∀ t x, states.get? t = some x → idx2.get? x = some (pos - 1 - t)) := by
  intro states
  induction states with
  | nil =>
    intro part idx sb pos _ hpos _ _
    refine ⟨part, idx, rfl, ?_, rfl, fun v _ => rfl, fun t x ht => by cases ht⟩
    simp [List.take_append_drop, Nat.sub_zero]
  | cons st rest ih =>
    intro part idx sb pos hlen hpos hxlt hnodup
    have hst : st < idx.length := hxlt st (by simp)
    have hpos1 : 1 ≤ pos := by simp at hlen; omega
    have h1 : setAt part (pos - 1) (st, sb) = some (part.set (pos - 1) (st, sb)) :=
      setAt_isSome_of_lt _ (by omega)
    have h2 : setAt idx st (pos - 1) = some (idx.set st (pos - 1)) :=
      setAt_isSome_of_lt _ hst
    obtain ⟨part2, idx2, hrec, hpart, hidxlen, hidxne, hidxpos⟩ :=
      ih (part.set (pos - 1) (st, sb)) (idx.set st (pos - 1)) sb (pos - 1)
        (by simp at hlen; omega) (by simp; omega)
        (fun x hx => by rw [List.length_set]; exact hxlt x (by simp [hx]))
        (List.Nodup.of_cons hnodup)
    refine ⟨part2, idx2, ?_, ?_, ?_, ?_, ?_⟩
    · show writeStates sb (st :: rest) part idx pos = some (part2, idx2, pos - (st :: rest).length)
      rw [writeStates]
      simp only [Option.bind_eq_bind]
      rw [h1]
      simp only [Option.some_bind]
      rw [h2]
      simp only [Option.some_bind]
      rw [hrec]
      congr 2
      simp
      omega
    · rw [hpart]
      have htake : (part.set (pos - 1) (st, sb)).take (pos - 1 - rest.length) =
          part.take (pos - 1 - rest.length) := by
        apply List.ext_getElem?
        intro j
        by_cases hj : j < pos - 1 - rest.length
        · rw [List.getElem?_take_of_lt hj, List.getElem?_take_of_lt hj,
            List.getElem?_set_ne (by omega)]
        · rw [List.getElem?_take_eq_none (by omega), List.getElem?_take_eq_none (by omega)]
      have hdrop : (part.set (pos - 1) (st, sb)).drop (pos - 1) =
          (st, sb) :: part.drop pos := by
        apply List.ext_getElem?
        intro j
        cases j with
        | zero =>
          rw [List.getElem?_drop]
          simp only [Nat.add_zero]
          rw [List.getElem?_set_eq_of_lt (st, sb) (by omega)]
          simp
        | succ j =>
          rw [List.getElem?_drop]
          show (part.set (pos - 1) (st, sb))[pos - 1 + (j + 1)]? = ((st, sb) :: part.drop pos)[j + 1]?
          rw [List.getElem?_set_ne (by omega), List.getElem?_cons_succ, List.getElem?_drop]
          congr 1
          omega
      rw [htake, hdrop]
      have : pos - (st :: rest).length = pos - 1 - rest.length := by simp; omega
      rw [this]
      simp only [List.reverse_cons, List.map_append, List.map_cons, List.map_nil]
      rw [List.append_assoc, List.append_assoc]
      congr 1
      simp
    · rw [hidxlen, List.length_set]
    · intro v hv
      have hv1 : v ≠ st := fun h => hv (by simp [h])
      have hv2 : v ∉ rest := fun h => hv (by simp [h])
      rw [hidxne v hv2, List.get?_eq_getElem?, List.getElem?_set_ne (fun h => hv1 h.symm),
        List.get?_eq_getElem?]
    · intro t x ht
      cases t with
      | zero =>
        have hx : st = x := by simpa using ht
        rw [← hx]
        have hx2 : st ∉ rest := (List.nodup_cons.mp hnodup).1
        rw [hidxne st hx2, List.get?_eq_getElem?, List.getElem?_set_eq_of_lt (pos - 1) hst]
        simp
      | succ t =>
        have := hidxpos t x ht
        rw [this]
        congr 1
        omega

theorem sum_indicator_one {l : List Nat} {x : Nat} (h : l.Nodup) (hm : x ∈ l) :
    (l.map fun c => if x = c then 1 else 0).sum = 1 := by
  induction l with
  | nil => cases hm
  | cons a as ih =>
    rcases List.mem_cons.mp hm with h1 | h2
    · subst h1
      simp only [List.map_cons, List.sum_cons, if_pos rfl]
      have h0 : (as.map fun c => if x = c then 1 else 0).sum = 0 := by
        apply List.sum_eq_zero
        intro y hy
        obtain ⟨c, hc, hcy⟩ := List.mem_map.mp hy
        rw [← hcy, if_neg]
        intro hxc
        exact (List.nodup_cons.mp h).1 (hxc ▸ hc)
      rw [h0]
      simp
    · have hax : x ≠ a := by
        intro hc
        rw [hc] at h2
        exact (List.nodup_cons.mp h).1 h2
      simp only [List.map_cons, List.sum_cons, if_neg hax]
      rw [ih (List.nodup_cons.mp h).2 h2]

theorem classGroups_sum {f : Nat → Nat} {degree : Nat} : ∀ {es : List Nat},
    (∀ x ∈ es, f x < degree) →
    ((classGroups f degree es).map List.length).sum = es.length := by
  intro es
  induction es with
  | nil =>
    intro _
    unfold classGroups
    rw [List.map_map]
    apply List.sum_eq_zero
    intro y hy
    obtain ⟨c, _, hcy⟩ := List.mem_map.mp hy
    simpa using hcy.symm
  | cons x rest ih =>
    intro h
    have hx : f x < degree := h x (by simp)
    have hr := ih (fun y hy => h y (by simp [hy]))
    unfold classGroups at hr ⊢
    rw [List.map_map] at hr ⊢
    have hpt : ∀ c : Nat,
        (List.length ∘ fun c => (x :: rest).filter (fun y => f y = c)) c =
        ((List.length ∘ fun c => rest.filter (fun y => f y = c)) c) +
          (if f x = c then 1 else 0) := by
      intro c
      by_cases hc : f x = c <;> simp [List.filter_cons, hc]
    rw [List.map_congr_left (fun c _ => hpt c), List.sum_map_add]
    rw [hr, sum_indicator_one (List.nodup_range degree) (List.mem_range.mpr hx)]
    simp

theorem classGroups_get {f : Nat → Nat} {degree c : Nat} {es : List Nat} (hc : c < degree) :
    (classGroups f degree es).get? c = some (es.filter (fun x => f x = c)) := by
  unfold classGroups
  rw [List.get?_eq_getElem?, List.getElem?_map, List.getElem?_range hc]
  rfl

theorem classGroups_length {f : Nat → Nat} {degree : Nat} {es : List Nat} :
    (classGroups f degree es).length = degree := by
  simp [classGroups]

theorem classGroups_getElem {f : Nat → Nat} {degree c : Nat} {es : List Nat}
    (hc : c < degree) :
    (classGroups f degree es)[c]? = some (es.filter (fun x => f x = c)) := by
  unfold classGroups
  rw [List.getElem?_map, List.getElem?_range hc]
  rfl

theorem classGroups_snoc {f : Nat → Nat} {degree : Nat} {pre : List Nat} {x : Nat}
    (hx : f x < degree) :
    (classGroups f degree pre).set (f x) ((pre.filter (fun y => f y = f x)) ++ [x]) =
      classGroups f degree (pre ++ [x]) := by
  apply List.ext_getElem?
  intro j
  rw [List.getElem?_set]
  by_cases hj : j < degree
  · by_cases hfx : f x = j
    · rw [if_pos hfx, if_pos (by rw [classGroups_length]; exact hx)]
      rw [classGroups_getElem hj]
      subst hfx
      congr 1
      rw [List.filter_append]
      simp [List.filter_cons]
    · rw [if_neg hfx, classGroups_getElem hj, classGroups_getElem hj]
      congr 1
      rw [List.filter_append]
      have hone : [x].filter (fun y => f y = j) = [] := by
        simp [List.filter_cons, hfx]
      rw [hone]
      simp
  · have hfj : f x ≠ j := by omega
    rw [if_neg hfj]
    rw [List.getElem?_eq_none (by rw [classGroups_length]; omega),
      List.getElem?_eq_none (by rw [classGroups_length]; omega)]

theorem bucketsAux_spec {part : List (Nat × Nat)} {f : Nat → Nat} {degree b : Nat} :
    ∀ (es pre : List Nat) (i : Nat),
    (∀ j x, es.get? j = some x → part.get? (i + j) = some (x, b)) →
    (∀ x ∈ es, f x < degree) →
    bucketsAux part f i es.length (classGroups f degree pre) =
      some (classGroups f degree (pre ++ es)) := by
  intro es
  induction es with
  | nil =>
    intro pre i _ _
    simp [bucketsAux]
  | cons x rest ih =>
    intro pre i hslots hlt
    have hx : f x < degree := hlt x (by simp)
    have hslot0 : part.get? i = some (x, b) := by
      have := hslots 0 x (by simp)
      simpa using this
    rw [show (x :: rest).length = rest.length + 1 from rfl]
    rw [bucketsAux]
    simp only [Option.bind_eq_bind]
    rw [hslot0]
    simp only [Option.some_bind]
    rw [show (classGroups f degree pre).get? (f x) =
        some (pre.filter (fun y => f y = f x)) from classGroups_get hx]
    simp only [Option.some_bind]
    rw [classGroups_snoc hx]
    have hrec := ih (pre ++ [x]) (i + 1)
      (fun j y hj => by
        have := hslots (j + 1) y (by simpa using hj)
        rw [show i + (j + 1) = i + 1 + j by omega] at this
        exact this)
      (fun y hy => hlt y (by simp [hy]))
    rw [hrec]
    rw [List.append_assoc]
    rfl

theorem ringSeg_zero : ∀ {bs : List Block} {L : List (Nat × List Nat)} {hi : Nat},
    RingSeg bs 0 L hi 0 ↔ RingOk bs L hi := by
  intro bs L
  induction L with
  | nil => intro hi; exact Iff.rfl
  | cons he rest ih =>
    intro hi
    obtain ⟨h, es⟩ := he
    simp only [RingSeg, RingOk]
    have hnx : ringNextsFrom 0 rest = ringNexts rest := by
      cases rest with
      | nil => rfl
      | cons x r => cases x; rfl
    rw [hnx]
    constructor
    · rintro ⟨blk, h1, h2, h3, h4, h5⟩
      exact ⟨blk, h1, h2, h3, h4, ih.mp h5⟩
    · rintro ⟨blk, h1, h2, h3, h4, h5⟩
      exact ⟨blk, h1, h2, h3, h4, ih.mpr h5⟩

theorem ringSeg_bounds : ∀ {bs : List Block} {cont : Nat} {L : List (Nat × List Nat)}
    {hi lo : Nat}, RingSeg bs cont L hi lo → lo = hi - sumLen L ∧ sumLen L ≤ hi := by
  intro bs cont L
  induction L with
  | nil =>
    intro hi lo h
    exact ⟨by rw [h]; simp [sumLen], by simp [sumLen]⟩
  | cons he rest ih =>
    intro hi lo h
    obtain ⟨h0, es⟩ := he
    obtain ⟨blk, _, _, _, h4, h5⟩ := h
    obtain ⟨ih1, ih2⟩ := ih h5
    have hs : sumLen ((h0, es) :: rest) = es.length + sumLen rest := by
      simp [sumLen]
    constructor
    · rw [ih1, hs]
      omega
    · rw [hs]
      omega

theorem ringSeg_append_intro : ∀ {bs : List Block} {cont c1 : Nat}
    {X Y : List (Nat × List Nat)} {hi mid lo : Nat},
    RingSeg bs c1 X hi mid → RingSeg bs cont Y mid lo → c1 = ringNextsFrom cont Y →
    RingSeg bs cont (X ++ Y) hi lo := by
  intro bs cont c1 X
  induction X with
  | nil =>
    intro Y hi mid lo hX hY _
    have hm : hi = mid := hX
    rw [List.nil_append, hm]
    exact hY
  | cons he rest ih =>
    intro Y hi mid lo hX hY hc
    obtain ⟨h0, es⟩ := he
    obtain ⟨blk, h1, h2, h3, h4, h5⟩ := hX
    refine ⟨blk, h1, h2, ?_, h4, ih h5 hY hc⟩
    rw [h3]
    cases rest with
    | nil => rw [hc]; rfl
    | cons x r => cases x; rfl

theorem ringSeg_split : ∀ {bs : List Block} {cont : Nat} {X Y : List (Nat × List Nat)}
    {hi lo : Nat}, RingSeg bs cont (X ++ Y) hi lo →
    RingSeg bs (ringNextsFrom cont Y) X hi (hi - sumLen X) ∧
      RingSeg bs cont Y (hi - sumLen X) lo := by
  intro bs cont X
  induction X with
  | nil =>
    intro Y hi lo h
    refine ⟨rfl, ?_⟩
    have : hi - sumLen ([] : List (Nat × List Nat)) = hi := by simp [sumLen]
    rw [this]
    exact h
  | cons he rest ih =>
    intro Y hi lo h
    obtain ⟨h0, es⟩ := he
    obtain ⟨blk, h1, h2, h3, h4, h5⟩ := h
    obtain ⟨ihl, ihr⟩ := ih h5
    have hsum : hi - sumLen ((h0, es) :: rest) = hi - es.length - sumLen rest := by
      simp [sumLen]
      omega
    constructor
    · refine ⟨blk, h1, h2, ?_, h4, ?_⟩
      · rw [h3]
        cases rest with
        | nil => rfl
        | cons x r => cases x; rfl
      · rw [hsum]
        exact ihl
    · rw [hsum]
      exact ihr

theorem ringSeg_stable : ∀ {bs bs2 : List Block} {cont : Nat}
    {L : List (Nat × List Nat)} {hi lo : Nat},
    (∀ h ∈ L.map Prod.fst,
      (bs2.get? h).map (fun bl => (bl.bend, bl.next)) =
      (bs.get? h).map (fun bl => (bl.bend, bl.next))) →
    RingSeg bs cont L hi lo → RingSeg bs2 cont L hi lo := by
  intro bs bs2 cont L
  induction L with
  | nil => intro hi lo _ h; exact h
  | cons he rest ih =>
    intro hi lo hag h
    obtain ⟨h0, es⟩ := he
    obtain ⟨blk, h1, h2, h3, h4, h5⟩ := h
    have hy := hag h0 (by simp)
    rw [h1] at hy
    cases hget2 : bs2.get? h0 with
    | none => rw [hget2] at hy; cases hy
    | some blk2 =>
      rw [hget2] at hy
      simp only [Option.map_some'] at hy
      have hy2 := Option.some.inj hy
      refine ⟨blk2, hget2, ?_, ?_, h4, ih (fun x hx => hag x (by simp [hx])) h5⟩
      · rw [show blk2.bend = (blk2.bend, blk2.next).1 from rfl, hy2]
        exact h2
      · rw [show blk2.next = (blk2.bend, blk2.next).2 from rfl, hy2]
        exact h3

theorem splice_length {A X : List α} {m pos : Nat} (hX : X.length = pos - m)
    (hm : m ≤ pos) (hpos : pos ≤ A.length) :
    (A.take m ++ X ++ A.drop pos).length = A.length := by
  simp [hX]
  omega

theorem splice_get_low {A X : List α} {m pos s : Nat} (hm : m ≤ A.length) (h : s < m) :
    (A.take m ++ X ++ A.drop pos).get? s = A.get? s := by
  rw [List.append_assoc, List.get?_eq_getElem?,
    List.getElem?_append_left (by rw [List.length_take]; omega),
    List.getElem?_take_of_lt h, List.get?_eq_getElem?]

theorem splice_get_high {A X : List α} {m pos : Nat} (hX : X.length = pos - m)
    (hm : m ≤ pos) (hpos : pos ≤ A.length) {s : Nat} (h : pos ≤ s) :
    (A.take m ++ X ++ A.drop pos).get? s = A.get? s := by
  rw [List.append_assoc, List.get?_eq_getElem?,
    List.getElem?_append_right (by rw [List.length_take]; omega)]
  rw [List.length_take]
  have hmin : min m A.length = m := by omega
  rw [hmin]
  rw [List.getElem?_append_right (by omega)]
  rw [List.getElem?_drop, List.get?_eq_getElem?]
  congr 1
  omega

theorem splice_get_mid {A X : List α} {m pos : Nat} (hX : X.length = pos - m)
    (hm : m ≤ pos) (hpos : pos ≤ A.length) {s : Nat} (h1 : m ≤ s) (h2 : s < pos) :
    (A.take m ++ X ++ A.drop pos).get? s = X.get? (s - m) := by
  rw [List.append_assoc, List.get?_eq_getElem?,
    List.getElem?_append_right (by rw [List.length_take]; omega)]
  rw [List.length_take]
  have hmin : min m A.length = m := by omega
  rw [hmin]
  rw [List.getElem?_append_left (by omega), List.get?_eq_getElem?]

theorem splice_take {A X : List α} {m pos k : Nat} (hm : m ≤ A.length) (h : k ≤ m) :
    (A.take m ++ X ++ A.drop pos).take k = A.take k := by
  rw [List.append_assoc, List.take_append_of_le_length (by rw [List.length_take]; omega)]
  rw [List.take_take, min_eq_left h]

theorem splice_drop_mid {A X : List α} {m pos : Nat} (hm : m ≤ A.length) :
    (A.take m ++ X ++ A.drop pos).drop m = X ++ A.drop pos := by
  rw [List.append_assoc, List.drop_append_of_le_length (by rw [List.length_take]; omega)]
  rw [List.drop_take]
  simp

theorem runsOf_nil : runsOf [] = [] := rfl

theorem runsOf_cons {e : Nat × List Nat} {L : List (Nat × List Nat)} :
    runsOf (e :: L) = runsOf L ++ e.2.map (fun x => (x, e.1)) := by
  unfold runsOf
  rw [List.reverse_cons, List.map_append, List.flatten_append]
  simp

theorem runsOf_length : ∀ {L : List (Nat × List Nat)}, (runsOf L).length = sumLen L := by
  intro L
  induction L with
  | nil => rfl
  | cons e rest ih =>
    rw [runsOf_cons, List.length_append, ih, List.length_map]
    simp [sumLen]
    omega

theorem splitEntries_sumLen {f : Nat → Nat} {es : List Nat} : ∀ (cs hs : List Nat),
    cs.length ≤ hs.length →
    sumLen (splitEntries f es hs cs) =
      (cs.map (fun c => (es.filter (fun x => f x = c)).length)).sum := by
  intro cs
  induction cs with
  | nil =>
    intro hs _
    cases hs <;> rfl
  | cons c cs ih =>
    intro hs hlen
    cases hs with
    | nil => simp at hlen
    | cons h hs =>
      rw [splitEntries]
      have h1 : sumLen ((h, (es.filter (fun x => f x = c)).reverse) ::
          splitEntries f es hs cs)
          = (es.filter (fun x => f x = c)).length + sumLen (splitEntries f es hs cs) := by
        simp [sumLen]
      rw [h1, ih hs (by simpa using hlen)]
      simp

theorem neClasses_cons_pos {f : Nat → Nat} {es : List Nat} {c : Nat} {cls : List Nat}
    (h : es.filter (fun x => f x = c) ≠ []) :
    neClasses f es (c :: cls) = c :: neClasses f es cls := by
  unfold neClasses
  rw [List.filter_cons, if_pos (by rw [decide_eq_true_eq]; exact h)]

theorem neClasses_cons_neg {f : Nat → Nat} {es : List Nat} {c : Nat} {cls : List Nat}
    (h : es.filter (fun x => f x = c) = []) :
    neClasses f es (c :: cls) = neClasses f es cls := by
  unfold neClasses
  rw [List.filter_cons, if_neg (by rw [decide_eq_true_eq]; simp [h])]

theorem neClasses_nil {f : Nat → Nat} {es : List Nat} : neClasses f es [] = [] := rfl

theorem splitClasses_rest : ∀ (cls : List Nat) (f : Nat → Nat) (degree : Nat)
    (es : List Nat) (b : Nat) (p : Partition) (last pos nxt0 : Nat) (lastBlk : Block),
    (∀ c ∈ cls, c < degree) → cls.Nodup → es.Nodup →
    (∀ x ∈ es, x < p.indices.length) →
    p.blocks.get? last = some lastBlk →
    lastBlk.next = nxt0 →
    (nxt0 ≠ 0 → ∃ blk, p.blocks.get? nxt0 = some blk) →
    (nxt0 ≠ 0 → last ≠ nxt0) →
    pos ≤ p.partition.length →
    ((neClasses f es cls).map (fun c => (es.filter (fun x => f x = c)).length)).sum ≤ pos →
    (neClasses f es cls).length ≤ p.available.length →
    (∀ h ∈ p.available, h < p.blocks.length) →
    (∀ h ∈ p.available, h ≠ last ∧ h ≠ nxt0) →
    p.available.Nodup →
    ∃ q lastq,
      splitClasses b (classGroups f degree es) cls p last false pos =
        some (q, lastq, false,
          pos - ((neClasses f es cls).map
            (fun c => (es.filter (fun x => f x = c)).length)).sum) ∧
      (∀ y, y ≠ last → y ∉ p.available.take (neClasses f es cls).length →
        q.blocks.get? y = p.blocks.get? y) ∧
      q.blocks.length = p.blocks.length ∧
      q.blocks.get? last = some { lastBlk with
        next := ringNextsFrom nxt0
          (splitEntries f es (p.available.take (neClasses f es cls).length)
            (neClasses f es cls)) } ∧
      RingSeg q.blocks nxt0
        (splitEntries f es (p.available.take (neClasses f es cls).length)
          (neClasses f es cls)) pos
        (pos - ((neClasses f es cls).map
          (fun c => (es.filter (fun x => f x = c)).length)).sum) ∧
      q.partition = p.partition.take
          (pos - ((neClasses f es cls).map
            (fun c => (es.filter (fun x => f x = c)).length)).sum) ++
        runsOf (splitEntries f es (p.available.take (neClasses f es cls).length)
          (neClasses f es cls)) ++
        p.partition.drop pos ∧
      q.partition.length = p.partition.length ∧
      q.indices.length = p.indices.length ∧
      (∀ v, (v ∈ es → f v ∉ neClasses f es cls) →
        q.indices.get? v = p.indices.get? v) ∧
      (∀ s pr, q.partition.get? s = some pr →
        pos - ((neClasses f es cls).map
          (fun c => (es.filter (fun x => f x = c)).length)).sum ≤ s →
        s < pos → q.indices.get? pr.1 = some s) ∧
      q.available = p.available.drop (neClasses f es cls).length ∧
      q.availableClosed = p.availableClosed ∧
      q.splitgroups = p.splitgroups ∧
      q.count = p.count + (neClasses f es cls).length ∧
      q.degree = p.degree ∧
      ((neClasses f es cls = [] ∧ lastq = last) ∨ lastq ∈ p.available) := by
  intro cls
  induction cls with
  | nil =>
    intro f degree es b p last pos nxt0 lastBlk _ _ _ _ hlast hlnxt _ _ hpos _ _ _ _ _
    refine ⟨p, last, rfl, fun y _ _ => rfl, rfl, ?_, ?_, ?_, rfl, rfl, fun v _ => rfl,
      ?_, rfl, rfl, rfl, rfl, rfl, Or.inl ⟨rfl, rfl⟩⟩
    · show p.blocks.get? last = some { lastBlk with next := nxt0 }
      rw [← hlnxt, hlast]
    · show pos = pos - 0
      omega
    · show p.partition = p.partition.take (pos - 0) ++ [] ++ p.partition.drop pos
      rw [List.append_nil, Nat.sub_zero, List.take_append_drop]
    · intro s pr _ h1 h2
      simp only [neClasses_nil, List.map_nil, List.sum_nil, Nat.sub_zero] at h1
      omega
  | cons c cls ih =>
    intro f degree es b p last pos nxt0 lastBlk hcd hclsnd hesnd hx hlast hlnxt hnxtrec
      hln hpos hsum havail havlt hav0 havnd
    have hc : c < degree := hcd c (by simp)
    by_cases hcne : es.filter (fun x => f x = c) = []
    · -- empty bucket: the class is skipped
      rw [neClasses_cons_neg hcne] at *
      have hstep : splitClasses b (classGroups f degree es) (c :: cls) p last false pos =
          splitClasses b (classGroups f degree es) cls p last false pos := by
        rw [splitClasses]
        simp only [Option.bind_eq_bind]
        rw [show (classGroups f degree es).get? c =
          some (es.filter (fun x => f x = c)) from classGroups_get hc]
        simp only [Option.some_bind]
        rw [hcne]
        simp
      rw [hstep]
      exact ih f degree es b p last pos nxt0 lastBlk (fun x hxx => hcd x (by simp [hxx]))
        (List.Nodup.of_cons hclsnd) hesnd hx hlast hlnxt hnxtrec hln hpos hsum havail
        havlt hav0 havnd
    · -- non-empty bucket: allocate a sibling, splice it, write the class
      rw [neClasses_cons_pos hcne] at *
      obtain ⟨h1av, restAvail, hav⟩ : ∃ h1 rest, p.available = h1 :: rest := by
        cases hva : p.available with
        | nil =>
          rw [hva] at havail
          simp at havail
        | cons a r => exact ⟨a, r, rfl⟩
      have hh1mem : h1av ∈ p.available := by rw [hav]; simp
      have hh1lt : h1av < p.blocks.length := havlt h1av hh1mem
      have hh1last : h1av ≠ last := (hav0 h1av hh1mem).1
      have hh1nxt : h1av ≠ nxt0 := (hav0 h1av hh1mem).2
      have hpos0 : (es.filter (fun x => f x = c)).length > 0 := List.length_pos.mpr hcne
      have hlastlt : last < p.blocks.length := get?_eq_some_lt hlast
      simp only [List.map_cons, List.sum_cons] at hsum
      rw [hav, List.length_cons, List.length_cons] at havail
      have hrecv : p.recvAvail = some (h1av, { p with available := restAvail }) := by
        unfold Partition.recvAvail
        rw [hav]
      obtain ⟨e0, hrange⟩ : ∃ e0, Partition.Range p last = some (e0, lastBlk.bend) := by
        by_cases h0 : nxt0 = 0
        · refine ⟨0, ?_⟩
          unfold Partition.Range
          simp only [Option.bind_eq_bind]
          rw [hlast]
          simp only [Option.some_bind]
          rw [hlnxt, h0]
          simp
        · obtain ⟨nb, hnb⟩ := hnxtrec h0
          refine ⟨nb.bend, ?_⟩
          unfold Partition.Range
          simp only [Option.bind_eq_bind]
          rw [hlast]
          simp only [Option.some_bind]
          rw [hlnxt, if_pos h0, hnb]
          simp
      have hrange1 : Partition.Range { p with available := restAvail } last
          = some (e0, lastBlk.bend) := hrange
      have hsetA : setAt p.blocks h1av (⟨e0, nxt0, 0, lastBlk.depth, []⟩ : Block)
          = some (p.blocks.set h1av ⟨e0, nxt0, 0, lastBlk.depth, []⟩) :=
        setAt_isSome_of_lt _ hh1lt
      have hbb1 : (p.blocks.set h1av ⟨e0, nxt0, 0, lastBlk.depth, []⟩).get? last
          = some lastBlk := by
        rw [List.get?_eq_getElem?, List.getElem?_set_ne hh1last, ← List.get?_eq_getElem?]
        exact hlast
      have hsetB : setAt (p.blocks.set h1av ⟨e0, nxt0, 0, lastBlk.depth, []⟩) last
          { lastBlk with next := h1av }
          = some ((p.blocks.set h1av ⟨e0, nxt0, 0, lastBlk.depth, []⟩).set last
            { lastBlk with next := h1av }) :=
        setAt_isSome_of_lt _ (by rw [List.length_set]; exact hlastlt)
      have hins : Partition.insertAfter { p with available := restAvail } last h1av
          = some { p with
              available := restAvail,
              blocks := (p.blocks.set h1av ⟨e0, nxt0, 0, lastBlk.depth, []⟩).set last
                { lastBlk with next := h1av },
              count := p.count + 1 } := by
        unfold Partition.insertAfter
        simp only [Option.bind_eq_bind]
        rw [hrange1]
        simp only [Option.some_bind]
        rw [hlast]
        simp only [Option.some_bind]
        rw [hlnxt, hsetA]
        simp only [Option.some_bind]
        rw [hbb1]
        simp only [Option.some_bind]
        rw [hsetB]
        simp only [Option.some_bind]
        rfl
      have hsbb : ((p.blocks.set h1av ⟨e0, nxt0, 0, lastBlk.depth, []⟩).set last
          { lastBlk with next := h1av }).get? h1av
          = some ⟨e0, nxt0, 0, lastBlk.depth, []⟩ := by
        rw [List.get?_eq_getElem?, List.getElem?_set_ne (fun hh => hh1last hh.symm),
          List.getElem?_set_eq_of_lt (⟨e0, nxt0, 0, lastBlk.depth, []⟩ : Block) hh1lt]
      have hset3 : setAt ((p.blocks.set h1av ⟨e0, nxt0, 0, lastBlk.depth, []⟩).set last
            { lastBlk with next := h1av }) h1av (⟨pos, nxt0, 0, lastBlk.depth, []⟩ : Block)
          = some (((p.blocks.set h1av ⟨e0, nxt0, 0, lastBlk.depth, []⟩).set last
            { lastBlk with next := h1av }).set h1av ⟨pos, nxt0, 0, lastBlk.depth, []⟩) :=
        setAt_isSome_of_lt _ (by rw [List.length_set, List.length_set]; exact hh1lt)
      obtain ⟨part1, idx1, hws, hpart1, hidx1len, hidx1ne, hidx1pos⟩ :=
        writeStates_spec (es.filter (fun x => f x = c)) p.partition p.indices h1av pos
          (by omega) hpos
          (fun x hxm => hx x (List.mem_of_mem_filter hxm))
          (List.Nodup.filter _ hesnd)
      have hpart1len : part1.length = p.partition.length := by
        rw [hpart1]
        exact splice_length (by simp; omega) (by omega) hpos
      have hstep : splitClasses b (classGroups f degree es) (c :: cls) p last false pos
          = splitClasses b (classGroups f degree es) cls
              { p with
                partition := part1,
                indices := idx1,
                blocks := ((p.blocks.set h1av ⟨e0, nxt0, 0, lastBlk.depth, []⟩).set last
                  { lastBlk with next := h1av }).set h1av ⟨pos, nxt0, 0, lastBlk.depth, []⟩,
                available := restAvail,
                count := p.count + 1 }
              h1av false (pos - (es.filter (fun x => f x = c)).length) := by
        rw [splitClasses]
        simp only [Option.bind_eq_bind]
        rw [show (classGroups f degree es).get? c
          = some (es.filter (fun x => f x = c)) from classGroups_get hc]
        simp only [Option.some_bind]
        rw [if_pos hpos0]
        rw [if_neg (by decide : ¬ (false = true))]
        rw [hrecv]
        simp only [Option.some_bind]
        rw [hins]
        simp only [Option.some_bind]
        rw [hsbb]
        simp only [Option.some_bind]
        rw [hset3]
        simp only [Option.some_bind]
        rw [hws]
        simp only [Option.some_bind]
      obtain ⟨q, lastq, hqeq, hqoff, hqlen, hqlast, hqseg, hqpart, hqplen, hqilen, hqioff,
          hqimid, hqav, hqcl, hqsg, hqcount, hqdeg, hqlastq⟩ :=
        ih f degree es b
          { p with
            partition := part1,
            indices := idx1,
            blocks := ((p.blocks.set h1av ⟨e0, nxt0, 0, lastBlk.depth, []⟩).set last
              { lastBlk with next := h1av }).set h1av ⟨pos, nxt0, 0, lastBlk.depth, []⟩,
            available := restAvail,
            count := p.count + 1 }
          h1av (pos - (es.filter (fun x => f x = c)).length) nxt0
          ⟨pos, nxt0, 0, lastBlk.depth, []⟩
          (fun y hy => hcd y (List.mem_cons_of_mem _ hy))
          (List.Nodup.of_cons hclsnd) hesnd
          (fun x hxm => by
            show x < idx1.length
            rw [hidx1len]
            exact hx x hxm)
          (by
            show (((p.blocks.set h1av ⟨e0, nxt0, 0, lastBlk.depth, []⟩).set last
                { lastBlk with next := h1av }).set h1av
                ⟨pos, nxt0, 0, lastBlk.depth, []⟩).get? h1av
              = some ⟨pos, nxt0, 0, lastBlk.depth, []⟩
            rw [List.get?_eq_getElem?,
              List.getElem?_set_eq_of_lt (⟨pos, nxt0, 0, lastBlk.depth, []⟩ : Block)
                (by rw [List.length_set, List.length_set]; exact hh1lt)])
          rfl
          (fun h0 => by
            obtain ⟨blk, hblk⟩ := hnxtrec h0
            refine ⟨blk, ?_⟩
            show (((p.blocks.set h1av ⟨e0, nxt0, 0, lastBlk.depth, []⟩).set last
                { lastBlk with next := h1av }).set h1av
                ⟨pos, nxt0, 0, lastBlk.depth, []⟩).get? nxt0 = some blk
            rw [List.get?_eq_getElem?,
              List.getElem?_set_ne (fun hh => hh1nxt hh),
              List.getElem?_set_ne (fun hh => hln h0 hh),
              List.getElem?_set_ne (fun hh => hh1nxt hh), ← List.get?_eq_getElem?]
            exact hblk)
          (fun h0 => hh1nxt)
          (by
            show pos - (es.filter (fun x => f x = c)).length ≤ part1.length
            rw [hpart1len]
            omega)
          (by omega)
          (by
            show (neClasses f es cls).length ≤ restAvail.length
            omega)
          (fun h hm => by
            show h < (((p.blocks.set h1av ⟨e0, nxt0, 0, lastBlk.depth, []⟩).set last
              { lastBlk with next := h1av }).set h1av
              ⟨pos, nxt0, 0, lastBlk.depth, []⟩).length
            simp only [List.length_set]
            exact havlt h (by rw [hav]; exact List.mem_cons_of_mem _ hm))
          (fun h hm => ⟨fun hh => (List.nodup_cons.mp (hav ▸ havnd)).1 (hh ▸ hm),
            (hav0 h (by rw [hav]; exact List.mem_cons_of_mem _ hm)).2⟩)
          ((List.nodup_cons.mp (hav ▸ havnd)).2)
      have hqoff2 : ∀ y, y ≠ h1av → y ∉ restAvail.take (neClasses f es cls).length →
          q.blocks.get? y = (((p.blocks.set h1av ⟨e0, nxt0, 0, lastBlk.depth, []⟩).set last
            { lastBlk with next := h1av }).set h1av
            ⟨pos, nxt0, 0, lastBlk.depth, []⟩).get? y := hqoff
      have hqlen2 : q.blocks.length
          = (((p.blocks.set h1av ⟨e0, nxt0, 0, lastBlk.depth, []⟩).set last
            { lastBlk with next := h1av }).set h1av
            ⟨pos, nxt0, 0, lastBlk.depth, []⟩).length := hqlen
      have hqlast2 : q.blocks.get? h1av = some ⟨pos,
          ringNextsFrom nxt0 (splitEntries f es
            (restAvail.take (neClasses f es cls).length) (neClasses f es cls)),
          0, lastBlk.depth, []⟩ := hqlast
      have hqseg2 : RingSeg q.blocks nxt0
          (splitEntries f es (restAvail.take (neClasses f es cls).length)
            (neClasses f es cls))
          (pos - (es.filter (fun x => f x = c)).length)
          (pos - (es.filter (fun x => f x = c)).length
            - ((neClasses f es cls).map
              (fun c => (es.filter (fun x => f x = c)).length)).sum) := hqseg
      have hqpart2 : q.partition = part1.take
            (pos - (es.filter (fun x => f x = c)).length
              - ((neClasses f es cls).map
                (fun c => (es.filter (fun x => f x = c)).length)).sum)
          ++ runsOf (splitEntries f es (restAvail.take (neClasses f es cls).length)
            (neClasses f es cls))
          ++ part1.drop (pos - (es.filter (fun x => f x = c)).length) := hqpart
      have hqplen2 : q.partition.length = part1.length := hqplen
      have hqilen2 : q.indices.length = idx1.length := hqilen
      have hqioff2 : ∀ v, (v ∈ es → f v ∉ neClasses f es cls) →
          q.indices.get? v = idx1.get? v := hqioff
      have hqimid2 : ∀ s pr, q.partition.get? s = some pr →
          pos - (es.filter (fun x => f x = c)).length
            - ((neClasses f es cls).map
              (fun c => (es.filter (fun x => f x = c)).length)).sum ≤ s →
          s < pos - (es.filter (fun x => f x = c)).length →
          q.indices.get? pr.1 = some s := hqimid
      have hqav2 : q.available = restAvail.drop (neClasses f es cls).length := hqav
      have hqcl2 : q.availableClosed = p.availableClosed := hqcl
      have hqsg2 : q.splitgroups = p.splitgroups := hqsg
      have hqcount2 : q.count = p.count + 1 + (neClasses f es cls).length := hqcount
      have hqdeg2 : q.degree = p.degree := hqdeg
      have hqlastq2 : (neClasses f es cls = [] ∧ lastq = h1av) ∨ lastq ∈ restAvail := hqlastq
      have htake1 : p.available.take (c :: neClasses f es cls).length
          = h1av :: restAvail.take (neClasses f es cls).length := by
        rw [hav, List.length_cons, List.take_succ_cons]
      have hse : splitEntries f es (h1av :: restAvail.take (neClasses f es cls).length)
            (c :: neClasses f es cls)
          = (h1av, (es.filter (fun x => f x = c)).reverse)
            :: splitEntries f es (restAvail.take (neClasses f es cls).length)
              (neClasses f es cls) := rfl
      have he1 : pos - ((c :: neClasses f es cls).map
          (fun c => (es.filter (fun x => f x = c)).length)).sum
          = pos - (es.filter (fun x => f x = c)).length
            - ((neClasses f es cls).map
              (fun c => (es.filter (fun x => f x = c)).length)).sum := by
        simp only [List.map_cons, List.sum_cons]
        omega
      have hSElen : (runsOf (splitEntries f es
          (restAvail.take (neClasses f es cls).length) (neClasses f es cls))).length
          = ((neClasses f es cls).map
            (fun c => (es.filter (fun x => f x = c)).length)).sum := by
        rw [runsOf_length, splitEntries_sumLen _ _ (by rw [List.length_take]; omega)]
      have hgethigh : ∀ s, pos - (es.filter (fun x => f x = c)).length ≤ s →
          q.partition.get? s = part1.get? s := by
        intro s hs
        rw [hqpart2]
        exact splice_get_high (by rw [hSElen]; omega) (by omega)
          (by rw [hpart1len]; omega) hs
      have hgetmid : ∀ s, pos - (es.filter (fun x => f x = c)).length ≤ s → s < pos →
          part1.get? s = ((es.filter (fun x => f x = c)).reverse.map
            (fun x => (x, h1av))).get?
            (s - (pos - (es.filter (fun x => f x = c)).length)) := by
        intro s hs1 hs2
        rw [hpart1]
        exact splice_get_mid (by simp; omega) (by omega) hpos hs1 hs2
      refine ⟨q, lastq, ?_, ?_, ?_, ?_, ?_, ?_, ?_, ?_, ?_, ?_, ?_, ?_, ?_, ?_, ?_, ?_⟩
      · rw [hstep, hqeq, he1]
      · intro y hyl hyt
        rw [htake1] at hyt
        have hyh1 : y ≠ h1av := fun hh => hyt (by rw [hh]; exact List.mem_cons_self _ _)
        have hyt2 : y ∉ restAvail.take (neClasses f es cls).length :=
          fun hh => hyt (List.mem_cons_of_mem _ hh)
        rw [hqoff2 y hyh1 hyt2, List.get?_eq_getElem?,
          List.getElem?_set_ne (fun hh => hyh1 hh.symm),
          List.getElem?_set_ne (fun hh => hyl hh.symm),
          List.getElem?_set_ne (fun hh => hyh1 hh.symm), ← List.get?_eq_getElem?]
      · rw [hqlen2]
        simp only [List.length_set]
      · rw [htake1, hse]
        show q.blocks.get? last = some { lastBlk with next := h1av }
        have hlnotin : last ∉ restAvail.take (neClasses f es cls).length := by
          intro hh
          have hmem : last ∈ p.available := by
            rw [hav]
            exact List.mem_cons_of_mem _ (List.mem_of_mem_take hh)
          exact (hav0 last hmem).1 rfl
        rw [hqoff2 last (fun hh => hh1last hh.symm) hlnotin, List.get?_eq_getElem?,
          List.getElem?_set_ne hh1last,
          List.getElem?_set_eq_of_lt ({ lastBlk with next := h1av } : Block)
            (by rw [List.length_set]; exact hlastlt)]
      · rw [htake1, hse]
        refine ⟨⟨pos, ringNextsFrom nxt0 (splitEntries f es
            (restAvail.take (neClasses f es cls).length) (neClasses f es cls)), 0,
            lastBlk.depth, []⟩, hqlast2, rfl, rfl, ?_, ?_⟩
        · simp only [List.length_reverse]
          omega
        · rw [List.length_reverse, he1]
          exact hqseg2
      · rw [htake1, hse, hqpart2, hpart1]
        have htk : ((p.partition.take (pos - (es.filter (fun x => f x = c)).length)
              ++ (es.filter (fun x => f x = c)).reverse.map (fun x => (x, h1av))
              ++ p.partition.drop pos).take
            (pos - (es.filter (fun x => f x = c)).length
              - ((neClasses f es cls).map
                (fun c => (es.filter (fun x => f x = c)).length)).sum))
            = p.partition.take (pos - (es.filter (fun x => f x = c)).length
              - ((neClasses f es cls).map
                (fun c => (es.filter (fun x => f x = c)).length)).sum) :=
          splice_take (by omega) (by omega)
        have hdp : ((p.partition.take (pos - (es.filter (fun x => f x = c)).length)
              ++ (es.filter (fun x => f x = c)).reverse.map (fun x => (x, h1av))
              ++ p.partition.drop pos).drop
            (pos - (es.filter (fun x => f x = c)).length))
            = (es.filter (fun x => f x = c)).reverse.map (fun x => (x, h1av))
              ++ p.partition.drop pos :=
          splice_drop_mid (by omega)
        rw [htk, hdp, runsOf_cons]
        simp only []
        rw [he1]
        simp [List.append_assoc]
      · rw [hqplen2, hpart1len]
      · rw [hqilen2, hidx1len]
      · intro v hv
        rw [hqioff2 v (fun hm hin => hv hm (List.mem_cons_of_mem _ hin))]
        exact hidx1ne v (fun hvf => hv (List.mem_filter.mp hvf).1
          (by
            have hfc : f v = c := by simpa using (List.mem_filter.mp hvf).2
            rw [hfc]
            exact List.mem_cons_self _ _))
      · intro s pr hget hs1 hs2
        simp only [List.map_cons, List.sum_cons] at hs1
        by_cases hcase : s < pos - (es.filter (fun x => f x = c)).length
        · exact hqimid2 s pr hget (by omega) hcase
        · have hslo : pos - (es.filter (fun x => f x = c)).length ≤ s := by omega
          have hg2 : ((es.filter (fun x => f x = c)).reverse.map
              (fun x => (x, h1av))).get?
              (s - (pos - (es.filter (fun x => f x = c)).length)) = some pr := by
            rw [← hgetmid s hslo hs2, ← hgethigh s hslo]
            exact hget
          rw [List.get?_eq_getElem?, List.getElem?_map] at hg2
          obtain ⟨x, hxg, hxpr⟩ := Option.map_eq_some'.mp hg2
          have hdlt : s - (pos - (es.filter (fun x => f x = c)).length)
              < (es.filter (fun x => f x = c)).length := by omega
          rw [List.getElem?_reverse hdlt] at hxg
          have hxmem : x ∈ es.filter (fun x => f x = c) := List.getElem?_mem hxg
          have hxes : x ∈ es := (List.mem_filter.mp hxmem).1
          have hxc : f x = c := by simpa using (List.mem_filter.mp hxmem).2
          have hcnot : c ∉ neClasses f es cls := fun hcin =>
            (List.nodup_cons.mp hclsnd).1 (List.mem_of_mem_filter hcin)
          have hqi : q.indices.get? x = idx1.get? x :=
            hqioff2 x (fun _ => by rw [hxc]; exact hcnot)
          have hgx : (es.filter (fun x => f x = c)).get?
              ((es.filter (fun x => f x = c)).length - 1
                - (s - (pos - (es.filter (fun x => f x = c)).length))) = some x := by
            rw [List.get?_eq_getElem?]
            exact hxg
          have hidx := hidx1pos _ x hgx
          have hpr1 : pr.1 = x := by rw [← hxpr]
          rw [hpr1, hqi, hidx]
          congr 1
          omega
      · rw [hqav2, hav, List.length_cons, List.drop_succ_cons]
      · exact hqcl2
      · exact hqsg2
      · rw [hqcount2, List.length_cons]
        omega
      · exact hqdeg2
      · rcases hqlastq2 with ⟨_, hl⟩ | hl
        · refine Or.inr ?_
          rw [hl, hav]
          exact List.mem_cons_self _ _
        · refine Or.inr ?_
          rw [hav]
          exact List.mem_cons_of_mem _ hl

theorem splitClasses_first : ∀ (cls : List Nat) (f : Nat → Nat) (degree : Nat)
    (es : List Nat) (b : Nat) (p : Partition) (pos nxt0 : Nat) (bBlk : Block),
    (∀ c ∈ cls, c < degree) → cls.Nodup → es.Nodup →
    (∀ x ∈ es, x < p.indices.length) →
    p.blocks.get? b = some bBlk →
    bBlk.next = nxt0 →
    (nxt0 ≠ 0 → ∃ blk, p.blocks.get? nxt0 = some blk) →
    (nxt0 ≠ 0 → b ≠ nxt0) →
    bBlk.bend = pos →
    pos ≤ p.partition.length →
    ((neClasses f es cls).map (fun c => (es.filter (fun x => f x = c)).length)).sum ≤ pos →
    (neClasses f es cls).length ≤ p.available.length + 1 →
    (∀ h ∈ p.available, h < p.blocks.length) →
    (∀ h ∈ p.available, h ≠ b ∧ h ≠ nxt0) →
    p.available.Nodup →
    neClasses f es cls ≠ [] →
    ∃ q lastq,
      splitClasses b (classGroups f degree es) cls p b true pos =
        some (q, lastq, false,
          pos - ((neClasses f es cls).map
            (fun c => (es.filter (fun x => f x = c)).length)).sum) ∧
      (∀ y, y ≠ b → y ∉ p.available.take ((neClasses f es cls).length - 1) →
        q.blocks.get? y = p.blocks.get? y) ∧
      q.blocks.length = p.blocks.length ∧
      (∀ blk, q.blocks.get? b = some blk →
        blk.parent = bBlk.parent ∧ blk.depth = bBlk.depth ∧ blk.witness = bBlk.witness) ∧
      RingSeg q.blocks nxt0
        (splitEntriesF f es b (p.available.take ((neClasses f es cls).length - 1))
          (neClasses f es cls)) pos
        (pos - ((neClasses f es cls).map
          (fun c => (es.filter (fun x => f x = c)).length)).sum) ∧
      q.partition = p.partition.take
          (pos - ((neClasses f es cls).map
            (fun c => (es.filter (fun x => f x = c)).length)).sum) ++
        runsOf (splitEntriesF f es b (p.available.take ((neClasses f es cls).length - 1))
          (neClasses f es cls)) ++
        p.partition.drop pos ∧
      q.partition.length = p.partition.length ∧
      q.indices.length = p.indices.length ∧
      (∀ v, (v ∈ es → f v ∉ neClasses f es cls) →
        q.indices.get? v = p.indices.get? v) ∧
      (∀ s pr, q.partition.get? s = some pr →
        pos - ((neClasses f es cls).map
          (fun c => (es.filter (fun x => f x = c)).length)).sum ≤ s →
        s < pos → q.indices.get? pr.1 = some s) ∧
      q.available = p.available.drop ((neClasses f es cls).length - 1) ∧
      q.availableClosed = p.availableClosed ∧
      q.splitgroups = p.splitgroups ∧
      q.count = p.count + ((neClasses f es cls).length - 1) ∧
      q.degree = p.degree ∧
      (((neClasses f es cls).length = 1 ∧ lastq = b) ∨ lastq ∈ p.available) := by
  intro cls
  induction cls with
  | nil =>
    intro f degree es b p pos nxt0 bBlk _ _ _ _ _ _ _ _ _ _ _ _ _ _ _ hne
    exact absurd neClasses_nil hne
  | cons c cls ih =>
    intro f degree es b p pos nxt0 bBlk hcd hclsnd hesnd hx hlast hlnxt hnxtrec hln hbend
      hpos hsum havail havlt hav0 havnd hne
    have hc : c < degree := hcd c (by simp)
    by_cases hcne : es.filter (fun x => f x = c) = []
    · rw [neClasses_cons_neg hcne] at *
      have hstep : splitClasses b (classGroups f degree es) (c :: cls) p b true pos =
          splitClasses b (classGroups f degree es) cls p b true pos := by
        rw [splitClasses]
        simp only [Option.bind_eq_bind]
        rw [show (classGroups f degree es).get? c =
          some (es.filter (fun x => f x = c)) from classGroups_get hc]
        simp only [Option.some_bind]
        rw [hcne]
        simp
      rw [hstep]
      exact ih f degree es b p pos nxt0 bBlk (fun x hxx => hcd x (by simp [hxx]))
        (List.Nodup.of_cons hclsnd) hesnd hx hlast hlnxt hnxtrec hln hbend hpos hsum
        havail havlt hav0 havnd hne
    · rw [neClasses_cons_pos hcne] at *
      have hpos0 : (es.filter (fun x => f x = c)).length > 0 := List.length_pos.mpr hcne
      simp only [List.map_cons, List.sum_cons] at hsum
      simp only [List.length_cons] at havail
      obtain ⟨part1, idx1, hws, hpart1, hidx1len, hidx1ne, hidx1pos⟩ :=
        writeStates_spec (es.filter (fun x => f x = c)) p.partition p.indices b pos
          (by omega) hpos
          (fun x hxm => hx x (List.mem_of_mem_filter hxm))
          (List.Nodup.filter _ hesnd)
      have hpart1len : part1.length = p.partition.length := by
        rw [hpart1]
        exact splice_length (by simp; omega) (by omega) hpos
      have hstep : splitClasses b (classGroups f degree es) (c :: cls) p b true pos
          = splitClasses b (classGroups f degree es) cls
              { p with partition := part1, indices := idx1 }
              b false (pos - (es.filter (fun x => f x = c)).length) := by
        rw [splitClasses]
        simp only [Option.bind_eq_bind]
        rw [show (classGroups f degree es).get? c
          = some (es.filter (fun x => f x = c)) from classGroups_get hc]
        simp only [Option.some_bind]
        rw [if_pos hpos0]
        rw [if_pos trivial]
        rw [hws]
        simp only [Option.some_bind]
      obtain ⟨q, lastq, hqeq, hqoff, hqlen, hqlast, hqseg, hqpart, hqplen, hqilen, hqioff,
          hqimid, hqav, hqcl, hqsg, hqcount, hqdeg, hqlastq⟩ :=
        splitClasses_rest cls f degree es b
          { p with partition := part1, indices := idx1 }
          b (pos - (es.filter (fun x => f x = c)).length) nxt0 bBlk
          (fun y hy => hcd y (List.mem_cons_of_mem _ hy))
          (List.Nodup.of_cons hclsnd) hesnd
          (fun x hxm => by
            show x < idx1.length
            rw [hidx1len]
            exact hx x hxm)
          hlast hlnxt hnxtrec hln
          (by
            show pos - (es.filter (fun x => f x = c)).length ≤ part1.length
            rw [hpart1len]
            omega)
          (by omega)
          (by
            show (neClasses f es cls).length ≤ p.available.length
            omega)
          havlt hav0 havnd
      have hqoff2 : ∀ y, y ≠ b → y ∉ p.available.take (neClasses f es cls).length →
          q.blocks.get? y = p.blocks.get? y := hqoff
      have hqlen2 : q.blocks.length = p.blocks.length := hqlen
      have hqlast2 : q.blocks.get? b = some ⟨bBlk.bend,
          ringNextsFrom nxt0 (splitEntries f es
            (p.available.take (neClasses f es cls).length) (neClasses f es cls)),
          bBlk.parent, bBlk.depth, bBlk.witness⟩ := hqlast
      have hqseg2 : RingSeg q.blocks nxt0
          (splitEntries f es (p.available.take (neClasses f es cls).length)
            (neClasses f es cls))
          (pos - (es.filter (fun x => f x = c)).length)
          (pos - (es.filter (fun x => f x = c)).length
            - ((neClasses f es cls).map
              (fun c => (es.filter (fun x => f x = c)).length)).sum) := hqseg
      have hqpart2 : q.partition = part1.take
            (pos - (es.filter (fun x => f x = c)).length
              - ((neClasses f es cls).map
                (fun c => (es.filter (fun x => f x = c)).length)).sum)
          ++ runsOf (splitEntries f es (p.available.take (neClasses f es cls).length)
            (neClasses f es cls))
          ++ part1.drop (pos - (es.filter (fun x => f x = c)).length) := hqpart
      have hqplen2 : q.partition.length = part1.length := hqplen
      have hqilen2 : q.indices.length = idx1.length := hqilen
      have hqioff2 : ∀ v, (v ∈ es → f v ∉ neClasses f es cls) →
          q.indices.get? v = idx1.get? v := hqioff
      have hqimid2 : ∀ s pr, q.partition.get? s = some pr →
          pos - (es.filter (fun x => f x = c)).length
            - ((neClasses f es cls).map
              (fun c => (es.filter (fun x => f x = c)).length)).sum ≤ s →
          s < pos - (es.filter (fun x => f x = c)).length →
          q.indices.get? pr.1 = some s := hqimid
      have hqav2 : q.available = p.available.drop (neClasses f es cls).length := hqav
      have hqcl2 : q.availableClosed = p.availableClosed := hqcl
      have hqsg2 : q.splitgroups = p.splitgroups := hqsg
      have hqcount2 : q.count = p.count + (neClasses f es cls).length := hqcount
      have hqdeg2 : q.degree = p.degree := hqdeg
      have hqlastq2 : (neClasses f es cls = [] ∧ lastq = b) ∨ lastq ∈ p.available := hqlastq
      have hlen1 : (c :: neClasses f es cls).length - 1 = (neClasses f es cls).length := by
        simp
      have hse : splitEntriesF f es b (p.available.take (neClasses f es cls).length)
            (c :: neClasses f es cls)
          = (b, (es.filter (fun x => f x = c)).reverse)
            :: splitEntries f es (p.available.take (neClasses f es cls).length)
              (neClasses f es cls) := rfl
      have he1 : pos - ((c :: neClasses f es cls).map
          (fun c => (es.filter (fun x => f x = c)).length)).sum
          = pos - (es.filter (fun x => f x = c)).length
            - ((neClasses f es cls).map
              (fun c => (es.filter (fun x => f x = c)).length)).sum := by
        simp only [List.map_cons, List.sum_cons]
        omega
      have hSElen : (runsOf (splitEntries f es
          (p.available.take (neClasses f es cls).length) (neClasses f es cls))).length
          = ((neClasses f es cls).map
            (fun c => (es.filter (fun x => f x = c)).length)).sum := by
        rw [runsOf_length, splitEntries_sumLen _ _ (by rw [List.length_take]; omega)]
      have hgethigh : ∀ s, pos - (es.filter (fun x => f x = c)).length ≤ s →
          q.partition.get? s = part1.get? s := by
        intro s hs
        rw [hqpart2]
        exact splice_get_high (by rw [hSElen]; omega) (by omega)
          (by rw [hpart1len]; omega) hs
      have hgetmid : ∀ s, pos - (es.filter (fun x => f x = c)).length ≤ s → s < pos →
          part1.get? s = ((es.filter (fun x => f x = c)).reverse.map
            (fun x => (x, b))).get?
            (s - (pos - (es.filter (fun x => f x = c)).length)) := by
        intro s hs1 hs2
        rw [hpart1]
        exact splice_get_mid (by simp; omega) (by omega) hpos hs1 hs2
      refine ⟨q, lastq, ?_, ?_, ?_, ?_, ?_, ?_, ?_, ?_, ?_, ?_, ?_, ?_, ?_, ?_, ?_, ?_⟩
      · rw [hstep, hqeq, he1]
      · intro y hyb hyt
        rw [hlen1] at hyt
        exact hqoff2 y hyb hyt
      · exact hqlen2
      · intro blk hblk
        rw [hqlast2] at hblk
        have hbe := Option.some.inj hblk
        rw [← hbe]
        exact ⟨rfl, rfl, rfl⟩
      · rw [hlen1, hse]
        refine ⟨⟨bBlk.bend, ringNextsFrom nxt0 (splitEntries f es
            (p.available.take (neClasses f es cls).length) (neClasses f es cls)),
            bBlk.parent, bBlk.depth, bBlk.witness⟩, hqlast2, hbend, rfl, ?_, ?_⟩
        · simp only [List.length_reverse]
          omega
        · rw [List.length_reverse, he1]
          exact hqseg2
      · rw [hlen1, hse, hqpart2, hpart1]
        have htk : ((p.partition.take (pos - (es.filter (fun x => f x = c)).length)
              ++ (es.filter (fun x => f x = c)).reverse.map (fun x => (x, b))
              ++ p.partition.drop pos).take
            (pos - (es.filter (fun x => f x = c)).length
              - ((neClasses f es cls).map
                (fun c => (es.filter (fun x => f x = c)).length)).sum))
            = p.partition.take (pos - (es.filter (fun x => f x = c)).length
              - ((neClasses f es cls).map
                (fun c => (es.filter (fun x => f x = c)).length)).sum) :=
          splice_take (by omega) (by omega)
        have hdp : ((p.partition.take (pos - (es.filter (fun x => f x = c)).length)
              ++ (es.filter (fun x => f x = c)).reverse.map (fun x => (x, b))
              ++ p.partition.drop pos).drop
            (pos - (es.filter (fun x => f x = c)).length))
            = (es.filter (fun x => f x = c)).reverse.map (fun x => (x, b))
              ++ p.partition.drop pos :=
          splice_drop_mid (by omega)
        rw [htk, hdp, runsOf_cons]
        simp only []
        rw [he1]
        simp [List.append_assoc]
      · rw [hqplen2, hpart1len]
      · rw [hqilen2, hidx1len]
      · intro v hv
        rw [hqioff2 v (fun hm hin => hv hm (List.mem_cons_of_mem _ hin))]
        exact hidx1ne v (fun hvf => hv (List.mem_filter.mp hvf).1
          (by
            have hfc : f v = c := by simpa using (List.mem_filter.mp hvf).2
            rw [hfc]
            exact List.mem_cons_self _ _))
      · intro s pr hget hs1 hs2
        simp only [List.map_cons, List.sum_cons] at hs1
        by_cases hcase : s < pos - (es.filter (fun x => f x = c)).length
        · exact hqimid2 s pr hget (by omega) hcase
        · have hslo : pos - (es.filter (fun x => f x = c)).length ≤ s := by omega
          have hg2 : ((es.filter (fun x => f x = c)).reverse.map
              (fun x => (x, b))).get?
              (s - (pos - (es.filter (fun x => f x = c)).length)) = some pr := by
            rw [← hgetmid s hslo hs2, ← hgethigh s hslo]
            exact hget
          rw [List.get?_eq_getElem?, List.getElem?_map] at hg2
          obtain ⟨x, hxg, hxpr⟩ := Option.map_eq_some'.mp hg2
          have hdlt : s - (pos - (es.filter (fun x => f x = c)).length)
              < (es.filter (fun x => f x = c)).length := by omega
          rw [List.getElem?_reverse hdlt] at hxg
          have hxmem : x ∈ es.filter (fun x => f x = c) := List.getElem?_mem hxg
          have hxc : f x = c := by simpa using (List.mem_filter.mp hxmem).2
          have hcnot : c ∉ neClasses f es cls := fun hcin =>
            (List.nodup_cons.mp hclsnd).1 (List.mem_of_mem_filter hcin)
          have hqi : q.indices.get? x = idx1.get? x :=
            hqioff2 x (fun _ => by rw [hxc]; exact hcnot)
          have hgx : (es.filter (fun x => f x = c)).get?
              ((es.filter (fun x => f x = c)).length - 1
                - (s - (pos - (es.filter (fun x => f x = c)).length))) = some x := by
            rw [List.get?_eq_getElem?]
            exact hxg
          have hidx := hidx1pos _ x hgx
          have hpr1 : pr.1 = x := by rw [← hxpr]
          rw [hpr1, hqi, hidx]
          congr 1
          omega
      · rw [hqav2, hlen1]
      · exact hqcl2
      · exact hqsg2
      · rw [hqcount2, hlen1]
      · exact hqdeg2
      · rcases hqlastq2 with ⟨hnil, hl⟩ | hl
        · exact Or.inl ⟨by simp [hnil], hl⟩
        · exact Or.inr hl

theorem runsOf_append {X Y : List (Nat × List Nat)} :
    runsOf (X ++ Y) = runsOf Y ++ runsOf X := by
  unfold runsOf
  rw [List.reverse_append, List.map_append, List.flatten_append]

theorem sumLen_cons {e : Nat × List Nat} {L : List (Nat × List Nat)} :
    sumLen (e :: L) = e.2.length + sumLen L := by
  simp [sumLen]

theorem sumLen_append {X Y : List (Nat × List Nat)} :
    sumLen (X ++ Y) = sumLen X + sumLen Y := by
  simp [sumLen]

theorem length_le_sumLen : ∀ {L : List (Nat × List Nat)}, (∀ he ∈ L, he.2 ≠ []) →
    L.length ≤ sumLen L := by
  intro L
  induction L with
  | nil => intro _; simp [sumLen]
  | cons e rest ih =>
    intro h
    rw [List.length_cons, sumLen_cons]
    have h1 : 1 ≤ e.2.length := List.length_pos.mpr (h e (by simp))
    have h2 := ih (fun x hx => h x (by simp [hx]))
    omega

theorem mem_neClasses {f : Nat → Nat} {es cls : List Nat} {c : Nat} :
    c ∈ neClasses f es cls ↔ c ∈ cls ∧ es.filter (fun x => f x = c) ≠ [] := by
  unfold neClasses
  rw [List.mem_filter]
  simp

theorem neClasses_nodup {f : Nat → Nat} {es cls : List Nat} (h : cls.Nodup) :
    (neClasses f es cls).Nodup := List.Nodup.filter _ h

theorem neClasses_sum {f : Nat → Nat} {es : List Nat} : ∀ {cls : List Nat},
    ((neClasses f es cls).map (fun c => (es.filter (fun x => f x = c)).length)).sum
      = (cls.map (fun c => (es.filter (fun x => f x = c)).length)).sum := by
  intro cls
  induction cls with
  | nil => rfl
  | cons c cls ih =>
    by_cases hc : es.filter (fun x => f x = c) = []
    · rw [neClasses_cons_neg hc, List.map_cons, List.sum_cons, ih, hc]
      simp
    · rw [neClasses_cons_pos hc, List.map_cons, List.sum_cons, List.map_cons,
        List.sum_cons, ih]

theorem range_sum_filter {f : Nat → Nat} {degree : Nat} {es : List Nat}
    (h : ∀ x ∈ es, f x < degree) :
    ((List.range degree).map (fun c => (es.filter (fun x => f x = c)).length)).sum
      = es.length := by
  have h2 := @classGroups_sum f degree es h
  unfold classGroups at h2
  rw [List.map_map] at h2
  simpa [Function.comp] using h2

theorem splitEntries_handles {f : Nat → Nat} {es : List Nat} : ∀ (cs hs : List Nat),
    hs.length = cs.length → (splitEntries f es hs cs).map Prod.fst = hs := by
  intro cs
  induction cs with
  | nil =>
    intro hs h
    rw [List.length_nil] at h
    rw [List.length_eq_zero.mp h]
    rfl
  | cons c cs ih =>
    intro hs h
    cases hs with
    | nil => simp at h
    | cons a hs =>
      rw [splitEntries, List.map_cons, ih hs (by simpa using h)]

theorem splitEntries_mem {f : Nat → Nat} {es : List Nat} : ∀ (cs hs : List Nat)
    (ent : Nat × List Nat), ent ∈ splitEntries f es hs cs →
    ∃ c ∈ cs, ent.2 = (es.filter (fun x => f x = c)).reverse := by
  intro cs
  induction cs with
  | nil =>
    intro hs ent h
    cases hs with
    | nil => exact absurd h (List.not_mem_nil _)
    | cons a hs => exact absurd h (List.not_mem_nil _)
  | cons c cs ih =>
    intro hs ent h
    cases hs with
    | nil => exact absurd h (List.not_mem_nil _)
    | cons a hs =>
      rw [splitEntries] at h
      rcases List.mem_cons.mp h with h1 | h2
      · exact ⟨c, by simp, by rw [h1]⟩
      · obtain ⟨c2, hc2, he⟩ := ih hs ent h2
        exact ⟨c2, by simp [hc2], he⟩

theorem splitEntries_cover {f : Nat → Nat} {es : List Nat} : ∀ (cs hs : List Nat)
    (c : Nat), cs.length ≤ hs.length → c ∈ cs →
    ∃ ent ∈ splitEntries f es hs cs, ent.2 = (es.filter (fun x => f x = c)).reverse := by
  intro cs
  induction cs with
  | nil =>
    intro hs c _ h
    exact absurd h (List.not_mem_nil _)
  | cons c1 cs ih =>
    intro hs c hlen hm
    cases hs with
    | nil => simp at hlen
    | cons a hs =>
      rcases List.mem_cons.mp hm with h1 | h2
      · refine ⟨(a, (es.filter (fun x => f x = c1)).reverse), ?_, by rw [h1]⟩
        rw [splitEntries]
        exact List.mem_cons_self _ _
      · obtain ⟨ent, hent, he⟩ := ih hs c (by simpa using hlen) h2
        refine ⟨ent, ?_, he⟩
        rw [splitEntries]
        exact List.mem_cons_of_mem _ hent

theorem ringOk_split {bs : List Block} {X Y : List (Nat × List Nat)} {n : Nat}
    (h : RingOk bs (X ++ Y) n) :
    RingSeg bs (ringNexts Y) X n (n - sumLen X) ∧ RingOk bs Y (n - sumLen X) := by
  have h2 := ringSeg_zero.mpr h
  obtain ⟨h3, h4⟩ := ringSeg_split h2
  have hnx : ringNextsFrom 0 Y = ringNexts Y := by
    cases Y with
    | nil => rfl
    | cons y r => cases y; rfl
  rw [hnx] at h3
  exact ⟨h3, ringSeg_zero.mp h4⟩

theorem ringOk_join {bs : List Block} {X Y : List (Nat × List Nat)} {n mid : Nat}
    (hX : RingSeg bs (ringNexts Y) X n mid) (hY : RingOk bs Y mid) :
    RingOk bs (X ++ Y) n := by
  apply ringSeg_zero.mp
  apply ringSeg_append_intro hX (ringSeg_zero.mpr hY)
  cases Y with
  | nil => rfl
  | cons y r => cases y; rfl

theorem mem_runsOf_iff : ∀ {L : List (Nat × List Nat)} {x h : Nat},
    (x, h) ∈ runsOf L ↔ ∃ es, (h, es) ∈ L ∧ x ∈ es := by
  intro L
  induction L with
  | nil =>
    intro x h
    simp [runsOf_nil]
  | cons e rest ih =>
    intro x h
    rw [runsOf_cons, List.mem_append]
    constructor
    · rintro (h1 | h2)
      · obtain ⟨es, hm, hx⟩ := ih.mp h1
        exact ⟨es, List.mem_cons_of_mem _ hm, hx⟩
      · obtain ⟨y, hy, hxy⟩ := List.mem_map.mp h2
        obtain ⟨e1, e2⟩ := e
        refine ⟨e2, ?_, ?_⟩
        · have : e1 = h := congrArg Prod.snd hxy
          rw [← this]
          exact List.mem_cons_self _ _
        · have : y = x := congrArg Prod.fst hxy
          rw [← this]
          exact hy
    · rintro ⟨es, hm, hx⟩
      rcases List.mem_cons.mp hm with h1 | h2
      · refine Or.inr ?_
        rw [← h1]
        exact List.mem_map.mpr ⟨x, hx, rfl⟩
      · exact Or.inl (ih.mpr ⟨es, h2, hx⟩)

theorem two_mem_le_length {l : List Nat} {a b : Nat}
    (ha : a ∈ l) (hb : b ∈ l) (hab : a ≠ b) : 2 ≤ l.length := by
  obtain ⟨s, t, rfl⟩ := List.append_of_mem ha
  rw [List.length_append, List.length_cons]
  rcases List.mem_append.mp hb with h1 | h2
  · have h3 : 1 ≤ s.length := List.length_pos.mpr (List.ne_nil_of_mem h1)
    omega
  · rcases List.mem_cons.mp h2 with h3 | h4
    · exact absurd h3.symm hab
    · have h5 : 1 ≤ t.length := List.length_pos.mpr (List.ne_nil_of_mem h4)
      omega

theorem length_le_map_sum {l : List Nat} {g : Nat → Nat} (h : ∀ x ∈ l, 1 ≤ g x) :
    l.length ≤ (l.map g).sum := by
  induction l with
  | nil => simp
  | cons a as ih =>
    rw [List.length_cons, List.map_cons, List.sum_cons]
    have h1 := h a (by simp)
    have h2 := ih (fun x hx => h x (by simp [hx]))
    omega

theorem indexInv_inj {p : Partition}
    (hinv : ∀ s pr, p.partition.get? s = some pr →
      p.indices.get? pr.1 = some s ∧ pr.1 < p.indices.length) :
    ∀ s1 s2 pr1 pr2, p.partition.get? s1 = some pr1 → p.partition.get? s2 = some pr2 →
      pr1.1 = pr2.1 → s1 = s2 := by
  intro s1 s2 pr1 pr2 h1 h2 he
  have a1 := (hinv s1 pr1 h1).1
  have a2 := (hinv s2 pr2 h2).1
  rw [he] at a1
  exact Option.some.inj (a1.symm.trans a2)

theorem mem_suffix_ne_zero {L1 L2 : List (Nat × List Nat)} {mide : Nat × List Nat}
    (hnd : ((L1 ++ mide :: L2).map Prod.fst).Nodup)
    (hh : ∃ es0, (L1 ++ mide :: L2).head? = some (0, es0)) :
    ∀ pr ∈ L2, pr.1 ≠ 0 := by
  obtain ⟨es0, hh⟩ := hh
  intro pr hm he
  cases L1 with
  | nil =>
    rw [List.nil_append, List.head?_cons] at hh
    have hm0 : mide = (0, es0) := Option.some.inj hh
    rw [List.nil_append, hm0, List.map_cons] at hnd
    exact (List.nodup_cons.mp hnd).1 (List.mem_map.mpr ⟨pr, hm, he⟩)
  | cons e L1x =>
    rw [List.cons_append, List.head?_cons] at hh
    have hm0 : e = (0, es0) := Option.some.inj hh
    rw [List.cons_append, hm0, List.map_cons] at hnd
    refine (List.nodup_cons.mp hnd).1 ?_
    refine List.mem_map.mpr ⟨pr, ?_, he⟩
    rw [List.mem_append]
    exact Or.inr (List.mem_cons_of_mem _ hm)

theorem mid_ne_suffix {L1 L2 : List (Nat × List Nat)} {mide : Nat × List Nat}
    (hnd : ((L1 ++ mide :: L2).map Prod.fst).Nodup) :
    ∀ pr ∈ L2, pr.1 ≠ mide.1 := by
  intro pr hm he
  rw [List.map_append] at hnd
  have h2 := List.Nodup.of_append_right hnd
  rw [List.map_cons] at h2
  exact (List.nodup_cons.mp h2).1 (List.mem_map.mpr ⟨pr, hm, he⟩)

theorem split_rep {p : Partition} {n inners : Nat} {L1 L2 : List (Nat × List Nat)}
    {b : Nat} {es : List Nat} {degree : Nat} {f : Nat → Nat}
    (hrep : EngineRep p n (L1 ++ (b, es) :: L2) inners)
    (hf : ∀ x ∈ es, f x < degree) :
    ((∀ x ∈ es, ∀ y ∈ es, f x = f y) → p.split b degree f = some (p, false)) ∧
    ((¬ ∀ x ∈ es, ∀ y ∈ es, f x = f y) →
      ∃ q, p.split b degree f = some (q, true) ∧
        2 ≤ (neClasses f es (List.range degree)).length ∧
        (neClasses f es (List.range degree)).length ≤ p.available.length ∧
        (∀ y, y ≠ b →
          y ∉ p.available.take ((neClasses f es (List.range degree)).length - 1) →
          q.blocks.get? y = p.blocks.get? y) ∧
        q.blocks.length = p.blocks.length ∧
        (∀ blk0 blk, p.blocks.get? b = some blk0 → q.blocks.get? b = some blk →
          blk.parent = blk0.parent ∧ blk.depth = blk0.depth ∧
            blk.witness = blk0.witness) ∧
        RingSeg q.blocks (ringNexts L2)
          (splitEntriesF f es b
            (p.available.take ((neClasses f es (List.range degree)).length - 1))
            (neClasses f es (List.range degree)))
          (n - sumLen L1) (n - sumLen L1 - es.length) ∧
        q.partition = p.partition.take (n - sumLen L1 - es.length) ++
          runsOf (splitEntriesF f es b
            (p.available.take ((neClasses f es (List.range degree)).length - 1))
            (neClasses f es (List.range degree))) ++
          p.partition.drop (n - sumLen L1) ∧
        q.partition.length = p.partition.length ∧
        q.indices.length = p.indices.length ∧
        (∀ v, v ∉ es → q.indices.get? v = p.indices.get? v) ∧
        (∀ s pr, q.partition.get? s = some pr → n - sumLen L1 - es.length ≤ s →
          s < n - sumLen L1 → q.indices.get? pr.1 = some s) ∧
        q.available = p.available.drop
          ((neClasses f es (List.range degree)).length - 1) ∧
        q.availableClosed = p.availableClosed ∧
        q.splitgroups = p.splitgroups ∧
        q.count = p.count + ((neClasses f es (List.range degree)).length - 1) ∧
        q.degree = p.degree) := by
  obtain ⟨hpart_eq, hpart_len, hidx_len, hinv, hhead0, hblocks_len, hnonempty, hnodup,
    hring, havnd, havlt, havdisj, havopen, hpool, hinlt, hcount⟩ := hrep
  have hsumn : sumLen (L1 ++ (b, es) :: L2) = n := by
    rw [← runsOf_length, ← hpart_eq, hpart_len]
  have hsumsplit : sumLen L1 + (es.length + sumLen L2) = n := by
    rw [← hsumn, sumLen_append, sumLen_cons]
  obtain ⟨hL1seg, hmidring⟩ := ringOk_split hring
  obtain ⟨bBlk, hbget, hbbend, hbnext, heslen, hL2ring⟩ := hmidring
  have hes_ne : es ≠ [] := hnonempty (b, es) (by simp)
  have hes_len_pos : 0 < es.length := List.length_pos.mpr hes_ne
  obtain ⟨e0, he0⟩ : ∃ e0, es.get? 0 = some e0 := by
    cases hes : es with
    | nil => exact absurd hes hes_ne
    | cons a t => exact ⟨a, rfl⟩
  have he0mem : e0 ∈ es := List.get?_mem he0
  have hlo2 : sumLen L2 = n - sumLen L1 - es.length := by omega
  have hslots : ∀ j x, es.get? j = some x →
      p.partition.get? (n - sumLen L1 - es.length + j) = some (x, b) := by
    intro j x hj
    have hjlt : j < es.length := by
      by_contra hcon
      rw [List.get?_eq_getElem?, List.getElem?_eq_none (by omega)] at hj
      cases hj
    rw [hpart_eq, runsOf_append, runsOf_cons]
    simp only []
    rw [List.get?_eq_getElem?, List.append_assoc]
    rw [List.getElem?_append_right (by rw [runsOf_length]; omega)]
    rw [show n - sumLen L1 - es.length + j - (runsOf L2).length = j from by
      rw [runsOf_length]; omega]
    rw [List.getElem?_append_left (by rw [List.length_map]; omega)]
    rw [List.getElem?_map, ← List.get?_eq_getElem?, hj]
    rfl
  have hxlt : ∀ x ∈ es, x < p.indices.length := by
    intro x hx
    obtain ⟨j, hj⟩ := List.get?_of_mem hx
    exact (hinv _ _ (hslots j x hj)).2
  have hinj := indexInv_inj hinv
  have hesnd : es.Nodup := by
    rw [List.nodup_iff_injective_get]
    intro i j hij
    have h1 := hslots i.1 (es.get i) (List.get?_eq_get i.isLt)
    have h2 := hslots j.1 (es.get j) (List.get?_eq_get j.isLt)
    rw [hij] at h1
    have h3 := hinj _ _ _ _ h1 h2 rfl
    exact Fin.ext (by omega)
  have hrange : p.Range b = some (n - sumLen L1 - es.length, n - sumLen L1) := by
    unfold Partition.Range
    simp only [Option.bind_eq_bind]
    rw [hbget]
    simp only [Option.some_bind]
    rw [hbnext]
    cases L2 with
    | nil =>
      have h0 : ringNexts ([] : List (Nat × List Nat)) = 0 := rfl
      rw [h0]
      have hzero : n - sumLen L1 - es.length = 0 := hL2ring
      simp only [ne_eq, not_true_eq_false, if_false]
      rw [hbbend, hzero]
      rfl
    | cons pr2 L2x =>
      obtain ⟨h2, es2⟩ := pr2
      have hrn : ringNexts ((h2, es2) :: L2x) = h2 := rfl
      rw [hrn]
      have hne0 : h2 ≠ 0 := mem_suffix_ne_zero hnodup hhead0 (h2, es2) (by simp)
      rw [if_pos hne0]
      obtain ⟨nb, hnb, hnbbend, hrest⟩ := hL2ring
      rw [hnb]
      simp only [Option.some_bind]
      rw [hnbbend, hbbend]
      rfl
  have hcg0 : classGroups f degree ([] : List Nat) = List.replicate degree [] := by
    apply List.ext_getElem?
    intro i
    by_cases hi : i < degree
    · rw [classGroups_getElem hi, List.getElem?_replicate, if_pos hi]
      rfl
    · rw [List.getElem?_eq_none (by rw [classGroups_length]; omega),
        List.getElem?_replicate, if_neg hi]
  have hbuck := @bucketsAux_spec p.partition f degree b es []
    (n - sumLen L1 - es.length) (fun j x hj => hslots j x hj) hf
  rw [List.nil_append] at hbuck
  have hslot0 : p.partition.get? (n - sumLen L1 - es.length) = some (e0, b) := by
    have := hslots 0 e0 he0
    simpa using this
  have hpre : p.split b degree f =
      (if (es.filter (fun x => f x = f e0)).length = es.length then pure (p, false)
       else do
        let pr4 ← splitClasses b (classGroups f degree es) (List.range degree) p b true
          (n - sumLen L1)
        let p1 := pr4.1
        let last := pr4.2.1
        let first := pr4.2.2.1
        if first = true ∨ last = b then none
        else pure (p1, true)) := by
    unfold Partition.split
    simp only [Option.bind_eq_bind]
    rw [hrange]
    simp only [Option.some_bind]
    rw [show n - sumLen L1 - (n - sumLen L1 - es.length) = es.length from by omega]
    rw [← hcg0, hbuck]
    simp only [Option.some_bind]
    rw [hslot0]
    simp only [Option.some_bind]
    rw [show (classGroups f degree es).get? (f e0)
      = some (es.filter (fun x => f x = f e0)) from classGroups_get (hf e0 he0mem)]
    simp only [Option.some_bind]
  constructor
  · intro hall
    have hcond : (es.filter (fun x => f x = f e0)).length = es.length :=
      List.filter_length_eq_length.mpr (fun a ha => by
        rw [decide_eq_true_eq]
        exact hall a ha e0 he0mem)
    rw [hpre, if_pos hcond]
    rfl
  · intro hnall
    have hcond : ¬ (es.filter (fun x => f x = f e0)).length = es.length := by
      intro hcon
      apply hnall
      intro x hx y hy
      have hx1 := List.filter_length_eq_length.mp hcon x hx
      have hy1 := List.filter_length_eq_length.mp hcon y hy
      rw [decide_eq_true_eq] at hx1 hy1
      rw [hx1, hy1]
    obtain ⟨x0, hx0, y0, hy0, hxyne⟩ : ∃ x ∈ es, ∃ y ∈ es, f x ≠ f y := by
      by_contra hcon
      push_neg at hcon
      exact hnall fun x hx y hy => hcon x hx y hy
    have hclsmem : ∀ z ∈ es, f z ∈ neClasses f es (List.range degree) := by
      intro z hz
      rw [mem_neClasses]
      refine ⟨List.mem_range.mpr (hf z hz), ?_⟩
      intro hemp
      have hzin : z ∈ es.filter (fun x => f x = f z) :=
        List.mem_filter.mpr ⟨hz, by simp⟩
      rw [hemp] at hzin
      exact absurd hzin (List.not_mem_nil _)
    have hk2 : 2 ≤ (neClasses f es (List.range degree)).length :=
      two_mem_le_length (hclsmem x0 hx0) (hclsmem y0 hy0) hxyne
    have hksum : ((neClasses f es (List.range degree)).map
        (fun c => (es.filter (fun x => f x = c)).length)).sum = es.length := by
      rw [neClasses_sum, range_sum_filter hf]
    have hkes : (neClasses f es (List.range degree)).length ≤ es.length := by
      rw [← hksum]
      apply length_le_map_sum
      intro c hc
      exact List.length_pos.mpr (mem_neClasses.mp hc).2
    have hL1len : L1.length ≤ sumLen L1 :=
      length_le_sumLen (fun he hm => hnonempty he (by simp [hm]))
    have hL2len : L2.length ≤ sumLen L2 :=
      length_le_sumLen (fun he hm => hnonempty he (by simp [hm]))
    have hLlen : (L1 ++ (b, es) :: L2).length = L1.length + 1 + L2.length := by
      rw [List.length_append, List.length_cons]
      omega
    have heslen2 : 2 ≤ es.length := le_trans hk2 hkes
    have hkavail : (neClasses f es (List.range degree)).length ≤ p.available.length := by
      rw [hLlen] at hpool hinlt
      omega
    have hbmem : b ∈ (L1 ++ (b, es) :: L2).map Prod.fst := by
      rw [List.map_append]
      exact List.mem_append.mpr (Or.inr (by simp))
    have h0mem : (0 : Nat) ∈ (L1 ++ (b, es) :: L2).map Prod.fst := by
      obtain ⟨es0, hh⟩ := hhead0
      have hm := List.mem_of_mem_head? hh
      exact List.mem_map.mpr ⟨(0, es0), hm, rfl⟩
    have hav0 : ∀ h ∈ p.available, h ≠ b ∧ h ≠ ringNexts L2 := by
      intro h hm
      constructor
      · intro he
        exact havdisj h hm (he ▸ hbmem)
      · intro he
        apply havdisj h hm
        cases L2 with
        | nil =>
          rw [he]
          exact h0mem
        | cons pr2 L2x =>
          rw [he]
          obtain ⟨h2, es2⟩ := pr2
          rw [List.map_append]
          refine List.mem_append.mpr (Or.inr ?_)
          rw [List.map_cons]
          refine List.mem_cons_of_mem _ ?_
          rw [List.map_cons]
          exact List.mem_cons_self _ _
    have hnxtrec : ringNexts L2 ≠ 0 → ∃ blk, p.blocks.get? (ringNexts L2) = some blk := by
      cases L2 with
      | nil => exact fun h => absurd rfl h
      | cons pr2 L2x =>
        obtain ⟨h2, es2⟩ := pr2
        obtain ⟨nb, hnb, hrest⟩ := hL2ring
        exact fun _ => ⟨nb, hnb⟩
    have hlnx : ringNexts L2 ≠ 0 → b ≠ ringNexts L2 := by
      cases L2 with
      | nil => exact fun h => absurd rfl h
      | cons pr2 L2x =>
        intro _ he
        obtain ⟨h2, es2⟩ := pr2
        have hne := @mid_ne_suffix L1 ((h2, es2) :: L2x) (b, es) hnodup (h2, es2) (by simp)
        exact hne he.symm
    obtain ⟨q, lastq, hqeq, hqoff, hqlen, hqfields, hqseg, hqpart, hqplen, hqilen, hqioff,
        hqimid, hqav, hqcl, hqsg, hqcount, hqdeg, hqlastq⟩ :=
      splitClasses_first (List.range degree) f degree es b p (n - sumLen L1)
        (ringNexts L2) bBlk
        (fun c hc => List.mem_range.mp hc)
        (List.nodup_range degree)
        hesnd hxlt hbget hbnext hnxtrec hlnx hbbend
        (by rw [hpart_len]; omega)
        (by rw [hksum]; exact heslen)
        (by omega)
        (fun h hm => by rw [hblocks_len]; exact havlt h hm)
        hav0 havnd
        (fun hcon => by rw [hcon] at hk2; simp at hk2)
    have hlqb : lastq ≠ b := by
      rcases hqlastq with ⟨h1, _⟩ | h2
      · omega
      · exact (hav0 lastq h2).1
    refine ⟨q, ?_, hk2, hkavail, ?_, hqlen, ?_, ?_, ?_, hqplen, hqilen, ?_, ?_, hqav,
      hqcl, hqsg, hqcount, hqdeg⟩
    · rw [hpre, if_neg hcond]
      rw [hqeq]
      simp only [Option.bind_eq_bind, Option.some_bind]
      rw [if_neg (by
        rintro (h | h)
        · exact absurd h (by decide)
        · exact hlqb h)]
      rfl
    · intro y hy hyt
      exact hqoff y hy hyt
    · intro blk0 blk hblk0 hblk
      have hbb : blk0 = bBlk := by
        rw [hbget] at hblk0
        exact Option.some.inj hblk0.symm
      rw [hbb]
      exact hqfields blk hblk
    · rw [show n - sumLen L1 - es.length
        = n - sumLen L1 - ((neClasses f es (List.range degree)).map
          (fun c => (es.filter (fun x => f x = c)).length)).sum from by rw [hksum]]
      exact hqseg
    · rw [show n - sumLen L1 - es.length
        = n - sumLen L1 - ((neClasses f es (List.range degree)).map
          (fun c => (es.filter (fun x => f x = c)).length)).sum from by rw [hksum]]
      exact hqpart
    · intro v hv
      exact hqioff v (fun hm => absurd hm hv)
    · intro s pr hget hs1 hs2
      refine hqimid s pr hget ?_ hs2
      rw [hksum]
      exact hs1

theorem blockIndices_walk : ∀ (seg : List (Nat × List Nat)) (fuel : Nat) (p : Partition)
    (toIdx hi lo h0 : Nat) (es0 : List Nat),
    RingSeg p.blocks toIdx ((h0, es0) :: seg) hi lo →
    (∀ h ∈ seg.map Prod.fst, h ≠ toIdx ∧ h ≠ 0) →
    seg.length < fuel →
    Partition.blockIndices fuel p h0 toIdx = some (h0 :: seg.map Prod.fst) := by
  intro seg
  induction seg with
  | nil =>
    intro fuel p toIdx hi lo h0 es0 hseg _ hfuel
    obtain ⟨blk, hget, _, hnext, _, _⟩ := hseg
    cases fuel with
    | zero => omega
    | succ k =>
      rw [Partition.blockIndices]
      simp only [Option.bind_eq_bind]
      rw [hget]
      simp only [Option.some_bind]
      rw [hnext]
      rw [if_pos (Or.inl
        (show ringNextsFrom toIdx ([] : List (Nat × List Nat)) = toIdx from rfl))]
      rfl
  | cons e seg ih =>
    intro fuel p toIdx hi lo h0 es0 hseg hne hfuel
    obtain ⟨h1, es1⟩ := e
    obtain ⟨blk, hget, _, hnext, _, hrest⟩ := hseg
    have hne1 := hne h1 (by simp)
    cases fuel with
    | zero => simp at hfuel
    | succ k =>
      rw [Partition.blockIndices]
      simp only [Option.bind_eq_bind]
      rw [hget]
      simp only [Option.some_bind]
      rw [hnext]
      rw [show ringNextsFrom toIdx ((h1, es1) :: seg) = h1 from rfl]
      rw [if_neg (by
        rintro (h | h)
        · exact hne1.1 h
        · exact hne1.2 h)]
      rw [ih k p toIdx (hi - es0.length) lo h1 es1 hrest
        (fun h hm => hne h (by simp [hm])) (by simp at hfuel ⊢; omega)]
      rfl

theorem get?_some_of_lt {l : List Block} {j : Nat} (h : j < l.length) :
    ∃ y, l.get? j = some y := ⟨l.get ⟨j, h⟩, List.get?_eq_get h⟩

theorem makeParentChild_rep {index : Nat} {p : Partition} {sp : List (Nat × Nat)}
    {a blen : Nat} {h : Nat} {cb : Block}
    (hget : p.blocks.get? h = some cb)
    (hnx : cb.next ≠ 0 → ∃ nb, p.blocks.get? cb.next = some nb) :
    ∃ sp2 a2 b2,
      makeParentChild index (p, sp, a, blen) h = some
        ({ p with
            blocks := p.blocks.set h { cb with parent := index, depth := cb.depth + 1 } },
          sp2, a2, b2) := by
  have hlt : h < p.blocks.length := get?_eq_some_lt hget
  have hset : setAt p.blocks h { cb with parent := index, depth := cb.depth + 1 }
      = some (p.blocks.set h { cb with parent := index, depth := cb.depth + 1 }) :=
    setAt_isSome_of_lt _ hlt
  have hg2 : (p.blocks.set h { cb with parent := index, depth := cb.depth + 1 }).get? h
      = some { cb with parent := index, depth := cb.depth + 1 } := by
    rw [List.get?_eq_getElem?]
    rw [List.getElem?_set_eq_of_lt
      ({ cb with parent := index, depth := cb.depth + 1 } : Block) hlt]
  obtain ⟨pr, hr⟩ : ∃ pr, Partition.Range
      { p with
        blocks := p.blocks.set h { cb with parent := index, depth := cb.depth + 1 } }
      h = some pr := by
    by_cases h0 : cb.next = 0
    · refine ⟨(0, cb.bend), ?_⟩
      unfold Partition.Range
      simp only [Option.bind_eq_bind]
      rw [hg2]
      simp only [Option.some_bind]
      rw [show ({ cb with parent := index, depth := cb.depth + 1 } : Block).next = cb.next
        from rfl, h0]
      simp
    · by_cases heq : cb.next = h
      · refine ⟨(cb.bend, cb.bend), ?_⟩
        unfold Partition.Range
        simp only [Option.bind_eq_bind]
        rw [hg2]
        simp only [Option.some_bind]
        rw [show ({ cb with parent := index, depth := cb.depth + 1 } : Block).next = cb.next
          from rfl]
        rw [if_pos h0]
        nth_rewrite 2 [heq]
        rw [hg2]
        simp
      · obtain ⟨nb, hnb⟩ := hnx h0
        refine ⟨(nb.bend, cb.bend), ?_⟩
        unfold Partition.Range
        simp only [Option.bind_eq_bind]
        rw [hg2]
        simp only [Option.some_bind]
        rw [show ({ cb with parent := index, depth := cb.depth + 1 } : Block).next = cb.next
          from rfl]
        rw [if_pos h0]
        rw [show (p.blocks.set h
            { cb with parent := index, depth := cb.depth + 1 }).get? cb.next
          = some nb from by
            rw [List.get?_eq_getElem?, List.getElem?_set_ne (fun hh => heq hh.symm),
              ← List.get?_eq_getElem?]
            exact hnb]
        simp
  have hlen : Partition.Len
      { p with
        blocks := p.blocks.set h { cb with parent := index, depth := cb.depth + 1 } }
      h = some (pr.2 - pr.1) := by
    unfold Partition.Len
    simp only [Option.bind_eq_bind]
    rw [hr]
    simp only [Option.some_bind]
    rfl
  by_cases hc : blen < pr.2 - pr.1
  · refine ⟨sp ++ [pr], (sp ++ [pr]).length - 1, pr.2 - pr.1, ?_⟩
    unfold makeParentChild
    simp only [Option.bind_eq_bind]
    rw [hget]
    simp only [Option.some_bind]
    rw [hset]
    simp only [Option.some_bind]
    rw [hr]
    simp only [Option.some_bind]
    rw [hlen]
    simp only [Option.some_bind]
    rw [if_pos hc]
    rfl
  · refine ⟨sp ++ [pr], a, blen, ?_⟩
    unfold makeParentChild
    simp only [Option.bind_eq_bind]
    rw [hget]
    simp only [Option.some_bind]
    rw [hset]
    simp only [Option.some_bind]
    rw [hr]
    simp only [Option.some_bind]
    rw [hlen]
    simp only [Option.some_bind]
    rw [if_neg hc]
    rfl

theorem makeParentChildren_rep : ∀ (seg : List (Nat × List Nat)) (index : Nat)
    (p : Partition) (sp : List (Nat × Nat)) (a blen cont hi lo : Nat),
    RingSeg p.blocks cont seg hi lo →
    (seg.map Prod.fst).Nodup →
    (cont ≠ 0 → ∃ cblk, p.blocks.get? cont = some cblk) →
    ∃ q sp2 a2 b2,
      makeParentChildren index (p, sp, a, blen) (seg.map Prod.fst)
        = some (q, sp2, a2, b2) ∧
      (∀ y, y ∉ seg.map Prod.fst → q.blocks.get? y = p.blocks.get? y) ∧
      (∀ h2 ∈ seg.map Prod.fst, ∀ old, p.blocks.get? h2 = some old →
        q.blocks.get? h2 = some { old with parent := index, depth := old.depth + 1 }) ∧
      q.blocks.length = p.blocks.length ∧
      q.partition = p.partition ∧ q.indices = p.indices ∧
      q.available = p.available ∧ q.availableClosed = p.availableClosed ∧
      q.splitgroups = p.splitgroups ∧ q.count = p.count ∧ q.degree = p.degree := by
  intro seg
  induction seg with
  | nil =>
    intro index p sp a blen cont hi lo _ _ _
    exact ⟨p, sp, a, blen, rfl, fun y _ => rfl,
      fun h2 hm => absurd hm (List.not_mem_nil _),
      rfl, rfl, rfl, rfl, rfl, rfl, rfl, rfl⟩
  | cons e seg ih =>
    intro index p sp a blen cont hi lo hseg hnd hcont
    obtain ⟨h1, es1⟩ := e
    obtain ⟨cb, hget, hbend, hnext, hlen1, hrest⟩ := hseg
    have hnx : cb.next ≠ 0 → ∃ nb, p.blocks.get? cb.next = some nb := by
      rw [hnext]
      cases seg with
      | nil => exact hcont
      | cons e2 seg2 =>
        obtain ⟨h2, es2⟩ := e2
        obtain ⟨nb2, hnb2, hr2⟩ := hrest
        intro _
        exact ⟨nb2, hnb2⟩
    obtain ⟨spx, ax, bx, hstep⟩ := makeParentChild_rep hget hnx
    have hlt : h1 < p.blocks.length := get?_eq_some_lt hget
    have hd1 : h1 ∉ seg.map Prod.fst := by
      rw [List.map_cons] at hnd
      exact (List.nodup_cons.mp hnd).1
    have hrest2 : RingSeg ({ p with
        blocks := p.blocks.set h1 { cb with parent := index, depth := cb.depth + 1 } } :
        Partition).blocks cont seg (hi - es1.length) lo := by
      apply ringSeg_stable ?_ hrest
      intro y hy
      show ((p.blocks.set h1
          { cb with parent := index, depth := cb.depth + 1 }).get? y).map
          (fun bl => (bl.bend, bl.next)) = (p.blocks.get? y).map (fun bl => (bl.bend, bl.next))
      rw [List.get?_eq_getElem?,
        List.getElem?_set_ne (fun hh => hd1 (by rw [hh]; exact hy)),
        ← List.get?_eq_getElem?]
    have hcont2 : cont ≠ 0 → ∃ cblk, ({ p with
        blocks := p.blocks.set h1 { cb with parent := index, depth := cb.depth + 1 } } :
        Partition).blocks.get? cont = some cblk := by
      intro h0
      obtain ⟨cblk, hcblk⟩ := hcont h0
      have hclt : cont < p.blocks.length := get?_eq_some_lt hcblk
      exact get?_some_of_lt (by rw [List.length_set]; exact hclt)
    obtain ⟨q, sp2, a2, b2, hrec, hoff, hmemc, hblen, hpart, hidx, hav, hcl, hsg, hcnt,
        hdeg⟩ :=
      ih index { p with
          blocks := p.blocks.set h1 { cb with parent := index, depth := cb.depth + 1 } }
        spx ax bx cont (hi - es1.length) lo hrest2
        (by rw [List.map_cons] at hnd; exact (List.nodup_cons.mp hnd).2) hcont2
    refine ⟨q, sp2, a2, b2, ?_, ?_, ?_, ?_, ?_, ?_, ?_, ?_, ?_, ?_, ?_⟩
    · show makeParentChildren index (p, sp, a, blen) (((h1, es1) :: seg).map Prod.fst) = _
      rw [List.map_cons]
      rw [makeParentChildren]
      simp only [Option.bind_eq_bind]
      rw [hstep]
      simp only [Option.some_bind]
      exact hrec
    · intro y hy
      have hy1 : y ≠ h1 := fun hh => hy (by rw [hh, List.map_cons]; exact List.mem_cons_self _ _)
      have hy2 : y ∉ seg.map Prod.fst :=
        fun hh => hy (by rw [List.map_cons]; exact List.mem_cons_of_mem _ hh)
      rw [hoff y hy2]
      show (p.blocks.set h1
          { cb with parent := index, depth := cb.depth + 1 }).get? y = p.blocks.get? y
      rw [List.get?_eq_getElem?, List.getElem?_set_ne (fun hh => hy1 hh.symm),
        ← List.get?_eq_getElem?]
    · intro h2 hm old hold
      rw [List.map_cons] at hm
      rcases List.mem_cons.mp hm with h1e | h2m
      · subst h1e
        rw [hget] at hold
        rw [hoff h2 hd1]
        show (p.blocks.set h2
            { cb with parent := index, depth := cb.depth + 1 }).get? h2 = _
        rw [List.get?_eq_getElem?, List.getElem?_set_eq_of_lt
          ({ cb with parent := index, depth := cb.depth + 1 } : Block) hlt]
        rw [Option.some.inj hold]
      · have hne12 : h2 ≠ h1 := fun hh => hd1 (hh ▸ h2m)
        have hold2 : ({ p with
            blocks := p.blocks.set h1
              { cb with parent := index, depth := cb.depth + 1 } } :
            Partition).blocks.get? h2 = some old := by
          show (p.blocks.set h1
              { cb with parent := index, depth := cb.depth + 1 }).get? h2 = some old
          rw [List.get?_eq_getElem?, List.getElem?_set_ne (fun hh => hne12 hh.symm),
            ← List.get?_eq_getElem?]
          exact hold
        exact hmemc h2 h2m old hold2
    · rw [hblen]
      show (p.blocks.set h1 { cb with parent := index, depth := cb.depth + 1 }).length
        = p.blocks.length
      rw [List.length_set]
    · exact hpart
    · exact hidx
    · exact hav
    · exact hcl
    · exact hsg
    · exact hcnt
    · exact hdeg

theorem makeParent_rep {p : Partition} {b nxt : Nat} {w : List Nat}
    {seg : List (Nat × List Nat)} {hi lo : Nat} {bes : List Nat} {index : Nat}
    {restAv : List Nat}
    (hseg : RingSeg p.blocks nxt ((b, bes) :: seg) hi lo)
    (hnd : (((b, bes) :: seg).map Prod.fst).Nodup)
    (hne : ∀ h2 ∈ seg.map Prod.fst, h2 ≠ nxt ∧ h2 ≠ 0)
    (hnxrec : nxt ≠ 0 → ∃ blk, p.blocks.get? nxt = some blk)
    (hav : p.available = index :: restAv)
    (hidxlt : index < p.blocks.length)
    (hseglen : seg.length ≤ p.blocks.length) :
    ∃ q, p.makeParent b nxt w = some q ∧
      q.blocks.length = p.blocks.length ∧
      (∀ y, y ∉ ((b, bes) :: seg).map Prod.fst → y ≠ index →
        q.blocks.get? y = p.blocks.get? y) ∧
      (∀ h2 ∈ ((b, bes) :: seg).map Prod.fst, h2 ≠ index →
        ∀ old, p.blocks.get? h2 = some old →
          q.blocks.get? h2 = some { old with parent := index, depth := old.depth + 1 }) ∧
      q.partition = p.partition ∧ q.indices = p.indices ∧
      q.available = restAv ∧ q.availableClosed = p.availableClosed ∧
      (∃ sg, q.splitgroups = p.splitgroups ++ [sg]) ∧
      q.count = p.count ∧ q.degree = p.degree := by
  obtain ⟨bBlk, hbget, hbbend, hbnext, hblen0, hrest0⟩ := hseg
  have hrecv : p.recvAvail = some (index, { p with available := restAv }) := by
    unfold Partition.recvAvail
    rw [hav]
  have hwalk : Partition.blockIndices
      (({ p with available := restAv } : Partition).blocks.length + 1)
      { p with available := restAv } b nxt = some (b :: seg.map Prod.fst) := by
    apply blockIndices_walk seg (p.blocks.length + 1) _ nxt hi lo b bes
    · exact ⟨bBlk, hbget, hbbend, hbnext, hblen0, hrest0⟩
    · exact hne
    · omega
  have hcont2 : nxt ≠ 0 → ∃ cblk,
      ({ p with available := restAv } : Partition).blocks.get? nxt = some cblk := hnxrec
  obtain ⟨p2, sp2, a2, b2, hchildren, hoff, hmemc, hblen, hpart, hidx, hav2, hcl, hsg,
      hcnt, hdeg⟩ :=
    makeParentChildren_rep ((b, bes) :: seg) index { p with available := restAv }
      [] 0 0 nxt hi lo
      ⟨bBlk, hbget, hbbend, hbnext, hblen0, hrest0⟩ hnd hcont2
  have hchildren2 : makeParentChildren index ({ p with available := restAv }, [], 0, 0)
      (b :: seg.map Prod.fst) = some (p2, sp2, a2, b2) := hchildren
  have hsetI : setAt p2.blocks index (⟨bBlk.bend, nxt, bBlk.parent, bBlk.depth, w⟩ : Block)
      = some (p2.blocks.set index ⟨bBlk.bend, nxt, bBlk.parent, bBlk.depth, w⟩) :=
    setAt_isSome_of_lt _ (by rw [hblen]; exact hidxlt)
  refine ⟨{ p2 with
      blocks := p2.blocks.set index ⟨bBlk.bend, nxt, bBlk.parent, bBlk.depth, w⟩,
      splitgroups := p2.splitgroups ++ [⟨sp2.eraseIdx a2, index⟩] },
    ?_, ?_, ?_, ?_, ?_, ?_, ?_, ?_, ?_, ?_, ?_⟩
  · unfold Partition.makeParent
    simp only [Option.bind_eq_bind]
    rw [hbget]
    simp only [Option.some_bind]
    rw [hrecv]
    simp only [Option.some_bind]
    rw [hwalk]
    simp only [Option.some_bind]
    rw [hchildren2]
    simp only [Option.some_bind]
    rw [hsetI]
    simp only [Option.some_bind]
    rfl
  · show (p2.blocks.set index ⟨bBlk.bend, nxt, bBlk.parent, bBlk.depth, w⟩).length
      = p.blocks.length
    rw [List.length_set, hblen]
  · intro y hy hyi
    show (p2.blocks.set index ⟨bBlk.bend, nxt, bBlk.parent, bBlk.depth, w⟩).get? y
      = p.blocks.get? y
    rw [List.get?_eq_getElem?, List.getElem?_set_ne (fun hh => hyi hh.symm),
      ← List.get?_eq_getElem?]
    exact hoff y hy
  · intro h2 hm h2i old hold
    show (p2.blocks.set index ⟨bBlk.bend, nxt, bBlk.parent, bBlk.depth, w⟩).get? h2
      = some { old with parent := index, depth := old.depth + 1 }
    rw [List.get?_eq_getElem?, List.getElem?_set_ne (fun hh => h2i hh.symm),
      ← List.get?_eq_getElem?]
    exact hmemc h2 hm old hold
  · exact hpart
  · exact hidx
  · exact hav2
  · exact hcl
  · exact ⟨⟨sp2.eraseIdx a2, index⟩, by
      show p2.splitgroups ++ [⟨sp2.eraseIdx a2, index⟩]
        = p.splitgroups ++ [⟨sp2.eraseIdx a2, index⟩]
      rw [hsg]⟩
  · exact hcnt
  · exact hdeg

theorem take_append_len {α : Type} {X Y : List α} {n : Nat} (h : X.length = n) :
    (X ++ Y).take n = X := by
  rw [List.take_append_of_le_length (by omega), ← h, List.take_length]

theorem drop_append_len {α : Type} {X Y : List α} {n : Nat} (h : X.length = n) :
    (X ++ Y).drop n = Y := by
  rw [← h, List.drop_left]

theorem ringSeg_get : ∀ {bs : List Block} {cont : Nat} {L : List (Nat × List Nat)}
    {hi lo : Nat}, RingSeg bs cont L hi lo →
    ∀ h ∈ L.map Prod.fst, ∃ blk, bs.get? h = some blk := by
  intro bs cont L
  induction L with
  | nil =>
    intro hi lo _ h hm
    exact absurd hm (List.not_mem_nil _)
  | cons e rest ih =>
    intro hi lo hseg h hm
    obtain ⟨h1, es1⟩ := e
    obtain ⟨blk, hget, _, _, _, hrest⟩ := hseg
    rw [List.map_cons] at hm
    rcases List.mem_cons.mp hm with h1e | h2m
    · exact ⟨blk, h1e ▸ hget⟩
    · exact ih hrest h h2m

theorem ringOk_stable {bs bs2 : List Block} {L : List (Nat × List Nat)} {n : Nat}
    (hag : ∀ h ∈ L.map Prod.fst,
      (bs2.get? h).map (fun bl => (bl.bend, bl.next)) =
      (bs.get? h).map (fun bl => (bl.bend, bl.next)))
    (h : RingOk bs L n) : RingOk bs2 L n :=
  ringSeg_zero.mp (ringSeg_stable hag (ringSeg_zero.mpr h))

theorem rep_slots {p : Partition} {n inners : Nat} {L1 L2 : List (Nat × List Nat)}
    {b : Nat} {es : List Nat}
    (hrep : EngineRep p n (L1 ++ (b, es) :: L2) inners) :
    ∀ j x, es.get? j = some x →
      p.partition.get? (n - sumLen L1 - es.length + j) = some (x, b) := by
  have hsumn : sumLen (L1 ++ (b, es) :: L2) = n := by
    rw [← runsOf_length, ← hrep.part_eq, hrep.part_len]
  have hsumsplit : sumLen L1 + (es.length + sumLen L2) = n := by
    rw [← hsumn, sumLen_append, sumLen_cons]
  intro j x hj
  have hjlt : j < es.length := by
    by_contra hcon
    rw [List.get?_eq_getElem?, List.getElem?_eq_none (by omega)] at hj
    cases hj
  rw [hrep.part_eq, runsOf_append, runsOf_cons]
  simp only []
  rw [List.get?_eq_getElem?, List.append_assoc]
  rw [List.getElem?_append_right (by rw [runsOf_length]; omega)]
  rw [show n - sumLen L1 - es.length + j - (runsOf L2).length = j from by
    rw [runsOf_length]; omega]
  rw [List.getElem?_append_left (by rw [List.length_map]; omega)]
  rw [List.getElem?_map, ← List.get?_eq_getElem?, hj]
  rfl

theorem rep_elem_lt {p : Partition} {n inners : Nat} {L : List (Nat × List Nat)}
    (hrep : EngineRep p n L inners) :
    ∀ he ∈ L, ∀ x ∈ he.2, x < n := by
  intro he hm x hx
  obtain ⟨h1, es1⟩ := he
  have hmem : (x, h1) ∈ runsOf L := mem_runsOf_iff.mpr ⟨es1, hm, hx⟩
  rw [← hrep.part_eq] at hmem
  obtain ⟨j, hj⟩ := List.get?_of_mem hmem
  have := (hrep.inv j (x, h1) hj).2
  rw [hrep.idx_len] at this
  exact this

theorem newProcessBlock_rep {degree : Nat} {isWitness : Bool} {cls : Nat} {f : Nat → Nat}
    {p : Partition} {n inners : Nat} {L1 L2 : List (Nat × List Nat)} {b : Nat}
    {es : List Nat}
    (hrep : EngineRep p n (L1 ++ (b, es) :: L2) inners)
    (hf : ∀ x ∈ es, f x < degree) :
    ∃ q ents inners2,
      newProcessBlock degree isWitness cls f p b = some q ∧
      EngineRep q n (L1 ++ ents ++ L2) inners2 ∧
      EntryGroups f es ents := by
  have hsumn : sumLen (L1 ++ (b, es) :: L2) = n := by
    rw [← runsOf_length, ← hrep.part_eq, hrep.part_len]
  have hsumsplit : sumLen L1 + (es.length + sumLen L2) = n := by
    rw [← hsumn, sumLen_append, sumLen_cons]
  obtain ⟨hL1seg, hmidring⟩ := ringOk_split hrep.ring
  obtain ⟨bBlk, hbget, hbbend, hbnext, heslen, hL2ring⟩ := hmidring
  have hes_ne : es ≠ [] := hrep.nonempty (b, es) (by simp)
  obtain ⟨hsplit_same, hsplit_diff⟩ := split_rep hrep hf
  by_cases hall : ∀ x ∈ es, ∀ y ∈ es, f x = f y
  · have hsp := hsplit_same hall
    refine ⟨p, [(b, es)], inners, ?_, ?_, ?_⟩
    · unfold newProcessBlock
      simp only [Option.bind_eq_bind]
      rw [hbget]
      simp only [Option.some_bind]
      rw [hsp]
      simp only [Option.some_bind]
      rfl
    · have hL : L1 ++ [(b, es)] ++ L2 = L1 ++ (b, es) :: L2 := by simp
      rw [hL]
      exact hrep
    · constructor
      · intro ent hm
        have he : ent = (b, es) := by simpa using hm
        subst he
        refine ⟨hes_ne, ?_⟩
        obtain ⟨e0, hes0⟩ : ∃ e0, es.get? 0 = some e0 := by
          cases h : es with
          | nil => exact absurd h hes_ne
          | cons a t => exact ⟨a, rfl⟩
        have he0mem : e0 ∈ es := List.get?_mem hes0
        exact ⟨f e0, fun x => ⟨fun hx => ⟨hx, hall x hx e0 he0mem⟩, fun hx => hx.1⟩⟩
      · intro x hx
        exact ⟨(b, es), by simp, hx⟩
  · obtain ⟨q1, hsp, hk2, hkav, hoff1, hblen1, hbfields1, hseg1, hpartq1, hplen1, hilen1,
      hioff1, himid1, hav1, hcl1, hsgq1, hcountq1, hdegq1⟩ := hsplit_diff hall
    obtain ⟨c0, ncsr, hnc⟩ : ∃ c0 ncsr,
        neClasses f es (List.range degree) = c0 :: ncsr := by
      cases h : neClasses f es (List.range degree) with
      | nil => rw [h] at hk2; simp at hk2
      | cons a t => exact ⟨a, t, rfl⟩
    rw [hnc] at hk2 hkav hoff1 hseg1 hpartq1 hav1 hcountq1
    simp only [List.length_cons, Nat.add_sub_cancel] at hk2 hkav hoff1 hseg1 hpartq1 hav1 hcountq1
    rw [show splitEntriesF f es b (p.available.take ncsr.length) (c0 :: ncsr)
      = (b, (es.filter (fun x => f x = c0)).reverse)
        :: splitEntries f es (p.available.take ncsr.length) ncsr from rfl]
      at hseg1 hpartq1
    have hhslen : (p.available.take ncsr.length).length = ncsr.length := by
      rw [List.length_take]
      omega
    have hSEhandles : (splitEntries f es (p.available.take ncsr.length) ncsr).map Prod.fst
        = p.available.take ncsr.length := splitEntries_handles ncsr _ hhslen
    have hbmem : b ∈ (L1 ++ (b, es) :: L2).map Prod.fst := by
      rw [List.map_append]
      exact List.mem_append.mpr (Or.inr (by simp))
    have h0mem : (0 : Nat) ∈ (L1 ++ (b, es) :: L2).map Prod.fst := by
      obtain ⟨es0, hh⟩ := hrep.head0
      exact List.mem_map.mpr ⟨(0, es0), List.mem_of_mem_head? hh, rfl⟩
    have htake_sub : ∀ h2 ∈ p.available.take ncsr.length, h2 ∈ p.available :=
      fun h2 hm => List.mem_of_mem_take hm
    have hav_ne : ∀ h2 ∈ p.available, h2 ≠ b ∧ h2 ≠ ringNexts L2 ∧ h2 ≠ 0 := by
      intro h2 hm
      refine ⟨fun he => hrep.avail_disj h2 hm (he ▸ hbmem), ?_,
        fun he => hrep.avail_disj h2 hm (he ▸ h0mem)⟩
      intro he
      apply hrep.avail_disj h2 hm
      cases L2 with
      | nil =>
        rw [he]
        exact h0mem
      | cons pr2 L2x =>
        rw [he]
        obtain ⟨hh2, es2⟩ := pr2
        rw [List.map_append]
        refine List.mem_append.mpr (Or.inr ?_)
        rw [List.map_cons]
        refine List.mem_cons_of_mem _ ?_
        rw [List.map_cons]
        exact List.mem_cons_self _ _
    have hnd2 : (((b, (es.filter (fun x => f x = c0)).reverse)
        :: splitEntries f es (p.available.take ncsr.length) ncsr).map Prod.fst).Nodup := by
      rw [List.map_cons, hSEhandles, List.nodup_cons]
      constructor
      · intro hmem
        exact (hav_ne b (htake_sub b hmem)).1 rfl
      · exact hrep.avail_nodup.sublist (List.take_sublist _ _)
    have hne2 : ∀ h2 ∈ (splitEntries f es (p.available.take ncsr.length) ncsr).map Prod.fst,
        h2 ≠ ringNexts L2 ∧ h2 ≠ 0 := by
      rw [hSEhandles]
      intro h2 hm
      exact ⟨(hav_ne h2 (htake_sub h2 hm)).2.1, (hav_ne h2 (htake_sub h2 hm)).2.2⟩
    have hnxrec1 : ringNexts L2 ≠ 0 → ∃ blk, q1.blocks.get? (ringNexts L2) = some blk := by
      intro h0
      have hrec : ∃ blk, p.blocks.get? (ringNexts L2) = some blk := by
        cases L2 with
        | nil => exact absurd rfl h0
        | cons pr2 L2x =>
          obtain ⟨hh2, es2⟩ := pr2
          obtain ⟨nb, hnb, hrest⟩ := hL2ring
          exact ⟨nb, hnb⟩
      obtain ⟨blk, hblk⟩ := hrec
      refine ⟨blk, ?_⟩
      rw [hoff1 (ringNexts L2) ?_ ?_]
      · exact hblk
      · cases L2 with
        | nil => exact absurd rfl h0
        | cons pr2 L2x =>
          obtain ⟨hh2, es2⟩ := pr2
          intro he
          exact @mid_ne_suffix L1 ((hh2, es2) :: L2x) (b, es) hrep.nodup (hh2, es2)
            (by simp) (show (hh2, es2).1 = (b, es).1 from he)
      · intro hmem
        exact (hav_ne _ (htake_sub _ hmem)).2.1 rfl
    obtain ⟨index, restAv, hdropeq⟩ : ∃ i r, p.available.drop ncsr.length = i :: r := by
      cases h : p.available.drop ncsr.length with
      | nil =>
        have hlen := congrArg List.length h
        rw [List.length_drop] at hlen
        simp at hlen
        omega
      | cons i r => exact ⟨i, r, rfl⟩
    have hav1e : q1.available = index :: restAv := by rw [hav1, hdropeq]
    have hidxmem : index ∈ p.available :=
      List.mem_of_mem_drop (by rw [hdropeq]; exact List.mem_cons_self _ _)
    have hidxlt1 : index < q1.blocks.length := by
      rw [hblen1, hrep.blocks_len]
      exact hrep.avail_lt index hidxmem
    have hSElen : (splitEntries f es (p.available.take ncsr.length) ncsr).length
        = ncsr.length := by
      have hl := congrArg List.length hSEhandles
      rw [List.length_map] at hl
      rw [hl, hhslen]
    have hseglen1 : (splitEntries f es (p.available.take ncsr.length) ncsr).length
        ≤ q1.blocks.length := by
      rw [hSElen, hblen1, hrep.blocks_len]
      have hp := hrep.pool
      omega
    obtain ⟨q, hmk, hblen2, hoff2, hmemc2, hpart2, hidx2, hav2, hcl2, hsgex2, hcnt2,
        hdeg2⟩ :=
      @makeParent_rep q1 b (ringNexts L2) (if isWitness then [cls] else [])
        (splitEntries f es (p.available.take ncsr.length) ncsr) (n - sumLen L1)
        (n - sumLen L1 - es.length) ((es.filter (fun x => f x = c0)).reverse) index restAv
        hseg1 hnd2 hne2 hnxrec1 hav1e hidxlt1 hseglen1
    refine ⟨q, (b, (es.filter (fun x => f x = c0)).reverse)
      :: splitEntries f es (p.available.take ncsr.length) ncsr, inners + 1, ?_, ?_, ?_⟩
    · unfold newProcessBlock
      simp only [Option.bind_eq_bind]
      rw [hbget]
      simp only [Option.some_bind]
      rw [hsp]
      simp only [Option.some_bind]
      rw [if_pos trivial]
      rw [hbnext]
      exact hmk
    · -- EngineRep q n (L1 ++ FE ++ L2) (inners + 1)
      have hoffC : ∀ y, y ∉ ((b, (es.filter (fun x => f x = c0)).reverse)
          :: splitEntries f es (p.available.take ncsr.length) ncsr).map Prod.fst →
          y ≠ index → q.blocks.get? y = p.blocks.get? y := by
        intro y hy hyi
        rw [hoff2 y hy hyi]
        apply hoff1 y
        · intro he
          apply hy
          rw [List.map_cons, he]
          exact List.mem_cons_self _ _
        · intro hmem
          apply hy
          rw [List.map_cons, hSEhandles]
          exact List.mem_cons_of_mem _ hmem
      have hmapold : (L1 ++ (b, es) :: L2).map Prod.fst
          = L1.map Prod.fst ++ b :: L2.map Prod.fst := by
        rw [List.map_append, List.map_cons]
      have hnodold : (L1.map Prod.fst ++ b :: L2.map Prod.fst).Nodup := by
        rw [← hmapold]
        exact hrep.nodup
      have hbnotin : b ∉ L1.map Prod.fst ++ L2.map Prod.fst :=
        (List.nodup_cons.mp (List.nodup_middle.mp hnodold)).1
      have hold_mem : ∀ y, y ∈ L1.map Prod.fst ++ L2.map Prod.fst →
          y ∈ (L1 ++ (b, es) :: L2).map Prod.fst := by
        intro y hy
        rw [hmapold]
        rcases List.mem_append.mp hy with h1 | h2
        · exact List.mem_append.mpr (Or.inl h1)
        · exact List.mem_append.mpr (Or.inr (List.mem_cons_of_mem _ h2))
      have holdframe : ∀ y, y ∈ L1.map Prod.fst ++ L2.map Prod.fst →
          q.blocks.get? y = p.blocks.get? y := by
        intro y hy
        apply hoffC y
        · rw [List.map_cons, hSEhandles]
          intro hmem
          rcases List.mem_cons.mp hmem with he | hmem2
          · exact hbnotin ((show y = b from he) ▸ hy)
          · exact hrep.avail_disj y (htake_sub y hmem2) (hold_mem y hy)
        · intro he
          exact hrep.avail_disj index hidxmem (hold_mem index (he ▸ hy))
      have hagree1 : ∀ h2 ∈ L1.map Prod.fst,
          (q.blocks.get? h2).map (fun bl => (bl.bend, bl.next))
          = (p.blocks.get? h2).map (fun bl => (bl.bend, bl.next)) := by
        intro h2 hm
        rw [holdframe h2 (List.mem_append.mpr (Or.inl hm))]
      have hagree2 : ∀ h2 ∈ L2.map Prod.fst,
          (q.blocks.get? h2).map (fun bl => (bl.bend, bl.next))
          = (p.blocks.get? h2).map (fun bl => (bl.bend, bl.next)) := by
        intro h2 hm
        rw [holdframe h2 (List.mem_append.mpr (Or.inr hm))]
      have hagreeFE : ∀ h2 ∈ ((b, (es.filter (fun x => f x = c0)).reverse)
          :: splitEntries f es (p.available.take ncsr.length) ncsr).map Prod.fst,
          (q.blocks.get? h2).map (fun bl => (bl.bend, bl.next))
          = (q1.blocks.get? h2).map (fun bl => (bl.bend, bl.next)) := by
        intro h2 hm
        obtain ⟨old, hold⟩ := ringSeg_get hseg1 h2 hm
        have h2i : h2 ≠ index := by
          rw [List.map_cons, hSEhandles] at hm
          rcases List.mem_cons.mp hm with he | hmem2
          · rw [he]
            intro hc
            exact hrep.avail_disj index hidxmem (hc ▸ hbmem)
          · intro hc
            have hdisj := List.disjoint_take_drop hrep.avail_nodup (le_refl ncsr.length)
            apply hdisj hmem2
            rw [hc, hdropeq]
            exact List.mem_cons_self _ _
        rw [hmemc2 h2 hm h2i old hold, hold]
        rfl
      have hsegFEq : RingSeg q.blocks (ringNexts L2)
          ((b, (es.filter (fun x => f x = c0)).reverse)
            :: splitEntries f es (p.available.take ncsr.length) ncsr)
          (n - sumLen L1) (n - sumLen L1 - es.length) := ringSeg_stable hagreeFE hseg1
      have hL1seg2 : RingSeg p.blocks b L1 n (n - sumLen L1) := hL1seg
      have hL1segq : RingSeg q.blocks b L1 n (n - sumLen L1) :=
        ringSeg_stable hagree1 hL1seg2
      have hL2ringq : RingOk q.blocks L2 (n - sumLen L1 - es.length) :=
        ringOk_stable hagree2 hL2ring
      have hringq : RingOk q.blocks (L1 ++ ((b, (es.filter (fun x => f x = c0)).reverse)
          :: splitEntries f es (p.available.take ncsr.length) ncsr) ++ L2) n := by
        rw [List.append_assoc]
        exact ringOk_join hL1segq (ringOk_join hsegFEq hL2ringq)
      have hsumFE : sumLen ((b, (es.filter (fun x => f x = c0)).reverse)
          :: splitEntries f es (p.available.take ncsr.length) ncsr) = es.length := by
        rw [sumLen_cons, splitEntries_sumLen ncsr _ (by rw [hhslen])]
        simp only [List.length_reverse]
        have h2 : ((neClasses f es (List.range degree)).map
            (fun c => (es.filter (fun x => f x = c)).length)).sum = es.length := by
          rw [neClasses_sum, range_sum_filter hf]
        rw [hnc] at h2
        simp only [List.map_cons, List.sum_cons] at h2
        exact h2
      have hpartdec : p.partition = (runsOf L2 ++ es.map (fun x => (x, b))) ++ runsOf L1 := by
        rw [hrep.part_eq, runsOf_append, runsOf_cons]
      have htakelo : p.partition.take (n - sumLen L1 - es.length) = runsOf L2 := by
        rw [hpartdec, List.append_assoc]
        exact take_append_len (by rw [runsOf_length]; omega)
      have hdropmid : p.partition.drop (n - sumLen L1) = runsOf L1 := by
        rw [hpartdec]
        apply drop_append_len
        rw [List.length_append, runsOf_length, List.length_map]
        omega
      have hparteq : q.partition = runsOf (L1 ++ ((b, (es.filter (fun x => f x = c0)).reverse)
          :: splitEntries f es (p.available.take ncsr.length) ncsr) ++ L2) := by
        rw [hpart2, hpartq1, htakelo, hdropmid, runsOf_append, runsOf_append,
          List.append_assoc]
      have hplenq : q.partition.length = n := by
        rw [hpart2, hplen1, hrep.part_len]
      have hilenq : q.indices.length = n := by
        rw [hidx2, hilen1, hrep.idx_len]
      have hidxlen_q1 : q1.indices.length = n := by rw [hilen1, hrep.idx_len]
      have hXlenFE : (runsOf ((b, (es.filter (fun x => f x = c0)).reverse)
          :: splitEntries f es (p.available.take ncsr.length) ncsr)).length
          = n - sumLen L1 - (n - sumLen L1 - es.length) := by
        rw [runsOf_length, hsumFE]
        omega
      have hinvq : ∀ s pr, q.partition.get? s = some pr →
          q.indices.get? pr.1 = some s ∧ pr.1 < q.indices.length := by
        intro s pr hget
        obtain ⟨xv, hv⟩ := pr
        rw [hpart2] at hget
        rw [hidx2]
        have hslt : s < n := by
          have hl := get?_eq_some_lt hget
          rw [hplen1, hrep.part_len] at hl
          exact hl
        by_cases hlow : s < n - sumLen L1 - es.length
        · rw [hpartq1] at hget
          rw [splice_get_low (by rw [hrep.part_len]; omega) hlow] at hget
          have hpr_not : xv ∉ es := by
            intro hmem
            obtain ⟨j, hj⟩ := List.get?_of_mem hmem
            have hsl := rep_slots hrep j xv hj
            have hinvp := hrep.inv s (xv, hv) hget
            have hinvp2 := hrep.inv _ _ hsl
            have hse : s = n - sumLen L1 - es.length + j :=
              Option.some.inj (hinvp.1.symm.trans hinvp2.1)
            have hjlt : j < es.length := by
              by_contra hcon
              rw [List.get?_eq_getElem?, List.getElem?_eq_none (by omega)] at hj
              cases hj
            omega
          rw [hioff1 xv hpr_not]
          refine ⟨(hrep.inv s (xv, hv) hget).1, ?_⟩
          rw [hidxlen_q1]
          have := (hrep.inv s (xv, hv) hget).2
          rw [hrep.idx_len] at this
          exact this
        · by_cases hmid : s < n - sumLen L1
          · have h1 := himid1 s (xv, hv) hget (by omega) hmid
            refine ⟨h1, ?_⟩
            rw [hpartq1] at hget
            rw [splice_get_mid hXlenFE (by omega) (by rw [hrep.part_len]; omega)
              (by omega) hmid] at hget
            have hprmem := List.get?_mem hget
            obtain ⟨es', hes', hxes'⟩ := mem_runsOf_iff.mp hprmem
            have hxv_es : xv ∈ es := by
              rcases List.mem_cons.mp hes' with he | h2m
              · have hes2 : es' = (es.filter (fun x => f x = c0)).reverse := by
                  have := congrArg Prod.snd he
                  simpa using this
                rw [hes2, List.mem_reverse] at hxes'
                exact List.mem_of_mem_filter hxes'
              · obtain ⟨c, hc, hform⟩ := splitEntries_mem ncsr _ (hv, es') h2m
                simp only [] at hform
                rw [hform, List.mem_reverse] at hxes'
                exact List.mem_of_mem_filter hxes'
            rw [hidxlen_q1]
            exact rep_elem_lt hrep (b, es) (by simp) xv hxv_es
          · rw [hpartq1] at hget
            rw [splice_get_high hXlenFE (by omega) (by rw [hrep.part_len]; omega)
              (by omega)] at hget
            have hpr_not : xv ∉ es := by
              intro hmem
              obtain ⟨j, hj⟩ := List.get?_of_mem hmem
              have hsl := rep_slots hrep j xv hj
              have hinvp := hrep.inv s (xv, hv) hget
              have hinvp2 := hrep.inv _ _ hsl
              have hse : s = n - sumLen L1 - es.length + j :=
                Option.some.inj (hinvp.1.symm.trans hinvp2.1)
              have hjlt : j < es.length := by
                by_contra hcon
                rw [List.get?_eq_getElem?, List.getElem?_eq_none (by omega)] at hj
                cases hj
              omega
            rw [hioff1 xv hpr_not]
            refine ⟨(hrep.inv s (xv, hv) hget).1, ?_⟩
            rw [hidxlen_q1]
            have := (hrep.inv s (xv, hv) hget).2
            rw [hrep.idx_len] at this
            exact this
      have hhead0q : ∃ es0, (L1 ++ ((b, (es.filter (fun x => f x = c0)).reverse)
          :: splitEntries f es (p.available.take ncsr.length) ncsr) ++ L2).head?
          = some (0, es0) := by
        obtain ⟨es0, hh⟩ := hrep.head0
        cases L1 with
        | nil =>
          rw [List.nil_append, List.head?_cons] at hh
          have hbe : (b, es) = (0, es0) := Option.some.inj hh
          have hb0 : b = 0 := congrArg Prod.fst hbe
          refine ⟨(es.filter (fun x => f x = c0)).reverse, ?_⟩
          rw [List.nil_append, List.cons_append, List.head?_cons, hb0]
        | cons e L1x =>
          rw [List.cons_append, List.head?_cons] at hh
          refine ⟨es0, ?_⟩
          rw [List.cons_append, List.cons_append, List.head?_cons]
          exact hh
      have hblenq : q.blocks.length = 2 * n - 1 := by
        rw [hblen2, hblen1, hrep.blocks_len]
      have hnonemptyq : ∀ he ∈ L1 ++ ((b, (es.filter (fun x => f x = c0)).reverse)
          :: splitEntries f es (p.available.take ncsr.length) ncsr) ++ L2, he.2 ≠ [] := by
        intro he hm
        rw [List.append_assoc] at hm
        rcases List.mem_append.mp hm with h1 | h23
        · exact hrep.nonempty he (List.mem_append.mpr (Or.inl h1))
        · rcases List.mem_cons.mp h23 with he1 | h23x
          · rw [he1]
            simp only []
            intro hcon
            rw [List.reverse_eq_nil_iff] at hcon
            exact (mem_neClasses.mp (by rw [hnc]; exact List.mem_cons_self _ _)).2 hcon
          · rcases List.mem_append.mp h23x with h2 | h3
            · obtain ⟨c, hc, hform⟩ := splitEntries_mem ncsr _ he h2
              rw [hform]
              intro hcon
              rw [List.reverse_eq_nil_iff] at hcon
              exact (mem_neClasses.mp
                (by rw [hnc]; exact List.mem_cons_of_mem _ hc)).2 hcon
            · exact hrep.nonempty he
                (List.mem_append.mpr (Or.inr (List.mem_cons_of_mem _ h3)))
      have hmapnew : (L1 ++ ((b, (es.filter (fun x => f x = c0)).reverse)
          :: splitEntries f es (p.available.take ncsr.length) ncsr) ++ L2).map Prod.fst
          = L1.map Prod.fst ++ b :: (p.available.take ncsr.length ++ L2.map Prod.fst) := by
        rw [List.map_append, List.map_append, List.map_cons, hSEhandles,
          List.append_assoc, List.cons_append]
      have hnodupq : ((L1 ++ ((b, (es.filter (fun x => f x = c0)).reverse)
          :: splitEntries f es (p.available.take ncsr.length) ncsr) ++ L2).map
            Prod.fst).Nodup := by
        rw [hmapnew, List.nodup_middle, List.nodup_cons]
        constructor
        · intro hmem
          rcases List.mem_append.mp hmem with h1 | h23
          · exact hbnotin (List.mem_append.mpr (Or.inl h1))
          · rcases List.mem_append.mp h23 with h2 | h3
            · exact (hav_ne b (htake_sub b h2)).1 rfl
            · exact hbnotin (List.mem_append.mpr (Or.inr h3))
        · have hLLnodup : (L1.map Prod.fst ++ L2.map Prod.fst).Nodup :=
            (List.nodup_cons.mp (List.nodup_middle.mp hnodold)).2
          rw [List.nodup_append] at hLLnodup
          obtain ⟨hn1, hn2, hd12⟩ := hLLnodup
          rw [List.nodup_append]
          refine ⟨hn1, ?_, ?_⟩
          · rw [List.nodup_append]
            refine ⟨hrep.avail_nodup.sublist (List.take_sublist _ _), hn2, ?_⟩
            intro x hx hx2
            exact hrep.avail_disj x (htake_sub x hx)
              (hold_mem x (List.mem_append.mpr (Or.inr hx2)))
          · intro x hx hx2
            rcases List.mem_append.mp hx2 with h2 | h3
            · exact hrep.avail_disj x (htake_sub x h2)
                (hold_mem x (List.mem_append.mpr (Or.inl hx)))
            · exact hd12 hx h3
      have havq : q.available = p.available.drop (ncsr.length + 1) := by
        rw [hav2]
        have hdd : (p.available.drop ncsr.length).drop 1
            = p.available.drop (ncsr.length + 1) := List.drop_drop 1 ncsr.length p.available
        rw [← hdd, hdropeq]
        rfl
      have havndq : q.available.Nodup := by
        rw [havq]
        exact hrep.avail_nodup.sublist (List.drop_sublist _ _)
      have havltq : ∀ h2 ∈ q.available, h2 < 2 * n - 1 := by
        intro h2 hm
        rw [havq] at hm
        exact hrep.avail_lt h2 (List.mem_of_mem_drop hm)
      have havdisjq : ∀ h2 ∈ q.available,
          h2 ∉ (L1 ++ ((b, (es.filter (fun x => f x = c0)).reverse)
            :: splitEntries f es (p.available.take ncsr.length) ncsr) ++ L2).map
              Prod.fst := by
        intro h2 hm hmem
        rw [havq] at hm
        have hm_avail : h2 ∈ p.available := List.mem_of_mem_drop hm
        rw [hmapnew] at hmem
        rcases List.mem_append.mp hmem with h1 | h2m
        · exact hrep.avail_disj h2 hm_avail (hold_mem h2 (List.mem_append.mpr (Or.inl h1)))
        · rcases List.mem_cons.mp h2m with he | h3m
          · exact (hav_ne h2 hm_avail).1 he
          · rcases List.mem_append.mp h3m with h4 | h5
            · have hdisj := List.disjoint_take_drop hrep.avail_nodup (le_refl ncsr.length)
              apply hdisj h4
              have hmm : h2 ∈ (p.available.drop ncsr.length).drop 1 := by
                rw [List.drop_drop]
                exact hm
              exact List.mem_of_mem_drop hmm
            · exact hrep.avail_disj h2 hm_avail
                (hold_mem h2 (List.mem_append.mpr (Or.inr h5)))
      have havopenq : q.availableClosed = false := by
        rw [hcl2, hcl1, hrep.avail_open]
      have hlenFE : ((b, (es.filter (fun x => f x = c0)).reverse)
          :: splitEntries f es (p.available.take ncsr.length) ncsr).length
          = ncsr.length + 1 := by
        rw [List.length_cons, hSElen]
      have hlenold : (L1 ++ (b, es) :: L2).length = L1.length + 1 + L2.length := by
        rw [List.length_append, List.length_cons]
        omega
      have hlennew : (L1 ++ ((b, (es.filter (fun x => f x = c0)).reverse)
          :: splitEntries f es (p.available.take ncsr.length) ncsr) ++ L2).length
          = L1.length + (ncsr.length + 1) + L2.length := by
        rw [List.length_append, List.length_append, hlenFE]
      have havlenq : q.available.length = p.available.length - (ncsr.length + 1) := by
        rw [havq, List.length_drop]
      have hpoolq : q.available.length + (L1 ++ ((b, (es.filter (fun x => f x = c0)).reverse)
          :: splitEntries f es (p.available.take ncsr.length) ncsr) ++ L2).length
          + (inners + 1) = 2 * n - 1 := by
        rw [havlenq, hlennew]
        have hp := hrep.pool
        rw [hlenold] at hp
        omega
      have hinltq : (inners + 1) + 1 ≤ (L1 ++ ((b, (es.filter (fun x => f x = c0)).reverse)
          :: splitEntries f es (p.available.take ncsr.length) ncsr) ++ L2).length := by
        rw [hlennew]
        have hi := hrep.inners_lt
        rw [hlenold] at hi
        omega
      have hcountq : q.count = (L1 ++ ((b, (es.filter (fun x => f x = c0)).reverse)
          :: splitEntries f es (p.available.take ncsr.length) ncsr) ++ L2).length := by
        rw [hcnt2, hcountq1, hrep.count_eq, hlenold, hlennew]
        omega
      exact ⟨hparteq, hplenq, hilenq, hinvq, hhead0q, hblenq, hnonemptyq, hnodupq, hringq,
        havndq, havltq, havdisjq, havopenq, hpoolq, hinltq, hcountq⟩
    · constructor
      · intro ent hm
        rcases List.mem_cons.mp hm with he | h2m
        · rw [he]
          refine ⟨?_, c0, fun x => ?_⟩
          · simp only []
            intro hcon
            rw [List.reverse_eq_nil_iff] at hcon
            exact (mem_neClasses.mp (by rw [hnc]; exact List.mem_cons_self _ _)).2 hcon
          · simp only []
            rw [List.mem_reverse]
            constructor
            · intro hx
              exact ⟨List.mem_of_mem_filter hx, by simpa using List.of_mem_filter hx⟩
            · rintro ⟨hx1, hx2⟩
              exact List.mem_filter.mpr ⟨hx1, by simpa using hx2⟩
        · obtain ⟨c, hc, hform⟩ := splitEntries_mem ncsr _ ent h2m
          refine ⟨?_, c, fun x => ?_⟩
          · rw [hform]
            intro hcon
            rw [List.reverse_eq_nil_iff] at hcon
            exact (mem_neClasses.mp (by rw [hnc]; exact List.mem_cons_of_mem _ hc)).2 hcon
          · rw [hform, List.mem_reverse]
            constructor
            · intro hx
              exact ⟨List.mem_of_mem_filter hx, by simpa using List.of_mem_filter hx⟩
            · rintro ⟨hx1, hx2⟩
              exact List.mem_filter.mpr ⟨hx1, by simpa using hx2⟩
      · intro x hx
        have hfx : f x ∈ neClasses f es (List.range degree) := by
          rw [mem_neClasses]
          refine ⟨List.mem_range.mpr (hf x hx), ?_⟩
          intro hemp
          have hxin : x ∈ es.filter (fun y => f y = f x) :=
            List.mem_filter.mpr ⟨hx, by simp⟩
          rw [hemp] at hxin
          exact absurd hxin (List.not_mem_nil _)
        rw [hnc] at hfx
        rcases List.mem_cons.mp hfx with he | h2m
        · refine ⟨(b, (es.filter (fun y => f y = c0)).reverse), List.mem_cons_self _ _, ?_⟩
          simp only []
          rw [List.mem_reverse]
          exact List.mem_filter.mpr ⟨hx, by simp [he]⟩
        · obtain ⟨ent, hent, hform⟩ := splitEntries_cover ncsr _ (f x) (by rw [hhslen]) h2m
          refine ⟨ent, List.mem_cons_of_mem _ hent, ?_⟩
          rw [hform, List.mem_reverse]
          exact List.mem_filter.mpr ⟨hx, by simp⟩

theorem ringOk_toSeg {bs : List Block} : ∀ {L : List (Nat × List Nat)} {bound : Nat},
    RingOk bs L bound → RingSeg bs 0 L bound 0
  | [], bound, h => h
  | (h1, es1) :: rest, bound, h => by
    obtain ⟨blk, hget, hbend, hnext, hlen, hrest⟩ := h
    refine ⟨blk, hget, hbend, ?_, hlen, ringOk_toSeg hrest⟩
    rw [hnext]
    cases rest with
    | nil => rfl
    | cons e r => rfl

theorem newPassBlocks_rep {degree : Nat} {isWitness : Bool} {cls : Nat} {f : Nat → Nat} :
    ∀ (L L1 : List (Nat × List Nat)) (p : Partition) (n inners : Nat),
      EngineRep p n (L1 ++ L) inners →
      (∀ he ∈ L, ∀ x ∈ he.2, f x < degree) →
      ∃ q L2 inners2,
        newPassBlocks degree isWitness cls f p (L.map Prod.fst) = some q ∧
        EngineRep q n (L1 ++ L2) inners2 ∧ PassRefines f L L2
  | [], L1, p, n, inners, hrep, _ =>
    ⟨p, [], inners, rfl, hrep, PassRefines.nil⟩
  | (b, es) :: Lr, L1, p, n, inners, hrep, hf => by
    obtain ⟨q, ents, in2, heq, hrep2, hgr⟩ :=
      @newProcessBlock_rep degree isWitness cls f p n inners L1 Lr b es hrep
        (fun x hx => hf (b, es) (List.mem_cons_self _ _) x hx)
    obtain ⟨q2, L2, in3, heq2, hrep3, hpr⟩ :=
      newPassBlocks_rep Lr (L1 ++ ents) q n in2 hrep2
        (fun he hm => hf he (List.mem_cons_of_mem _ hm))
    refine ⟨q2, ents ++ L2, in3, ?_, ?_, ?_⟩
    · show (newProcessBlock degree isWitness cls f p b >>= fun p1 =>
        newPassBlocks degree isWitness cls f p1 (Lr.map Prod.fst)) = some q2
      rw [heq]
      exact heq2
    · rw [List.append_assoc] at hrep3
      exact hrep3
    · exact PassRefines.cons b es ents Lr L2 hgr hpr

theorem newPasses_rep {degree : Nat} {isWitness : Bool} :
    ∀ (fs : List (Nat → Nat)) (cls : Nat) (p : Partition) (n inners : Nat)
      (L : List (Nat × List Nat)),
      EngineRep p n L inners →
      (∀ g ∈ fs, ∀ x, x < n → g x < degree) →
      ∃ q L2 inners2, newPasses degree isWitness cls fs p = some q ∧
        EngineRep q n L2 inners2 ∧ PassChain fs L L2
  | [], _, p, n, inners, L, hrep, _ => ⟨p, L, inners, rfl, hrep, PassChain.nil L⟩
  | f :: fs, cls, p, n, inners, L, hrep, hfs => by
    obtain ⟨es0, hh⟩ := hrep.head0
    obtain ⟨Lr, hL⟩ : ∃ Lr, L = (0, es0) :: Lr := by
      cases L with
      | nil => cases hh
      | cons e Lx =>
        rw [List.head?_cons] at hh
        exact ⟨Lx, by rw [Option.some.inj hh]⟩
    subst hL
    have hseg : RingSeg p.blocks 0 ((0, es0) :: Lr) n 0 := ringOk_toSeg hrep.ring
    have h0notin : (0 : Nat) ∉ Lr.map Prod.fst := by
      have hnd := hrep.nodup
      rw [List.map_cons] at hnd
      exact (List.nodup_cons.mp hnd).1
    have hwalk := blockIndices_walk Lr (p.blocks.length + 1) p 0 n 0 0 es0 hseg
      (fun h hm => ⟨fun he => h0notin (he ▸ hm), fun he => h0notin (he ▸ hm)⟩)
      (by
        have hp := hrep.pool
        have hb := hrep.blocks_len
        have hl : ((0, es0) :: Lr).length = Lr.length + 1 := List.length_cons _ _
        omega)
    obtain ⟨q, L2, in2, heq, hrep2, hpass⟩ :=
      @newPassBlocks_rep degree isWitness cls f ((0, es0) :: Lr) [] p n inners hrep
        (fun he hm x hx => hfs f (List.mem_cons_self _ _) x (rep_elem_lt hrep he hm x hx))
    obtain ⟨q2, L3, in3, heq2, hrep3, hchain⟩ :=
      newPasses_rep fs (cls + 1) q n in2 L2 hrep2
        (fun g hg x hx => hfs g (List.mem_cons_of_mem _ hg) x hx)
    refine ⟨q2, L3, in3, ?_, hrep3, PassChain.cons f fs _ L2 L3 hpass hchain⟩
    show (Partition.blockIndices (p.blocks.length + 1) p 0 0 >>= fun snapshot =>
      newPassBlocks degree isWitness cls f p snapshot >>= fun p1 =>
      newPasses degree isWitness (cls + 1) fs p1) = some q2
    rw [hwalk]
    simp only [Option.bind_eq_bind, Option.some_bind]
    simp only [List.map_cons] at heq
    rw [heq]
    exact heq2

theorem passRefines_sameRun {f : Nat → Nat} {v u : Nat} {L L2 : List (Nat × List Nat)}
    (hpr : PassRefines f L L2) :
    sameRun L2 v u ↔ sameRun L v u ∧ f v = f u := by
  induction hpr with
  | nil =>
    constructor
    · rintro ⟨he, hm, _⟩
      exact absurd hm (List.not_mem_nil he)
    · rintro ⟨⟨he, hm, _⟩, _⟩
      exact absurd hm (List.not_mem_nil he)
  | cons h es ents rest rest2 hgr hrest ih =>
    constructor
    · rintro ⟨he, hm, hv, hu⟩
      rcases List.mem_append.mp hm with h1 | h2
      · obtain ⟨hne, c, hc⟩ := hgr.1 he h1
        have hv2 := (hc v).mp hv
        have hu2 := (hc u).mp hu
        exact ⟨⟨(h, es), List.mem_cons_self _ _, hv2.1, hu2.1⟩, by rw [hv2.2, hu2.2]⟩
      · obtain ⟨⟨he2, hm2, hv2, hu2⟩, hfeq⟩ := ih.mp ⟨he, h2, hv, hu⟩
        exact ⟨⟨he2, List.mem_cons_of_mem _ hm2, hv2, hu2⟩, hfeq⟩
    · rintro ⟨⟨he, hm, hv, hu⟩, hfeq⟩
      rcases List.mem_cons.mp hm with he1 | h2
      · have hv2 : v ∈ es := by rw [he1] at hv; exact hv
        have hu2 : u ∈ es := by rw [he1] at hu; exact hu
        obtain ⟨ent, hent, hvent⟩ := hgr.2 v hv2
        obtain ⟨hne, c, hc⟩ := hgr.1 ent hent
        have hvc := (hc v).mp hvent
        have huent : u ∈ ent.2 := (hc u).mpr ⟨hu2, by rw [← hfeq, hvc.2]⟩
        exact ⟨ent, List.mem_append.mpr (Or.inl hent), hvent, huent⟩
      · obtain ⟨he2, hm2, hv2, hu2⟩ := ih.mpr ⟨⟨he, h2, hv, hu⟩, hfeq⟩
        exact ⟨he2, List.mem_append.mpr (Or.inr hm2), hv2, hu2⟩

theorem passChain_sameRun {v u : Nat} {fs : List (Nat → Nat)}
    {L L2 : List (Nat × List Nat)} (hch : PassChain fs L L2) :
    sameRun L2 v u ↔ sameRun L v u ∧ ∀ g ∈ fs, g v = g u := by
  induction hch with
  | nil L => simp
  | cons f fs L L1 L2 hpr hrest ih =>
    rw [ih, passRefines_sameRun hpr]
    constructor
    · rintro ⟨⟨hs, hf⟩, hall⟩
      refine ⟨hs, fun g hg => ?_⟩
      rcases List.mem_cons.mp hg with he | hm
      · rw [he]
        exact hf
      · exact hall g hm
    · rintro ⟨hs, hall⟩
      exact ⟨⟨hs, hall f (List.mem_cons_self _ _)⟩,
        fun g hg => hall g (List.mem_cons_of_mem _ hg)⟩

theorem new_initial_rep (n degree : Nat) (hn : 1 ≤ n) :
    EngineRep
      { indices := List.range n
        partition := (List.range n).map (fun i => (i, 0))
        blocks := ⟨n, 0, 0, 0, []⟩ :: List.replicate (2 * n - 2) ⟨0, 0, 0, 0, []⟩
        available := List.range' 1 (2 * n - 2)
        availableClosed := false
        splitgroups := []
        splitgroupsClosed := false
        degree := degree
        count := 1 }
      n [(0, List.range n)] 0 := by
  refine ⟨?_, ?_, ?_, ?_, ?_, ?_, ?_, ?_, ?_, ?_, ?_, ?_, ?_, ?_, ?_, ?_⟩
  · show (List.range n).map (fun i => (i, 0)) = runsOf [(0, List.range n)]
    simp [runsOf]
  · simp
  · simp
  · intro s pr hget
    simp only [] at hget
    rw [List.get?_eq_getElem?, List.getElem?_map] at hget
    by_cases hs : s < n
    · rw [List.getElem?_eq_getElem (by simpa using hs)] at hget
      have hpr : pr = (s, 0) := by
        have h2 : (some ((s : Nat), 0) : Option (Nat × Nat)) = some pr := by
          rw [← hget]
          simp [List.getElem_range]
        exact (Option.some.inj h2).symm
      subst hpr
      constructor
      · show (List.range n).get? s = some s
        rw [List.get?_eq_getElem?, List.getElem?_eq_getElem (by simpa using hs)]
        simp [List.getElem_range]
      · simpa using hs
    · rw [List.getElem?_eq_none (by simpa using hs)] at hget
      exact absurd hget (by simp)
  · exact ⟨List.range n, rfl⟩
  · simp only [List.length_cons, List.length_replicate]
    omega
  · intro he hm
    have hhe : he = (0, List.range n) := by simpa using hm
    rw [hhe]
    simp only []
    intro hcon
    rw [List.range_eq_nil] at hcon
    omega
  · simp
  · refine ⟨⟨n, 0, 0, 0, []⟩, rfl, rfl, rfl, by simp, ?_⟩
    show n - (List.range n).length = 0
    simp
  · exact List.nodup_range' _ _
  · intro h hm
    rw [List.mem_range'_1] at hm
    omega
  · intro h hm
    rw [List.mem_range'_1] at hm
    simp only [List.map_cons, List.map_nil]
    intro hc
    have : h = 0 := by simpa using hc
    omega
  · rfl
  · simp only [List.length_range', List.length_cons, List.length_nil]
    omega
  · simp
  · rfl

theorem rep_value_mem {p : Partition} {n inners : Nat} {L : List (Nat × List Nat)}
    (hrep : EngineRep p n L inners) : ∀ v, v < n → ∃ he ∈ L, v ∈ he.2 := by
  have hnd : (p.partition.map Prod.fst).Nodup := by
    rw [List.nodup_iff_injective_get]
    intro i j hij
    have hlm : (p.partition.map Prod.fst).length = p.partition.length :=
      List.length_map _ _
    have hil : i.1 < p.partition.length := by
      have h := i.isLt
      omega
    have hjl : j.1 < p.partition.length := by
      have h := j.isLt
      omega
    have hgi : (p.partition.map Prod.fst).get i = (p.partition.get ⟨i.1, hil⟩).1 := by
      rw [List.get_map]
    have hgj : (p.partition.map Prod.fst).get j = (p.partition.get ⟨j.1, hjl⟩).1 := by
      rw [List.get_map]
    have hsi := List.get?_eq_get hil
    have hsj := List.get?_eq_get hjl
    have h1 := (hrep.inv i.1 _ hsi).1
    have h2 := (hrep.inv j.1 _ hsj).1
    rw [hgi, hgj] at hij
    rw [hij] at h1
    have hv := Option.some.inj (h1.symm.trans h2)
    exact Fin.ext hv
  intro v hv
  have hlen : (p.partition.map Prod.fst).length = n := by
    rw [List.length_map, hrep.part_len]
  have hlt : ∀ x ∈ p.partition.map Prod.fst, x < n := by
    intro x hx
    obtain ⟨pr, hpr, hfx⟩ := List.mem_map.mp hx
    obtain ⟨s, hs⟩ := List.get?_of_mem hpr
    have h2 := (hrep.inv s pr hs).2
    rw [hrep.idx_len] at h2
    rw [← hfx]
    exact h2
  have hsub : (p.partition.map Prod.fst).toFinset ⊆ Finset.range n := by
    intro x hx
    rw [List.mem_toFinset] at hx
    rw [Finset.mem_range]
    exact hlt x hx
  have hcard : (p.partition.map Prod.fst).toFinset.card = n := by
    rw [List.toFinset_card_of_nodup hnd, hlen]
  have heqf : (p.partition.map Prod.fst).toFinset = Finset.range n := by
    apply Finset.eq_of_subset_of_card_le hsub
    rw [hcard, Finset.card_range]
  have hvm : v ∈ (p.partition.map Prod.fst).toFinset := by
    rw [heqf, Finset.mem_range]
    exact hv
  rw [List.mem_toFinset] at hvm
  obtain ⟨pr, hpr, hfx⟩ := List.mem_map.mp hvm
  rw [hrep.part_eq] at hpr
  obtain ⟨es1, hm1, hx1⟩ := mem_runsOf_iff.mp hpr
  rw [hfx] at hx1
  exact ⟨(pr.2, es1), hm1, hx1⟩

theorem rep_blockOf {p : Partition} {n inners : Nat} {L : List (Nat × List Nat)}
    (hrep : EngineRep p n L inners) {v h : Nat} {es : List Nat}
    (hm : (h, es) ∈ L) (hv : v ∈ es) : p.blockOf v = some h := by
  have hmem : (v, h) ∈ p.partition := by
    rw [hrep.part_eq]
    exact mem_runsOf_iff.mpr ⟨es, hm, hv⟩
  obtain ⟨s, hs⟩ := List.get?_of_mem hmem
  have hidx : p.indices.get? v = some s := (hrep.inv s (v, h) hs).1
  unfold Partition.blockOf
  simp only [Option.bind_eq_bind]
  rw [hidx]
  simp only [Option.some_bind]
  rw [hs]
  simp only [Option.some_bind]
  rfl

theorem rep_blockOf_eq_iff {p : Partition} {n inners : Nat} {L : List (Nat × List Nat)}
    (hrep : EngineRep p n L inners) {v u : Nat} (hv : v < n) (hu : u < n) :
    (p.blockOf v = p.blockOf u ↔ sameRun L v u) := by
  obtain ⟨hev, hmv, hvv⟩ := rep_value_mem hrep v hv
  obtain ⟨heu, hmu, huu⟩ := rep_value_mem hrep u hu
  obtain ⟨h1, es1⟩ := hev
  obtain ⟨h2, es2⟩ := heu
  have hbv : p.blockOf v = some h1 := rep_blockOf hrep hmv hvv
  have hbu : p.blockOf u = some h2 := rep_blockOf hrep hmu huu
  constructor
  · intro heq
    have hh : h1 = h2 := by
      have h3 := hbv.symm.trans (heq.trans hbu)
      exact Option.some.inj h3
    have hent : ((h1, es1) : Nat × List Nat) = (h2, es2) :=
      List.inj_on_of_nodup_map hrep.nodup hmv hmu hh
    have hes : es1 = es2 := congrArg Prod.snd hent
    exact ⟨(h1, es1), hmv, hvv, by rw [hes]; exact huu⟩
  · rintro ⟨he, hm, hv2, hu2⟩
    obtain ⟨h3, es3⟩ := he
    rw [rep_blockOf hrep hm hv2, rep_blockOf hrep hm hu2]

/-- C2: after `New n degree isWitness fs` with `n ≥ 1` and every class
function mapping `[0, n)` into `[0, degree)`, construction succeeds and two
values `v, u < n` lie in the same leaf block (same `blockOf` handle) iff every
class function agrees on them. -/
theorem new_same_leaf {n degree : Nat} {isWitness : Bool} {fs : List (Nat → Nat)}
    (hn : 1 ≤ n) (hfs : ∀ g ∈ fs, ∀ x, x < n → g x < degree) {v u : Nat}
    (hv : v < n) (hu : u < n) :
    ∃ q, New n degree isWitness fs = some q ∧
      (q.blockOf v = q.blockOf u ↔ ∀ g ∈ fs, g v = g u) := by
  obtain ⟨q, L2, in2, heq, hrep2, hchain⟩ :=
    @newPasses_rep degree isWitness fs 0 _ n 0 [(0, List.range n)]
      (new_initial_rep n degree hn) hfs
  refine ⟨q, ?_, ?_⟩
  · show New n degree isWitness fs = some q
    unfold New
    rw [if_neg (by omega)]
    exact heq
  · rw [rep_blockOf_eq_iff hrep2 hv hu, passChain_sameRun hchain]
    constructor
    · rintro ⟨_, hall⟩
      exact hall
    · intro hall
      refine ⟨⟨(0, List.range n), List.mem_cons_self _ _, ?_, ?_⟩, hall⟩
      · exact List.mem_range.mpr hv
      · exact List.mem_range.mpr hu

theorem new_same_leaf_witness :
    ∃ q, New 2 2 false [fun x => x % 2] = some q ∧
      (q.blockOf 0 = q.blockOf 1 ↔ ∀ g ∈ [fun x => x % 2], g 0 = g 1) :=
  @new_same_leaf 2 2 false [fun x => x % 2] (by decide)
    (by
      intro g hg x hx
      rw [List.mem_singleton.mp hg]
      exact Nat.mod_lt x (by decide)) 0 1 (by decide) (by decide)

/-- C9 (amended): for every `n ≥ 1`, any `degree`, any `record_witness` flag
and class functions mapping `[0, n)` into `[0, degree)`, `New` completes and
returns an engine; the `n = 0` case of the claim is refuted separately. -/
theorem new_succeeds {n degree : Nat} {isWitness : Bool} {fs : List (Nat → Nat)}
    (hn : 1 ≤ n) (hfs : ∀ g ∈ fs, ∀ x, x < n → g x < degree) :
    (New n degree isWitness fs).isSome := by
  obtain ⟨q, L2, in2, heq, hrep2, hchain⟩ :=
    @newPasses_rep degree isWitness fs 0 _ n 0 [(0, List.range n)]
      (new_initial_rep n degree hn) hfs
  unfold New
  rw [if_neg (by omega), heq]
  rfl

theorem new_succeeds_witness : (New 1 1 false [fun _ => (0 : Nat)]).isSome :=
  @new_succeeds 1 1 false [fun _ => (0 : Nat)] (by decide)
    (by
      intro g hg x hx
      rw [List.mem_singleton.mp hg]
      exact Nat.zero_lt_one)
